import Mathlib

/-!
# Verification of the aibanner-web-server selection pipeline

Shallow embedding of the selection/rendering modules of the daily-news
pipeline (`workflow/selection/scorer.py`, `dedup.py`, `diversity.py`,
`workflow/article/blog.py`, `workflow/gpt/text_cleaner.py`,
`workflow/mainflow.py`) together with proofs and refutations of the
spec-level claims about them.

Python floats are modelled as real numbers (`ℝ`) where transcendental
arithmetic occurs (the scorer) and as rationals (`ℚ`) where only ordering
and field arithmetic matter (focus scores, confidences, similarity
ratios).  Python dicts are modelled as insertion-ordered association
lists, mirroring CPython's ordered-dict semantics (update-in-place keeps
the position, fresh insert appends, delete removes).  Python `==` between
article objects (identity on plain objects) is modelled as structural
equality on the `Article` structure; two structurally equal articles are
indistinguishable to every operation modelled here.
-/

/-! ## Shared string helpers -/

/-- `beginsWith needle hay` : `needle` is a prefix of `hay` (on char lists). -/
def beginsWith : List Char → List Char → Bool
  | [], _ => true
  | _ :: _, [] => false
  | a :: as, b :: bs => a == b && beginsWith as bs

/-- `containsSub needle hay` : `needle` occurs contiguously inside `hay`
(Python's `needle in hay` on strings). -/
def containsSub (needle : List Char) : List Char → Bool
  | [] => needle.isEmpty
  | c :: t => beginsWith needle (c :: t) || containsSub needle t

namespace Scorer

/-! ## `workflow/selection/scorer.py` (over `ℝ`)

Dates are modelled as real numbers of seconds; the code computes
`hours_old = (now - article_date).total_seconds() / 3600.0`.  Only the
timezone-aware branch is modelled (the claim quantifies over
timezone-aware datetimes, for which the `tzinfo is None` branch is dead).
-/

/-- One entry of `configuration.selection.scoring.penalties`:
`{if_title_or_content_contains_any, subtract}`. -/
structure PenaltyRule where
  keywords : List String
  subtract : ℝ

/-- A penalty rule fires when some keyword, lowercased, occurs as a substring
of the (already lowercased) combined text.  In `apply_penalties` the inner
loop breaks after the first matching keyword, so each rule subtracts at most
once; firing is therefore exactly `List.any`. -/
def ruleHits (r : PenaltyRule) (combined : String) : Bool :=
  r.keywords.any fun k => containsSub k.toLower.data combined.data

/-- `calculate_recency_score` (scorer.py lines 12-40): exponential decay from
5, a flat −0.5 once `hours_old > 24`, clamped into `[0, 5]`. -/
noncomputable def calculate_recency_score (now article_date : ℝ)
    (half_life_hours : ℝ) : ℝ :=
  let hours_old := (now - article_date) / 3600
  let recency := 5 * Real.rpow 0.5 (hours_old / half_life_hours)
  let recency2 := if hours_old > 24 then recency - 0.5 else recency
  max 0 (min 5 recency2)

/-- `apply_penalties` (scorer.py lines 43-74): subtract each firing rule's
`subtract` from the base score, flooring at 0 once at the end. -/
noncomputable def apply_penalties (base_score : ℝ) (article_title article_summary : String)
    (penalties : List PenaltyRule) : ℝ :=
  let combined_text := (article_title ++ " " ++ article_summary).toLower
  max 0 (penalties.foldl
    (fun acc r => if ruleHits r combined_text then acc - r.subtract else acc)
    base_score)

/-- The fields of the evaluation mapping read by `calculate_score`. -/
structure EvalScores where
  impact : ℝ
  novelty : ℝ
  proofs : ℝ
  title : String
  summary : String

/-- The scoring part of the configuration
(`configuration.selection.scoring`). -/
structure ScoringConfig where
  half_life_hours : ℝ
  penalties : List PenaltyRule

/-- `calculate_score` (scorer.py lines 77-129). -/
noncomputable def calculate_score (ev : EvalScores) (now article_date : ℝ)
    (cfg : ScoringConfig) : ℝ :=
  let recency := calculate_recency_score now article_date cfg.half_life_hours
  let base_score := 0.35 * ev.impact + 0.25 * ev.novelty + 0.25 * ev.proofs
    + 0.15 * recency
  apply_penalties base_score ev.title ev.summary cfg.penalties

/-! Claim-side definitions, written from the spec's words: recency is the
clamp to `[0,5]` of `5·0.5^(hours_old/half_life) − (0.5 when hours_old>24)`,
and the score is `max(0, weighted base − Σ subtract over firing rules)`.
`⊕` in the spec denotes the space-joined concatenation the code builds. -/

/-- Recency as the claim states it. -/
noncomputable def specRecency (now article_date half_life_hours : ℝ) : ℝ :=
  let hours_old := (now - article_date) / 3600
  max 0 (min 5 (5 * Real.rpow 0.5 (hours_old / half_life_hours)
    - (if hours_old > 24 then 0.5 else 0)))

/-- The final score as the claim states it: the weighted sum minus the sum of
`subtract` over the rules with at least one case-insensitively occurring
keyword, floored at 0. -/
noncomputable def specScore (ev : EvalScores) (now article_date : ℝ)
    (cfg : ScoringConfig) : ℝ :=
  let combined := (ev.title ++ " " ++ ev.summary).toLower
  max 0 (0.35 * ev.impact + 0.25 * ev.novelty + 0.25 * ev.proofs
    + 0.15 * specRecency now article_date cfg.half_life_hours
    - ((cfg.penalties.filter (fun r => ruleHits r combined)).map
        PenaltyRule.subtract).sum)

theorem recency_eq (now article_date half : ℝ) :
    calculate_recency_score now article_date half =
      specRecency now article_date half := by
  unfold calculate_recency_score specRecency
  by_cases h : (now - article_date) / 3600 > 24 <;> simp [h]

theorem penalty_fold_eq (combined : String) (l : List PenaltyRule) (b : ℝ) :
    l.foldl (fun acc r => if ruleHits r combined then acc - r.subtract else acc) b
      = b - ((l.filter (fun r => ruleHits r combined)).map PenaltyRule.subtract).sum := by
  induction l generalizing b with
  | nil => simp
  | cons r t ih =>
      by_cases h : ruleHits r combined
      · simp only [List.foldl_cons, List.filter_cons, h, if_pos, List.map_cons,
          List.sum_cons, ih]
        ring
      · simp [h, ih]

end Scorer

/-- **C1.** For every evaluation mapping with numeric impact, novelty and
proof, every timezone-aware article datetime, and every configuration,
`calculate_score` returns
`max(0, 0.35·impact + 0.25·novelty + 0.25·proof + 0.15·recency − Σ subtract)`
where the sum ranges over penalty rules having at least one keyword that
occurs case-insensitively in the title⊕summary text, each rule subtracting at
most once, and `recency` is the clamp to `[0,5]` of
`5·0.5^(hours_old/half_life_hours) − (0.5 when hours_old > 24)` with
`hours_old` measured from UTC now against the article's publication time. -/
theorem calculate_score_matches_spec (ev : Scorer.EvalScores)
    (now article_date : ℝ) (cfg : Scorer.ScoringConfig) :
    Scorer.calculate_score ev now article_date cfg =
      Scorer.specScore ev now article_date cfg := by
  simp only [Scorer.calculate_score, Scorer.specScore, Scorer.apply_penalties,
    Scorer.penalty_fold_eq, Scorer.recency_eq]

/-! ## Article data model for selection (`dedup.py`, `diversity.py`)

The fields read by the dedup and diversity modules.  Focus score,
`ainews_confidence` and the evaluation score are rationals (Python floats
used only through ordering and arithmetic comparisons). -/

/-- The parts of the LLM evaluation mapping read by selection. -/
structure Evaluate where
  title : String
  summary : String
  topic : String
  score : ℚ
  link : String
deriving DecidableEq

structure Article where
  link : String
  title : String
  tier : String
  origin_type : String
  ainews_confidence : ℚ
  score : ℚ
  evaluate : Evaluate
deriving DecidableEq

namespace Diversity

/-! ## `workflow/selection/diversity.py` -/

/-- `configuration.selection.diversity_quotas` : `min` and `max` dicts keyed
by topic. -/
structure DiversityQuotas where
  minq : List (String × Nat)
  maxq : List (String × Nat)
deriving DecidableEq

/-- Dict lookup (`d.get(k)`), first matching key. -/
def qLookup : List (String × Nat) → String → Option Nat
  | [], _ => none
  | (k', v) :: t, k => if k' = k then some v else qLookup t k

/-- `topic_counts[topic]` of a `defaultdict(int)`. -/
def cnt (m : List (String × Nat)) (k : String) : ℕ := (qLookup m k).getD 0

/-- `topic_counts[topic] += 1` on a `defaultdict(int)`. -/
def bump : List (String × Nat) → String → List (String × Nat)
  | [], k => [(k, 1)]
  | (k', v) :: t, k => if k' = k then (k', v + 1) :: t else (k', v) :: bump t k

/-- `articles_by_topic.get(topic, [])`: the input articles of one topic in
input order (`defaultdict` grouping preserves order within a topic). -/
def topicArticles (articles : List Article) (t : String) : List Article :=
  articles.filter fun a => a.evaluate.topic = t

/-- Insertion step of a stable descending sort by `evaluate.get("score", 0)`:
an earlier element goes before a later one iff its key is ≥.  Any stable sort
computes the same list as Python's stable `sorted(..., reverse=True)`. -/
def insertDesc (a : Article) : List Article → List Article
  | [] => [a]
  | b :: t => if b.evaluate.score ≤ a.evaluate.score then a :: b :: t
              else b :: insertDesc a t

/-- `sorted(available, key=lambda x: x.evaluate.get("score", 0), reverse=True)`. -/
def sortByScoreDesc (l : List Article) : List Article := l.foldr insertDesc []

structure SelState where
  selected : List Article
  counts : List (String × Nat)
deriving DecidableEq

/-- Phase 1 body for one `(topic, min_count)` item: take the top
`min(min_count, len(available))` of the topic's score-sorted articles,
appending each one not already selected. -/
def phase1Step (articles : List Article) (st : SelState) (q : String × Nat) :
    SelState :=
  let avail := sortByScoreDesc (topicArticles articles q.1)
  let picks := avail.take (min q.2 avail.length)
  picks.foldl
    (fun s a => if a ∈ s.selected then s
                else ⟨s.selected ++ [a], bump s.counts q.1⟩) st

/-- Phase 1: iterate `min_quotas.items()` in order. -/
def phase1 (articles : List Article) (minq : List (String × Nat)) : SelState :=
  minq.foldl (phase1Step articles) ⟨[], []⟩

/-- Phase 2: walk the unselected articles; stop when `remaining_slots <= 0`;
skip an article whose topic has reached its declared maximum
(`max_quotas.get(topic, float('inf'))`). -/
def phase2 (maxq : List (String × Nat)) :
    List Article → SelState → ℤ → SelState
  | [], st, _ => st
  | a :: rest, st, remaining =>
    if remaining ≤ 0 then st
    else
      match qLookup maxq a.evaluate.topic with
      | some mq =>
          if mq ≤ cnt st.counts a.evaluate.topic then phase2 maxq rest st remaining
          else phase2 maxq rest ⟨st.selected ++ [a], bump st.counts a.evaluate.topic⟩
            (remaining - 1)
      | none => phase2 maxq rest ⟨st.selected ++ [a], bump st.counts a.evaluate.topic⟩
          (remaining - 1)

/-- `enforce_diversity_quotas` (diversity.py lines 11-93). -/
def enforce_diversity_quotas (articles : List Article) (cfg : DiversityQuotas)
    (target_count : ℕ) : List Article :=
  let st1 := phase1 articles cfg.minq
  let unselected := articles.filter fun a => a ∉ st1.selected
  (phase2 cfg.maxq unselected st1 ((target_count : ℤ) - st1.selected.length)).selected

/-- Number of selected articles of a topic. -/
def countTopic (l : List Article) (t : String) : ℕ :=
  (l.filter fun a => a.evaluate.topic = t).length

end Diversity

namespace Diversity

/-! ### Helper lemmas for the diversity selector -/

theorem insertDesc_perm (a : Article) (l : List Article) :
    List.Perm (insertDesc a l) (a :: l) := by
  induction l with
  | nil => rfl
  | cons b t ih =>
      by_cases h : b.evaluate.score ≤ a.evaluate.score
      · simp [insertDesc, h]
      · simp only [insertDesc, h, if_neg, not_false_iff]
        exact (ih.cons b).trans (List.Perm.swap a b t)

theorem sortByScoreDesc_perm (l : List Article) :
    List.Perm (sortByScoreDesc l) l := by
  induction l with
  | nil => rfl
  | cons a t ih => exact (insertDesc_perm a (sortByScoreDesc t)).trans (ih.cons a)

/-- The inner Phase-1 fold over one topic's picks. -/
def pickFold (tp : String) (picks : List Article) (st : SelState) : SelState :=
  picks.foldl
    (fun s a => if a ∈ s.selected then s
                else ⟨s.selected ++ [a], bump s.counts tp⟩) st

theorem phase1Step_eq_pickFold (articles : List Article) (st : SelState)
    (q : String × Nat) :
    phase1Step articles st q =
      pickFold q.1 ((sortByScoreDesc (topicArticles articles q.1)).take
        (min q.2 (sortByScoreDesc (topicArticles articles q.1)).length)) st := rfl

theorem pickFold_cons_mem (tp : String) (a : Article) (t : List Article)
    (st : SelState) (h : a ∈ st.selected) :
    pickFold tp (a :: t) st = pickFold tp t st := by
  simp only [pickFold, List.foldl_cons, if_pos h]

theorem pickFold_cons_not_mem (tp : String) (a : Article) (t : List Article)
    (st : SelState) (h : a ∉ st.selected) :
    pickFold tp (a :: t) st =
      pickFold tp t ⟨st.selected ++ [a], bump st.counts tp⟩ := by
  simp only [pickFold, List.foldl_cons, if_neg h]

theorem pickFold_sublist (tp : String) (picks : List Article) (st : SelState) :
    List.Sublist st.selected (pickFold tp picks st).selected := by
  induction picks generalizing st with
  | nil => exact List.Sublist.refl _
  | cons a t ih =>
      by_cases h : a ∈ st.selected
      · rw [pickFold_cons_mem tp a t st h]; exact ih st
      · rw [pickFold_cons_not_mem tp a t st h]
        exact List.Sublist.trans (List.sublist_append_left st.selected [a])
          (ih ⟨st.selected ++ [a], bump st.counts tp⟩)

theorem pickFold_length (tp : String) (picks : List Article) (st : SelState) :
    (pickFold tp picks st).selected.length ≤ st.selected.length + picks.length := by
  induction picks generalizing st with
  | nil => simp [pickFold]
  | cons a t ih =>
      by_cases h : a ∈ st.selected
      · rw [pickFold_cons_mem tp a t st h]
        have := ih st
        simp only [List.length_cons]
        omega
      · rw [pickFold_cons_not_mem tp a t st h]
        have := ih ⟨st.selected ++ [a], bump st.counts tp⟩
        simp only [List.length_append, List.length_cons, List.length_nil] at this
        simp only [List.length_cons]
        omega

theorem pickFold_mem (tp : String) (picks : List Article) (st : SelState)
    (a : Article) (ha : a ∈ picks) : a ∈ (pickFold tp picks st).selected := by
  induction picks generalizing st with
  | nil => cases ha
  | cons b t ih =>
      rcases List.mem_cons.1 ha with rfl | hat
      · by_cases h : a ∈ st.selected
        · rw [pickFold_cons_mem tp a t st h]
          exact (pickFold_sublist tp t st).subset h
        · rw [pickFold_cons_not_mem tp a t st h]
          exact (pickFold_sublist tp t _).subset (by simp)
      · by_cases h : b ∈ st.selected
        · rw [pickFold_cons_mem tp b t st h]; exact ih st hat
        · rw [pickFold_cons_not_mem tp b t st h]
          exact ih ⟨st.selected ++ [b], bump st.counts tp⟩ hat

theorem phase1_fold_sublist (articles : List Article)
    (entries : List (String × Nat)) (st : SelState) :
    List.Sublist st.selected ((entries.foldl (phase1Step articles) st).selected) := by
  induction entries generalizing st with
  | nil => exact List.Sublist.refl _
  | cons q rest ih =>
      refine List.Sublist.trans ?_ (ih (phase1Step articles st q))
      rw [phase1Step_eq_pickFold]
      exact pickFold_sublist _ _ _

theorem phase2_sublist (maxq : List (String × Nat)) (l : List Article)
    (st : SelState) (r : ℤ) :
    List.Sublist st.selected ((phase2 maxq l st r).selected) := by
  induction l generalizing st r with
  | nil => exact List.Sublist.refl _
  | cons a rest ih =>
      by_cases hr : r ≤ 0
      · simp [phase2, hr]
      · cases hq : qLookup maxq a.evaluate.topic with
        | some mq =>
            by_cases hc : mq ≤ cnt st.counts a.evaluate.topic
            · simp only [phase2, hr, if_neg, not_false_iff, hq, hc, if_pos]
              exact ih st r
            · simp only [phase2, hr, if_neg, not_false_iff, hq, hc]
              have h3 := ih ⟨st.selected ++ [a], bump st.counts a.evaluate.topic⟩ (r - 1)
              exact List.Sublist.trans (List.sublist_append_left st.selected [a]) h3
        | none =>
            simp only [phase2, hr, if_neg, not_false_iff, hq]
            have h3 := ih ⟨st.selected ++ [a], bump st.counts a.evaluate.topic⟩ (r - 1)
            exact List.Sublist.trans (List.sublist_append_left st.selected [a]) h3

theorem phase2_length (maxq : List (String × Nat)) (l : List Article)
    (st : SelState) (r : ℤ) :
    (phase2 maxq l st r).selected.length ≤ st.selected.length + (max 0 r).toNat := by
  induction l generalizing st r with
  | nil => simp [phase2]
  | cons a rest ih =>
      by_cases hr : r ≤ 0
      · simp [phase2, hr]
      · cases hq : qLookup maxq a.evaluate.topic with
        | some mq =>
            by_cases hc : mq ≤ cnt st.counts a.evaluate.topic
            · simp only [phase2, hr, if_neg, not_false_iff, hq, hc, if_pos]
              have := ih st r
              omega
            · simp only [phase2, hr, if_neg, not_false_iff, hq, hc]
              have := ih ⟨st.selected ++ [a], bump st.counts a.evaluate.topic⟩ (r - 1)
              simp only [List.length_append, List.length_cons, List.length_nil] at this
              omega
        | none =>
            simp only [phase2, hr, if_neg, not_false_iff, hq]
            have := ih ⟨st.selected ++ [a], bump st.counts a.evaluate.topic⟩ (r - 1)
            simp only [List.length_append, List.length_cons, List.length_nil] at this
            omega

theorem phase1_length (articles : List Article) (minq : List (String × Nat)) :
    (phase1 articles minq).selected.length ≤
      (minq.map fun q => min q.2 (topicArticles articles q.1).length).sum := by
  suffices h : ∀ st : SelState, (minq.foldl (phase1Step articles) st).selected.length ≤
      st.selected.length +
        (minq.map fun q => min q.2 (topicArticles articles q.1).length).sum by
    simpa [phase1] using h ⟨[], []⟩
  induction minq with
  | nil => intro st; simp
  | cons q rest ih =>
      intro st
      have h1 : (phase1Step articles st q).selected.length ≤
          st.selected.length + min q.2 (topicArticles articles q.1).length := by
        rw [phase1Step_eq_pickFold]
        have hlen := pickFold_length q.1
          ((sortByScoreDesc (topicArticles articles q.1)).take
            (min q.2 (sortByScoreDesc (topicArticles articles q.1)).length)) st
        have hL : (sortByScoreDesc (topicArticles articles q.1)).length =
            (topicArticles articles q.1).length :=
          (sortByScoreDesc_perm _).length_eq
        simp only [List.length_take, hL] at hlen ⊢
        omega
      have h2 := ih (phase1Step articles st q)
      simp only [List.foldl_cons, List.map_cons, List.sum_cons]
      omega

theorem cnt_bump (m : List (String × Nat)) (k tp : String) :
    cnt (bump m k) tp = cnt m tp + (if k = tp then 1 else 0) := by
  induction m with
  | nil =>
      by_cases h : k = tp <;> simp [bump, cnt, qLookup, h]
  | cons p t ih =>
      obtain ⟨k', v⟩ := p
      by_cases hk : k' = k
      · subst hk
        by_cases h : k' = tp <;> simp [bump, cnt, qLookup, h]
      · by_cases h : k' = tp
        · subst h
          have : k ≠ k' := fun hh => hk hh.symm
          simp [bump, cnt, qLookup, hk, this]
        · simp only [bump, if_neg hk]
          simp only [cnt, qLookup, if_neg h]
          simpa only [cnt] using ih

theorem countTopic_append (l1 l2 : List Article) (t : String) :
    countTopic (l1 ++ l2) t = countTopic l1 t + countTopic l2 t := by
  simp [countTopic, List.filter_append]

theorem countTopic_single (a : Article) (t : String) :
    countTopic [a] t = if a.evaluate.topic = t then 1 else 0 := by
  by_cases h : a.evaluate.topic = t <;> simp [countTopic, h]

/-- `topic_counts` agrees with the per-topic count of `selected`. -/
def countsOk (st : SelState) : Prop :=
  ∀ tp, cnt st.counts tp = countTopic st.selected tp

theorem pickFold_countsOk (tp : String) (picks : List Article) (st : SelState)
    (hp : ∀ a ∈ picks, a.evaluate.topic = tp) (h : countsOk st) :
    countsOk (pickFold tp picks st) := by
  induction picks generalizing st with
  | nil => exact h
  | cons a t ih =>
      have hat : a.evaluate.topic = tp := hp a (by simp)
      have hp' : ∀ b ∈ t, b.evaluate.topic = tp := fun b hb => hp b (by simp [hb])
      by_cases hm : a ∈ st.selected
      · rw [pickFold_cons_mem tp a t st hm]; exact ih st hp' h
      · rw [pickFold_cons_not_mem tp a t st hm]
        refine ih ⟨st.selected ++ [a], bump st.counts tp⟩ hp' ?_
        intro tp'
        have := h tp'
        simp only [cnt_bump, countTopic_append, countTopic_single, hat, this]

theorem pickFold_countTopic_le (tp : String) (picks : List Article)
    (st : SelState) (t' : String) :
    countTopic (pickFold tp picks st).selected t' ≤
      countTopic st.selected t' + picks.length := by
  induction picks generalizing st with
  | nil => simp [pickFold]
  | cons a t ih =>
      by_cases hm : a ∈ st.selected
      · rw [pickFold_cons_mem tp a t st hm]
        have := ih st
        simp only [List.length_cons]
        omega
      · rw [pickFold_cons_not_mem tp a t st hm]
        have := ih ⟨st.selected ++ [a], bump st.counts tp⟩
        simp only [countTopic_append, countTopic_single, List.length_cons] at this ⊢
        by_cases hh : a.evaluate.topic = t' <;> simp [hh] at this <;> omega

theorem pickFold_countTopic_other (tp : String) (picks : List Article)
    (st : SelState) (t' : String) (htp : ∀ a ∈ picks, a.evaluate.topic ≠ t') :
    countTopic (pickFold tp picks st).selected t' = countTopic st.selected t' := by
  induction picks generalizing st with
  | nil => rfl
  | cons a t ih =>
      have hat : a.evaluate.topic ≠ t' := htp a (by simp)
      have htp' : ∀ b ∈ t, b.evaluate.topic ≠ t' := fun b hb => htp b (by simp [hb])
      by_cases hm : a ∈ st.selected
      · rw [pickFold_cons_mem tp a t st hm]; exact ih st htp'
      · rw [pickFold_cons_not_mem tp a t st hm]
        rw [ih ⟨st.selected ++ [a], bump st.counts tp⟩ htp']
        simp [countTopic_append, countTopic_single, hat]

theorem mem_picks_topic (articles : List Article) (q : String × Nat) (a : Article)
    (ha : a ∈ (sortByScoreDesc (topicArticles articles q.1)).take
      (min q.2 (sortByScoreDesc (topicArticles articles q.1)).length)) :
    a.evaluate.topic = q.1 ∧ a ∈ articles := by
  have h1 : a ∈ sortByScoreDesc (topicArticles articles q.1) :=
    List.mem_of_mem_take ha
  have h2 : a ∈ topicArticles articles q.1 :=
    (sortByScoreDesc_perm _).subset h1
  have h3 := List.mem_filter.1 h2
  exact ⟨by simpa using h3.2, h3.1⟩

theorem qLookup_eq_none (m : List (String × Nat)) (k : String)
    (h : ∀ p ∈ m, p.1 ≠ k) : qLookup m k = none := by
  induction m with
  | nil => rfl
  | cons p t ih =>
      have := h p (by simp)
      simp only [qLookup, if_neg this]
      exact ih fun p' hp' => h p' (by simp [hp'])

theorem phase1_fold_countsOk (articles : List Article)
    (entries : List (String × Nat)) (st : SelState) (h : countsOk st) :
    countsOk (entries.foldl (phase1Step articles) st) := by
  induction entries generalizing st with
  | nil => exact h
  | cons q rest ih =>
      refine ih (phase1Step articles st q) ?_
      rw [phase1Step_eq_pickFold]
      exact pickFold_countsOk _ _ _
        (fun a ha => (mem_picks_topic articles q a ha).1) h

theorem phase1_countsOk (articles : List Article) (minq : List (String × Nat)) :
    countsOk (phase1 articles minq) := by
  refine phase1_fold_countsOk articles minq ⟨[], []⟩ ?_
  intro tp; rfl

theorem phase1_fold_countTopic_le (articles : List Article)
    (entries : List (String × Nat)) (t : String)
    (hk : (entries.map Prod.fst).Nodup) (st : SelState) :
    countTopic (entries.foldl (phase1Step articles) st).selected t ≤
      countTopic st.selected t + (qLookup entries t).getD 0 := by
  induction entries generalizing st with
  | nil => simp
  | cons q rest ih =>
      have hk' : (rest.map Prod.fst).Nodup := (List.nodup_cons.1 hk).2
      by_cases hq : q.1 = t
      · have hnone : qLookup rest t = none := by
          refine qLookup_eq_none rest t ?_
          intro p hp hpt
          exact (List.nodup_cons.1 hk).1 (hq ▸ hpt ▸ List.mem_map_of_mem Prod.fst hp)
        have h1 : countTopic (phase1Step articles st q).selected t ≤
            countTopic st.selected t + q.2 := by
          rw [phase1Step_eq_pickFold]
          have := pickFold_countTopic_le q.1
            ((sortByScoreDesc (topicArticles articles q.1)).take
              (min q.2 (sortByScoreDesc (topicArticles articles q.1)).length)) st t
          simp only [List.length_take] at this
          omega
        have h2 := ih hk' (phase1Step articles st q)
        simp only [hnone, Option.getD_none] at h2
        simp only [List.foldl_cons, qLookup, if_pos hq, Option.getD_some]
        omega
      · have h1 : countTopic (phase1Step articles st q).selected t =
            countTopic st.selected t := by
          rw [phase1Step_eq_pickFold]
          refine pickFold_countTopic_other _ _ _ _ ?_
          intro a ha hat
          exact hq ((mem_picks_topic articles q a ha).1 ▸ hat)
        have h2 := ih hk' (phase1Step articles st q)
        simp only [List.foldl_cons, qLookup, if_neg hq]
        omega

theorem phase2_countTopic_le (maxq : List (String × Nat)) (l : List Article)
    (t : String) (M : ℕ) (hM : qLookup maxq t = some M) (st : SelState)
    (r : ℤ) (hok : countsOk st) (hst : countTopic st.selected t ≤ M) :
    countTopic (phase2 maxq l st r).selected t ≤ M := by
  induction l generalizing st r with
  | nil => exact hst
  | cons a rest ih =>
      by_cases hr : r ≤ 0
      · simpa [phase2, hr] using hst
      · have hok' : countsOk
            (⟨st.selected ++ [a], bump st.counts a.evaluate.topic⟩ : SelState) := by
          intro tp'
          have := hok tp'
          simp only [cnt_bump, countTopic_append, countTopic_single, this]
        by_cases hat : a.evaluate.topic = t
        · rw [hat] at hok'
          simp only [phase2, hr, if_neg, not_false_iff, hat, hM]
          by_cases hc : M ≤ cnt st.counts t
          · simp only [hc, if_pos]
            exact ih st r hok hst
          · simp only [hc, if_neg, not_false_iff]
            refine ih _ _ hok' ?_
            have hcnt := hok t
            simp [countTopic_append, countTopic_single, hat]
            omega
        · cases hq : qLookup maxq a.evaluate.topic with
          | some mq =>
              simp only [phase2, hr, if_neg, not_false_iff, hq]
              by_cases hc : mq ≤ cnt st.counts a.evaluate.topic
              · simp only [hc, if_pos]
                exact ih st r hok hst
              · simp only [hc, if_neg, not_false_iff]
                refine ih _ _ hok' ?_
                simp only [countTopic_append, countTopic_single, if_neg hat]
                omega
          | none =>
              simp only [phase2, hr, if_neg, not_false_iff, hq]
              refine ih _ _ hok' ?_
              simp only [countTopic_append, countTopic_single, if_neg hat]
              omega

end Diversity

namespace Diversity

theorem qLookup_split (m : List (String × Nat)) (k : String) (v : ℕ)
    (h : qLookup m k = some v) :
    ∃ pre post, m = pre ++ (k, v) :: post := by
  induction m with
  | nil => cases h
  | cons p t ih =>
      obtain ⟨k', v'⟩ := p
      by_cases hk : k' = k
      · subst hk
        have h' : v' = v := by simpa [qLookup] using h
        exact ⟨[], t, by rw [h']; rfl⟩
      · simp only [qLookup, if_neg hk] at h
        obtain ⟨pre, post, rfl⟩ := ih h
        exact ⟨(k', v') :: pre, post, rfl⟩

/-- Everything taken while satisfying a topic's minimum quota survives into
the final selection. -/
theorem picks_mem_enforce (articles : List Article) (minpre minpost maxq : List (String × Nat))
    (t : String) (m : ℕ) (target : ℕ) (a : Article)
    (ha : a ∈ (sortByScoreDesc (topicArticles articles t)).take
      (min m (sortByScoreDesc (topicArticles articles t)).length)) :
    a ∈ enforce_diversity_quotas articles ⟨minpre ++ (t, m) :: minpost, maxq⟩ target := by
  unfold enforce_diversity_quotas
  refine (phase2_sublist _ _ _ _).subset ?_
  show a ∈ (phase1 articles (minpre ++ (t, m) :: minpost)).selected
  unfold phase1
  rw [List.foldl_append, List.foldl_cons]
  refine (phase1_fold_sublist articles minpost _).subset ?_
  rw [phase1Step_eq_pickFold]
  exact pickFold_mem _ _ _ a ha

end Diversity

/-- **C2 (counterexample).** The claim says the diversity selector's output
has length at most `daily_target` for every configuration, including ones
whose minimum quotas exceed `daily_target`.  With `min = {A: 2}`,
`daily_target = 1` and two topic-`A` candidates, Phase 1 selects both and
Phase 2 cannot shrink the list, so the output has length 2 > 1. -/
theorem enforce_diversity_target_counterexample :
    (Diversity.enforce_diversity_quotas
      [⟨"l1", "t1", "P2_RAW", "raw", 0, 0, ⟨"t1", "s", "A", 5, "l1"⟩⟩,
       ⟨"l2", "t2", "P2_RAW", "raw", 0, 0, ⟨"t2", "s", "A", 4, "l2"⟩⟩]
      ⟨[("A", 2)], []⟩ 1).length = 2 := by decide

/-- **C2 (amended).** The list returned by `enforce_diversity_quotas` has
length at most `max(daily_target, Σ_T min(min[T], #pool articles of topic T))`;
in particular it has length at most `daily_target` whenever the minimum
quotas can be met within `daily_target` slots.  (The claim's unconditional
bound `≤ daily_target` fails when the minimum quotas overshoot the target,
as the counterexample shows: Phase 1 ignores `target_count`.) -/
theorem enforce_diversity_length_bound (articles : List Article)
    (cfg : Diversity.DiversityQuotas) (target : ℕ) :
    (Diversity.enforce_diversity_quotas articles cfg target).length ≤
      max target ((cfg.minq.map fun q =>
        min q.2 (Diversity.topicArticles articles q.1).length).sum) := by
  have h1 := Diversity.phase1_length articles cfg.minq
  have h2 := Diversity.phase2_length cfg.maxq
    (articles.filter fun a => a ∉ (Diversity.phase1 articles cfg.minq).selected)
    (Diversity.phase1 articles cfg.minq)
    ((target : ℤ) - (Diversity.phase1 articles cfg.minq).selected.length)
  simp only [Diversity.enforce_diversity_quotas]
  omega

/-- **C3 (counterexample).** The claim asserts the output never contains more
than `max[T]` articles of a topic `T` with a declared maximum, for every
configuration.  With `min = {A: 2}`, `max = {A: 1}` and two topic-`A`
candidates, Phase 1 (which never consults the maxima) selects both, so the
output holds 2 > 1 topic-`A` articles. -/
theorem enforce_diversity_max_counterexample :
    Diversity.countTopic
      (Diversity.enforce_diversity_quotas
        [⟨"l1", "t1", "P2_RAW", "raw", 0, 0, ⟨"t1", "s", "A", 5, "l1"⟩⟩,
         ⟨"l2", "t2", "P2_RAW", "raw", 0, 0, ⟨"t2", "s", "A", 4, "l2"⟩⟩]
        ⟨[("A", 2)], [("A", 1)]⟩ 12) "A" = 2 := by decide

/-- **C3 (amended).** For a deduplicated (duplicate-free) pool and dict-like
quota tables (distinct keys): (a) if topic `t` has a declared minimum `m` and
the pool holds at least `m` articles of `t`, the output holds at least `m`
articles of `t`; (b) if topic `t` has a declared maximum `M`, the output
holds at most `M` articles of `t` *provided* `t`'s minimum quota (0 when
absent) does not exceed `M` — the unconditional maximum of the claim fails
when `min[t] > max[t]`, as the counterexample shows. -/
theorem enforce_diversity_quota_bounds (articles : List Article)
    (cfg : Diversity.DiversityQuotas) (target : ℕ) (t : String)
    (hnd : articles.Nodup) (hk : (cfg.minq.map Prod.fst).Nodup) :
    (∀ m, Diversity.qLookup cfg.minq t = some m →
      m ≤ Diversity.countTopic articles t →
      m ≤ Diversity.countTopic
        (Diversity.enforce_diversity_quotas articles cfg target) t) ∧
    (∀ M, Diversity.qLookup cfg.maxq t = some M →
      (Diversity.qLookup cfg.minq t).getD 0 ≤ M →
      Diversity.countTopic
        (Diversity.enforce_diversity_quotas articles cfg target) t ≤ M) := by
  obtain ⟨minq, maxq⟩ := cfg
  constructor
  · intro m hm hc
    obtain ⟨pre, post, hsplit⟩ := Diversity.qLookup_split minq t m hm
    subst hsplit
    set picks := (Diversity.sortByScoreDesc (Diversity.topicArticles articles t)).take
      (min m (Diversity.sortByScoreDesc (Diversity.topicArticles articles t)).length)
      with hpicks
    have hL : (Diversity.sortByScoreDesc (Diversity.topicArticles articles t)).length =
        (Diversity.topicArticles articles t).length :=
      (Diversity.sortByScoreDesc_perm _).length_eq
    have hct : Diversity.countTopic articles t =
        (Diversity.topicArticles articles t).length := rfl
    have hplen : picks.length = m := by
      rw [hpicks]
      simp only [List.length_take, hL]
      omega
    have hpnd : picks.Nodup := by
      refine List.Nodup.sublist (List.take_sublist _ _) ?_
      exact ((Diversity.sortByScoreDesc_perm _).nodup_iff).2
        (List.Nodup.filter _ hnd)
    have hsub : picks ⊆ (Diversity.enforce_diversity_quotas articles
        ⟨pre ++ (t, m) :: post, maxq⟩ target).filter
        (fun a => a.evaluate.topic = t) := by
      intro a hap
      rw [List.mem_filter]
      refine ⟨Diversity.picks_mem_enforce articles pre post maxq t m target a hap, ?_⟩
      have := (Diversity.mem_picks_topic articles (t, m) a hap).1
      simp [this]
    have := (List.subperm_of_subset hpnd hsub).length_le
    rw [hplen] at this
    exact this
  · intro M hM hminM
    have h1 := Diversity.phase1_fold_countTopic_le articles minq t hk ⟨[], []⟩
    have hok := Diversity.phase1_countsOk articles minq
    have h2 := Diversity.phase2_countTopic_le maxq
      (articles.filter fun a => a ∉ (Diversity.phase1 articles minq).selected)
      t M hM (Diversity.phase1 articles minq)
      ((target : ℤ) - (Diversity.phase1 articles minq).selected.length) hok
      (by
        have h1' : Diversity.countTopic
            (Diversity.phase1 articles minq).selected t ≤
            (Diversity.qLookup minq t).getD 0 := by
          have h0 : Diversity.countTopic
              (⟨[], []⟩ : Diversity.SelState).selected t = 0 := rfl
          unfold Diversity.phase1
          omega
        exact le_trans h1' hminM)
    simpa [Diversity.enforce_diversity_quotas] using h2

/-- Witness for `enforce_diversity_quota_bounds`: with pool
`[A-article(score 5), A-article(score 4)]`, `min = {A: 1}`, `max = {A: 2}`,
`target = 2`, the output holds between 1 and 2 topic-`A` articles. -/
theorem enforce_diversity_quota_bounds_witness :
    1 ≤ Diversity.countTopic
      (Diversity.enforce_diversity_quotas
        [⟨"l1", "t1", "P2_RAW", "raw", 0, 0, ⟨"t1", "s", "A", 5, "l1"⟩⟩,
         ⟨"l2", "t2", "P2_RAW", "raw", 0, 0, ⟨"t2", "s", "A", 4, "l2"⟩⟩]
        ⟨[("A", 1)], [("A", 2)]⟩ 2) "A" ∧
    Diversity.countTopic
      (Diversity.enforce_diversity_quotas
        [⟨"l1", "t1", "P2_RAW", "raw", 0, 0, ⟨"t1", "s", "A", 5, "l1"⟩⟩,
         ⟨"l2", "t2", "P2_RAW", "raw", 0, 0, ⟨"t2", "s", "A", 4, "l2"⟩⟩]
        ⟨[("A", 1)], [("A", 2)]⟩ 2) "A" ≤ 2 := by
  have h := enforce_diversity_quota_bounds
    [⟨"l1", "t1", "P2_RAW", "raw", 0, 0, ⟨"t1", "s", "A", 5, "l1"⟩⟩,
     ⟨"l2", "t2", "P2_RAW", "raw", 0, 0, ⟨"t2", "s", "A", 4, "l2"⟩⟩]
    ⟨[("A", 1)], [("A", 2)]⟩ 2 "A" (by decide) (by decide)
  exact ⟨h.1 1 rfl (by decide), h.2 2 rfl (by decide)⟩

namespace UrlCanon

/-! ## `canonicalize_url` (dedup.py lines 12-63) and the parts of
`urllib.parse` it calls

The model works on `List Char`.  It mirrors CPython's `urlparse` /
`parse_qs` / `urlunparse` (`Lib/urllib/parse.py`): unsafe byte removal,
scheme detection, netloc/fragment/query/params splitting, `parse_qsl`'s
`unquote_plus` percent-decoding (maximal runs of `%HH` escapes are decoded
as UTF-8 with replacement), and reassembly.  Not modelled: the `ValueError`
for unbalanced brackets in the netloc (caught by `canonicalize_url`'s
`except`, which returns the input unchanged — an idempotent case), Unicode
(non-ASCII) case folding in `.lower()`, and UTF-8 strictness corners
(overlong/surrogate escapes), none of which the theorems below touch. -/

/-- Split at the first occurrence of `sep`; `none` when absent. -/
def splitFirst (sep : Char) : List Char → Option (List Char × List Char)
  | [] => none
  | c :: t =>
      if c = sep then some ([], t)
      else (splitFirst sep t).map fun p => (c :: p.1, p.2)

/-- Split at the last occurrence of `sep` (`l = pre ++ sep :: suf`, `suf`
free of `sep`); `none` when absent. -/
def breakLast (sep : Char) : List Char → Option (List Char × List Char)
  | [] => none
  | c :: t =>
      match breakLast sep t with
      | some (a, b) => some (c :: a, b)
      | none => if c = sep then some ([], t) else none

/-- Take until the first character in `delims`; the rest keeps the
delimiter (CPython `_splitnetloc`). -/
def takeUntilAny (delims : List Char) : List Char → List Char × List Char
  | [] => ([], [])
  | c :: t =>
      if c ∈ delims then ([], c :: t)
      else
        let p := takeUntilAny delims t
        (c :: p.1, p.2)

/-- `scheme_chars` = ASCII letters, digits, `+`, `-`, `.`. -/
def isSchemeChar (c : Char) : Bool :=
  c.isAlpha || c.isDigit || c = '+' || c = '-' || c = '.'

/-- CPython scheme detection: a leading `<alpha><scheme_chars>*:` is split
off and lowercased, otherwise the url is untouched. -/
def splitScheme (u : List Char) : List Char × List Char :=
  match splitFirst ':' u with
  | none => ([], u)
  | some (pre, post) =>
      match pre with
      | [] => ([], u)
      | c :: cs =>
          if c.isAlpha && cs.all isSchemeChar then
            ((c :: cs).map Char.toLower, post)
          else ([], u)

/-- CPython netloc extraction: after a leading `//`, up to `/`, `?` or `#`. -/
def splitNetloc (u : List Char) : List Char × List Char :=
  match u with
  | '/' :: '/' :: rest => takeUntilAny ['/', '?', '#'] rest
  | _ => ([], u)

/-- CPython `_splitparams` (only called when `;` occurs in the path): the
params start at the first `;` after the last `/`. -/
def splitParams (u : List Char) : List Char × List Char :=
  if '/' ∈ u then
    match breakLast '/' u with
    | some (pre, suf) =>
        match splitFirst ';' suf with
        | some (s1, s2) => (pre ++ '/' :: s1, s2)
        | none => (u, [])
    | none => (u, [])
  else
    match splitFirst ';' u with
    | some (s1, s2) => (s1, s2)
    | none => (u, [])

structure UrlParts where
  scheme : List Char
  netloc : List Char
  path : List Char
  params : List Char
  query : List Char
  fragment : List Char
deriving DecidableEq

/-- `urlparse` (via `urlsplit` and `_splitparams`). -/
def urlparseChars (u0 : List Char) : UrlParts :=
  let u1 := u0.filter fun c => !(c = '\t' || c = '\r' || c = '\n')
  let sp := splitScheme u1
  let nl := splitNetloc sp.2
  let fr := (splitFirst '#' nl.2).getD (nl.2, [])
  let qu := (splitFirst '?' fr.1).getD (fr.1, [])
  let pp := if ';' ∈ qu.1 then splitParams qu.1 else (qu.1, [])
  ⟨sp.1, nl.1, pp.1, pp.2, qu.2, fr.2⟩

/-- `urlunsplit`. -/
def urlunsplitChars (scheme netloc url query fragment : List Char) :
    List Char :=
  let url1 :=
    if netloc ≠ [] ∨ (url ≠ [] ∧ url.take 2 = ['/', '/']) then
      let u' := if url ≠ [] ∧ url.head? ≠ some '/' then '/' :: url else url
      '/' :: '/' :: (netloc ++ u')
    else url
  let url2 := if scheme ≠ [] then scheme ++ ':' :: url1 else url1
  let url3 := if query ≠ [] then url2 ++ '?' :: query else url2
  if fragment ≠ [] then url3 ++ '#' :: fragment else url3

/-- `urlunparse`. -/
def urlunparseChars (scheme netloc url params query fragment : List Char) :
    List Char :=
  let url' := if params ≠ [] then url ++ ';' :: params else url
  urlunsplitChars scheme netloc url' query fragment

/-- Value of an ASCII hex digit. -/
def hexVal (c : Char) : Option Nat :=
  if '0' ≤ c ∧ c ≤ '9' then some (c.toNat - 48)
  else if 'a' ≤ c ∧ c ≤ 'f' then some (c.toNat - 87)
  else if 'A' ≤ c ∧ c ≤ 'F' then some (c.toNat - 55)
  else none

/-- Collect a maximal run of `%HH` escapes into bytes. -/
def takePercentRun : List Char → List Nat × List Char
  | '%' :: h1 :: h2 :: rest =>
      match hexVal h1, hexVal h2 with
      | some a, some b =>
          let p := takePercentRun rest
          ((16 * a + b) :: p.1, p.2)
      | _, _ => ([], '%' :: h1 :: h2 :: rest)
  | l => ([], l)

/-- UTF-8 decoding with U+FFFD replacement on errors (fuel-driven; the fuel
is always at least the number of bytes, and every step consumes at least
one byte). -/
def utf8DecodeAux : Nat → List Nat → List Char
  | 0, _ => []
  | _ + 1, [] => []
  | fuel + 1, b :: rest =>
      if b < 128 then Char.ofNat b :: utf8DecodeAux fuel rest
      else if 194 ≤ b ∧ b ≤ 223 then
        match rest with
        | b2 :: rest2 =>
            if 128 ≤ b2 ∧ b2 ≤ 191 then
              Char.ofNat ((b - 192) * 64 + (b2 - 128)) :: utf8DecodeAux fuel rest2
            else Char.ofNat 65533 :: utf8DecodeAux fuel rest
        | [] => [Char.ofNat 65533]
      else if 224 ≤ b ∧ b ≤ 239 then
        match rest with
        | b2 :: b3 :: rest3 =>
            if (128 ≤ b2 ∧ b2 ≤ 191) ∧ (128 ≤ b3 ∧ b3 ≤ 191) then
              Char.ofNat ((b - 224) * 4096 + (b2 - 128) * 64 + (b3 - 128)) ::
                utf8DecodeAux fuel rest3
            else Char.ofNat 65533 :: utf8DecodeAux fuel rest
        | _ => Char.ofNat 65533 :: utf8DecodeAux fuel rest
      else if 240 ≤ b ∧ b ≤ 244 then
        match rest with
        | b2 :: b3 :: b4 :: rest4 =>
            if (128 ≤ b2 ∧ b2 ≤ 191) ∧ (128 ≤ b3 ∧ b3 ≤ 191) ∧
                (128 ≤ b4 ∧ b4 ≤ 191) then
              Char.ofNat ((b - 240) * 262144 + (b2 - 128) * 4096 +
                (b3 - 128) * 64 + (b4 - 128)) :: utf8DecodeAux fuel rest4
            else Char.ofNat 65533 :: utf8DecodeAux fuel rest
        | _ => Char.ofNat 65533 :: utf8DecodeAux fuel rest
      else Char.ofNat 65533 :: utf8DecodeAux fuel rest

def utf8Decode (bs : List Nat) : List Char := utf8DecodeAux (bs.length + 1) bs

/-- `unquote`: literal characters pass through, maximal `%HH` runs are
byte-decoded as UTF-8 (fuel-driven; every step consumes at least one
character). -/
def percentDecodeAux : Nat → List Char → List Char
  | 0, _ => []
  | _ + 1, [] => []
  | fuel + 1, c :: rest =>
      if c = '%' then
        let p := takePercentRun (c :: rest)
        if p.1 = [] then c :: percentDecodeAux fuel rest
        else utf8Decode p.1 ++ percentDecodeAux fuel p.2
      else c :: percentDecodeAux fuel rest

def percentDecode (s : List Char) : List Char :=
  percentDecodeAux (s.length + 1) s

/-- `unquote_plus`: `+` becomes a space, then percent-decoding. -/
def unquotePlus (s : List Char) : List Char :=
  percentDecode (s.map fun c => if c = '+' then ' ' else c)

/-- `str.split(sep)`: fields between separators, empty fields kept
(`"".split(sep) == [""]`). -/
def splitSep (sep : Char) : List Char → List (List Char)
  | [] => [[]]
  | c :: t =>
      if c = sep then [] :: splitSep sep t
      else
        match splitSep sep t with
        | [] => [[c]]
        | f :: rest => (c :: f) :: rest

/-- `parse_qsl(qs)` with default arguments: split on `&`, drop empty fields,
drop fields without `=` or with an empty value, `unquote_plus` names and
values. -/
def parseQsl (q : List Char) : List (List Char × List Char) :=
  (splitSep '&' q).filterMap fun f =>
    if f = [] then none
    else
      match splitFirst '=' f with
      | none => none
      | some (n, v) =>
          if v = [] then none else some (unquotePlus n, unquotePlus v)

/-- One `parse_qs` grouping step: append the value to an existing key's list
(keeping its position) or append a fresh key at the end. -/
def addToGroup : List (List Char × List (List Char)) → List Char → List Char →
    List (List Char × List (List Char))
  | [], k, v => [(k, [v])]
  | (k', vs) :: t, k, v =>
      if k' = k then (k', vs ++ [v]) :: t else (k', vs) :: addToGroup t k v

/-- `parse_qs`: group the pairs into an insertion-ordered dict of lists. -/
def qsGroup (l : List (List Char × List Char)) :
    List (List Char × List (List Char)) :=
  l.foldl (fun acc p => addToGroup acc p.1 p.2) []

/-- The fixed tracking-parameter set of `canonicalize_url`. -/
def trackingParams : List (List Char) :=
  [("utm_source" : String).data, ("utm_medium" : String).data,
   ("utm_campaign" : String).data, ("utm_term" : String).data,
   ("utm_content" : String).data, ("ref" : String).data,
   ("source" : String).data, ("fbclid" : String).data,
   ("gclid" : String).data, ("msclkid" : String).data]

/-- Python string `<` : code-point lexicographic. -/
def lexLt : List Char → List Char → Bool
  | [], [] => false
  | [], _ :: _ => true
  | _ :: _, [] => false
  | x :: xs, y :: ys =>
      if x.val < y.val then true
      else if y.val < x.val then false
      else lexLt xs ys

/-- Stable-insert for ascending sort by key (`sorted(clean_params.items())`;
keys are pairwise distinct, so the tuple comparison never reads values). -/
def insertByKey (p : List Char × List (List Char)) :
    List (List Char × List (List Char)) → List (List Char × List (List Char))
  | [] => [p]
  | q :: t => if lexLt q.1 p.1 then q :: insertByKey p t else p :: q :: t

def sortPairs (l : List (List Char × List (List Char))) :
    List (List Char × List (List Char)) :=
  l.foldr insertByKey []

/-- `'&'.join(f"{k}={v[0]}" …)`. -/
def buildQuery (l : List (List Char × List (List Char))) : List Char :=
  List.intercalate ['&'] (l.map fun p => p.1 ++ '=' :: p.2.headD [])

/-- `canonicalize_url` (dedup.py lines 12-63): lowercase scheme and netloc,
drop the fragment, drop tracking query keys, keep the first value of each
remaining key in key-sorted order. -/
def canonicalize_url (url : String) : String :=
  if url = "" then ""
  else
    let P := urlparseChars url.data
    let grouped := qsGroup (parseQsl P.query)
    let cleanParams := grouped.filter fun p =>
      decide ((p.1.map Char.toLower) ∉ trackingParams)
    let cleanQuery := if cleanParams = [] then [] else buildQuery (sortPairs cleanParams)
    ⟨urlunparseChars (P.scheme.map Char.toLower) (P.netloc.map Char.toLower)
      P.path P.params cleanQuery []⟩

end UrlCanon

namespace Dedup

/-! ## `workflow/selection/dedup.py`

`difflib.SequenceMatcher` (no junk; `autojunk` is inert on the short strings
compared here) is modelled by the documented semantics of
`find_longest_match`: the longest common contiguous block, earliest in the
first string, then earliest in the second, recursively to the left and right
of each block; `ratio = 2·M/(len1+len2)`. -/

/-- Python `.lower()` on ASCII plus `.split()`/`' '.join` whitespace. -/
def isPySpace (c : Char) : Bool :=
  c = ' ' || c = '\t' || c = '\n' || c = '\r' ||
    c = Char.ofNat 11 || c = Char.ofNat 12

/-- The punctuation set of `normalize_title` (the Python source is the
concatenated literal `'.,!?;:()[]{}""' '—–-'`: no apostrophe, `"` twice). -/
def punctChars : List Char :=
  ['.', ',', '!', '?', ';', ':', '(', ')', '[', ']',
   Char.ofNat 123, Char.ofNat 125, '"', Char.ofNat 8212, Char.ofNat 8211, '-']

def wordsAux : List Char → List Char → List (List Char)
  | [], acc => if acc = [] then [] else [acc.reverse]
  | c :: t, acc =>
      if isPySpace c then
        if acc = [] then wordsAux t [] else acc.reverse :: wordsAux t []
      else wordsAux t (c :: acc)

/-- `title.split()`. -/
def splitWs (l : List Char) : List (List Char) := wordsAux l []

/-- `normalize_title` (dedup.py lines 66-86): lowercase, punctuation → space,
whitespace collapsed by `' '.join(title.split())`. -/
def normalize_title (title : String) : String :=
  if title = "" then ""
  else
    let t1 := title.data.map Char.toLower
    let t2 := t1.map fun c => if c ∈ punctChars then ' ' else c
    ⟨List.intercalate [' '] (splitWs t2)⟩

/-- Length of the common prefix. -/
def commonLen : List Char → List Char → Nat
  | a :: as, b :: bs => if a = b then commonLen as bs + 1 else 0
  | _, _ => 0

/-- `find_longest_match` on the windows `[alo,ahi) × [blo,bhi)`: longest
block, earliest in `a`, then earliest in `b`. -/
def flm (a b : List Char) (alo ahi blo bhi : Nat) : Nat × Nat × Nat :=
  (List.range' alo (ahi - alo)).foldl
    (fun best i =>
      (List.range' blo (bhi - blo)).foldl
        (fun best j =>
          let k := commonLen ((a.drop i).take (ahi - i)) ((b.drop j).take (bhi - j))
          if best.2.2 < k then (i, j, k) else best)
        best)
    (alo, blo, 0)

/-- Total size of the matching blocks (fuel-driven; the recursion depth is
bounded by the window sizes). -/
def matchTotal : Nat → List Char → List Char → Nat → Nat → Nat → Nat → Nat
  | 0, _, _, _, _, _, _ => 0
  | fuel + 1, a, b, alo, ahi, blo, bhi =>
      let m := flm a b alo ahi blo bhi
      if m.2.2 = 0 then 0
      else
        matchTotal fuel a b alo m.1 blo m.2.1 + m.2.2 +
          matchTotal fuel a b (m.1 + m.2.2) ahi (m.2.1 + m.2.2) bhi

/-- `SequenceMatcher(None, s1, s2).ratio()`. -/
def smRatio (s1 s2 : List Char) : ℚ :=
  let M := matchTotal (s1.length + s2.length + 1) s1 s2 0 s1.length 0 s2.length
  if s1.length + s2.length = 0 then 1
  else (2 * M : ℚ) / ((s1.length : ℚ) + (s2.length : ℚ))

/-- `title_similarity` (dedup.py lines 89-106). -/
def title_similarity (t1 t2 : String) : ℚ :=
  if t1 = "" ∨ t2 = "" then 0
  else
    let n1 := normalize_title t1
    let n2 := normalize_title t2
    if n1 = n2 then 1 else smRatio n1.data n2.data

/-- `get_tier_priority` (dedup.py lines 109-123). -/
def get_tier_priority (tier : String) : ℕ :=
  if tier = "P0_CURATED" then 5
  else if tier = "P0_RELEASES" then 4
  else if tier = "P1_CONTEXT" then 3
  else if tier = "P2_RAW" then 2
  else if tier = "COMMUNITY" then 1
  else 0

/-- `choose_better_article` (dedup.py lines 126-179). -/
def choose_better_article (article1 article2 : Article) : Article :=
  let t1 := get_tier_priority article1.tier
  let t2 := get_tier_priority article2.tier
  if t2 < t1 then article1
  else if t1 < t2 then article2
  else if article1.origin_type = "curated" ∧ article2.origin_type ≠ "curated" then
    article1
  else if article2.origin_type = "curated" ∧ article1.origin_type ≠ "curated" then
    article2
  else if article2.ainews_confidence < article1.ainews_confidence then article1
  else if article1.ainews_confidence < article2.ainews_confidence then article2
  else if article2.score < article1.score then article1
  else if article1.score < article2.score then article2
  else article1

/-! Ordered-dict operations for `seen_urls` / `seen_titles` (CPython dict:
update keeps the position, fresh keys append, delete removes; the model
removes nothing when the key is absent, a case the theorems never reach). -/

def odLookup : List (String × Article) → String → Option Article
  | [], _ => none
  | (k', v) :: t, k => if k' = k then some v else odLookup t k

def odSet : List (String × Article) → String → Article → List (String × Article)
  | [], k, v => [(k, v)]
  | (k', v') :: t, k, v =>
      if k' = k then (k, v) :: t else (k', v') :: odSet t k v

def odDel : List (String × Article) → String → List (String × Article)
  | [], _ => []
  | (k', v') :: t, k => if k' = k then t else (k', v') :: odDel t k

/-- In-place update of the first occurrence in `unique_articles`. -/
def replaceFirst : List Article → Article → Article → List Article
  | [], _, _ => []
  | a :: t, old, new => if a = old then new :: t else a :: replaceFirst t old new

/-- The title used by the dedup loop: `article.title`, falling back to
`evaluate['title']` when empty. -/
def dedupTitle (a : Article) : String :=
  if a.title ≠ "" then a.title else a.evaluate.title

/-- The scan over `list(seen_titles.items())`: first entry whose stored
article's `title` field is ≥ 0.85-similar to the incoming title. -/
def findTitleMatch : List (String × Article) → String → Option (String × Article)
  | [], _ => none
  | (tk, e) :: rest, t =>
      if mkRat 85 100 ≤ title_similarity t e.title then some (tk, e)
      else findTitleMatch rest t

structure DedupState where
  seen_urls : List (String × Article)
  seen_titles : List (String × Article)
  out : List Article
deriving DecidableEq

/-- The branch of the loop body for a fresh canonical URL and a curated
article with a nonempty title, split on the result of the title scan
(dedup.py lines 272-318). -/
def dedupStepTitle (s : DedupState) (article : Article) :
    Option (String × Article) → DedupState
  | some (tk, existing) =>
      if choose_better_article existing article = article then
        ⟨odSet (odDel s.seen_urls (UrlCanon.canonicalize_url existing.link))
            (UrlCanon.canonicalize_url article.link) article,
         odSet (odDel s.seen_titles tk)
            (normalize_title (dedupTitle article)) article,
         replaceFirst s.out existing article⟩
      else s
  | none =>
      ⟨odSet s.seen_urls (UrlCanon.canonicalize_url article.link) article,
       odSet s.seen_titles (normalize_title (dedupTitle article)) article,
       s.out ++ [article]⟩

/-- The branch of the loop body for a fresh canonical URL (dedup.py lines
272-322). -/
def dedupStepNone (s : DedupState) (article : Article) : DedupState :=
  if article.origin_type = "curated" ∧ dedupTitle article ≠ "" then
    dedupStepTitle s article (findTitleMatch s.seen_titles (dedupTitle article))
  else
    ⟨odSet s.seen_urls (UrlCanon.canonicalize_url article.link) article,
     s.seen_titles, s.out ++ [article]⟩

/-- The loop body of `deduplicate_articles` split on the seen-URLs lookup
(dedup.py lines 244-270). -/
def dedupStepGo (s : DedupState) (article : Article) :
    Option Article → DedupState
  | some existing =>
      if choose_better_article existing article = article then
        { s with
          seen_urls := odSet s.seen_urls
            (UrlCanon.canonicalize_url article.link) article,
          out := replaceFirst s.out existing article }
      else s
  | none => dedupStepNone s article

/-- The body of the `for article in articles:` loop of `deduplicate_articles`
(dedup.py lines 224-322). -/
def dedupStep (s : DedupState) (article : Article) : DedupState :=
  if article.link = "" then s
  else dedupStepGo s article
    (odLookup s.seen_urls (UrlCanon.canonicalize_url article.link))

def dedupFold (articles : List Article) : DedupState :=
  articles.foldl dedupStep ⟨[], [], []⟩

/-- `deduplicate_articles` (dedup.py lines 182-329); `enabled` is
`configuration.deduplication.enabled` (default true). -/
def deduplicate_articles (enabled : Bool) (articles : List Article) :
    List Article :=
  if enabled then (dedupFold articles).out else articles

end Dedup

namespace Dedup

theorem choose_better_eq_or (a b : Article) :
    choose_better_article a b = a ∨ choose_better_article a b = b := by
  unfold choose_better_article
  dsimp only
  split_ifs <;> first
    | exact Or.inl rfl
    | exact Or.inr rfl

theorem dedupStep_first (a : Article) (ha : a.link ≠ "") :
    dedupStep ⟨[], [], []⟩ a =
      if a.origin_type = "curated" ∧ dedupTitle a ≠ "" then
        ⟨[(UrlCanon.canonicalize_url a.link, a)],
         [(normalize_title (dedupTitle a), a)], [a]⟩
      else ⟨[(UrlCanon.canonicalize_url a.link, a)], [], [a]⟩ := by
  unfold dedupStep
  rw [if_neg ha]
  show dedupStepGo _ _ none = _
  unfold dedupStepGo dedupStepNone
  split_ifs with h
  · show dedupStepTitle _ _ none = _
    rfl
  · rfl

theorem dedupStep_url_hit (s : DedupState) (b ex : Article) (hb : b.link ≠ "")
    (hfound : odLookup s.seen_urls (UrlCanon.canonicalize_url b.link) = some ex) :
    dedupStep s b =
      if choose_better_article ex b = b then
        { s with
          seen_urls := odSet s.seen_urls (UrlCanon.canonicalize_url b.link) b,
          out := replaceFirst s.out ex b }
      else s := by
  unfold dedupStep
  rw [if_neg hb, hfound]
  rfl

theorem dedupStep_title_hit (s : DedupState) (b : Article) (hb : b.link ≠ "")
    (hmiss : odLookup s.seen_urls (UrlCanon.canonicalize_url b.link) = none)
    (hcond : b.origin_type = "curated" ∧ dedupTitle b ≠ "")
    (tk : String) (ex : Article)
    (hfind : findTitleMatch s.seen_titles (dedupTitle b) = some (tk, ex)) :
    dedupStep s b =
      if choose_better_article ex b = b then
        ⟨odSet (odDel s.seen_urls (UrlCanon.canonicalize_url ex.link))
            (UrlCanon.canonicalize_url b.link) b,
         odSet (odDel s.seen_titles tk) (normalize_title (dedupTitle b)) b,
         replaceFirst s.out ex b⟩
      else s := by
  unfold dedupStep
  rw [if_neg hb, hmiss]
  show dedupStepNone _ _ = _
  unfold dedupStepNone
  rw [if_pos hcond, hfind]
  rfl

theorem dedupStep_title_miss (s : DedupState) (b : Article) (hb : b.link ≠ "")
    (hmiss : odLookup s.seen_urls (UrlCanon.canonicalize_url b.link) = none)
    (hcond : b.origin_type = "curated" ∧ dedupTitle b ≠ "")
    (hfind : findTitleMatch s.seen_titles (dedupTitle b) = none) :
    dedupStep s b =
      ⟨odSet s.seen_urls (UrlCanon.canonicalize_url b.link) b,
       odSet s.seen_titles (normalize_title (dedupTitle b)) b,
       s.out ++ [b]⟩ := by
  unfold dedupStep
  rw [if_neg hb, hmiss]
  show dedupStepNone _ _ = _
  unfold dedupStepNone
  rw [if_pos hcond, hfind]
  rfl

theorem dedupStep_plain (s : DedupState) (b : Article) (hb : b.link ≠ "")
    (hmiss : odLookup s.seen_urls (UrlCanon.canonicalize_url b.link) = none)
    (hcond : ¬(b.origin_type = "curated" ∧ dedupTitle b ≠ "")) :
    dedupStep s b =
      ⟨odSet s.seen_urls (UrlCanon.canonicalize_url b.link) b,
       s.seen_titles, s.out ++ [b]⟩ := by
  unfold dedupStep
  rw [if_neg hb, hmiss]
  show dedupStepNone _ _ = _
  unfold dedupStepNone
  rw [if_neg hcond]

end Dedup

/-- **C4 (counterexample).** The claim quantifies over any two colliding
articles *in the input*; that universal version is false.  In the input
`[A, B, C, D]`: `B` replaces curated `A` through the URL map (leaving `A`'s
stale title entry), curated `C` then title-matches the stale `A` and the
replacement deletes `B`'s URL key while swapping nothing in the output (so
`C` itself never appears), and `D` is admitted although `B` is still there.
Net effect: the URL-colliding pair `(B, D)` has *two* survivors, and the
curated title-colliding pair `(A, C)` has *no* survivor — in particular
`choose_better_article A C` is not in the output. -/
theorem dedup_pairwise_collision_counterexample :
    Dedup.deduplicate_articles true
      [⟨"u", "N one", "COMMUNITY", "curated", 0, 0, ⟨"N one", "s", "A", 0, "u"⟩⟩,
       ⟨"u", "bb", "P2_RAW", "raw", 0, 0, ⟨"bb", "s", "A", 0, "u"⟩⟩,
       ⟨"w", "n ONE", "P0_CURATED", "curated", 0, 0, ⟨"n ONE", "s", "A", 0, "w"⟩⟩,
       ⟨"u", "dd", "P1_CONTEXT", "raw", 0, 0, ⟨"dd", "s", "A", 0, "u"⟩⟩] =
      [⟨"u", "bb", "P2_RAW", "raw", 0, 0, ⟨"bb", "s", "A", 0, "u"⟩⟩,
       ⟨"u", "dd", "P1_CONTEXT", "raw", 0, 0, ⟨"dd", "s", "A", 0, "u"⟩⟩] ∧
    (⟨"u", "bb", "P2_RAW", "raw", 0, 0, ⟨"bb", "s", "A", 0, "u"⟩⟩ : Article) ≠
      ⟨"u", "dd", "P1_CONTEXT", "raw", 0, 0, ⟨"dd", "s", "A", 0, "u"⟩⟩ ∧
    UrlCanon.canonicalize_url
        (⟨"u", "bb", "P2_RAW", "raw", 0, 0,
          ⟨"bb", "s", "A", 0, "u"⟩⟩ : Article).link =
      UrlCanon.canonicalize_url
        (⟨"u", "dd", "P1_CONTEXT", "raw", 0, 0,
          ⟨"dd", "s", "A", 0, "u"⟩⟩ : Article).link ∧
    (⟨"u", "N one", "COMMUNITY", "curated", 0, 0,
      ⟨"N one", "s", "A", 0, "u"⟩⟩ : Article).origin_type = "curated" ∧
    (⟨"w", "n ONE", "P0_CURATED", "curated", 0, 0,
      ⟨"n ONE", "s", "A", 0, "w"⟩⟩ : Article).origin_type = "curated" ∧
    mkRat 85 100 ≤ Dedup.title_similarity
      (Dedup.dedupTitle ⟨"u", "N one", "COMMUNITY", "curated", 0, 0,
        ⟨"N one", "s", "A", 0, "u"⟩⟩)
      (Dedup.dedupTitle ⟨"w", "n ONE", "P0_CURATED", "curated", 0, 0,
        ⟨"n ONE", "s", "A", 0, "w"⟩⟩) ∧
    (⟨"u", "N one", "COMMUNITY", "curated", 0, 0,
        ⟨"N one", "s", "A", 0, "u"⟩⟩ : Article) ∉
      Dedup.deduplicate_articles true
        [⟨"u", "N one", "COMMUNITY", "curated", 0, 0, ⟨"N one", "s", "A", 0, "u"⟩⟩,
         ⟨"u", "bb", "P2_RAW", "raw", 0, 0, ⟨"bb", "s", "A", 0, "u"⟩⟩,
         ⟨"w", "n ONE", "P0_CURATED", "curated", 0, 0, ⟨"n ONE", "s", "A", 0, "w"⟩⟩,
         ⟨"u", "dd", "P1_CONTEXT", "raw", 0, 0, ⟨"dd", "s", "A", 0, "u"⟩⟩] ∧
    (⟨"w", "n ONE", "P0_CURATED", "curated", 0, 0,
        ⟨"n ONE", "s", "A", 0, "w"⟩⟩ : Article) ∉
      Dedup.deduplicate_articles true
        [⟨"u", "N one", "COMMUNITY", "curated", 0, 0, ⟨"N one", "s", "A", 0, "u"⟩⟩,
         ⟨"u", "bb", "P2_RAW", "raw", 0, 0, ⟨"bb", "s", "A", 0, "u"⟩⟩,
         ⟨"w", "n ONE", "P0_CURATED", "curated", 0, 0, ⟨"n ONE", "s", "A", 0, "w"⟩⟩,
         ⟨"u", "dd", "P1_CONTEXT", "raw", 0, 0, ⟨"dd", "s", "A", 0, "u"⟩⟩] ∧
    Dedup.choose_better_article
        ⟨"u", "N one", "COMMUNITY", "curated", 0, 0, ⟨"N one", "s", "A", 0, "u"⟩⟩
        ⟨"w", "n ONE", "P0_CURATED", "curated", 0, 0, ⟨"n ONE", "s", "A", 0, "w"⟩⟩ ∉
      Dedup.deduplicate_articles true
        [⟨"u", "N one", "COMMUNITY", "curated", 0, 0, ⟨"N one", "s", "A", 0, "u"⟩⟩,
         ⟨"u", "bb", "P2_RAW", "raw", 0, 0, ⟨"bb", "s", "A", 0, "u"⟩⟩,
         ⟨"w", "n ONE", "P0_CURATED", "curated", 0, 0, ⟨"n ONE", "s", "A", 0, "w"⟩⟩,
         ⟨"u", "dd", "P1_CONTEXT", "raw", 0, 0, ⟨"dd", "s", "A", 0, "u"⟩⟩] := by
  decide

/-- **C4 (amended).** The pairwise tie-break order is realized on
two-article inputs: for an input `[a, b]` whose elements collide — equal
canonical URLs, or (for curated articles with nonempty titles and distinct
canonical URLs) title similarity ≥ 0.85 — the survivor is exactly
`choose_better_article a b`, whose tie-break order is: higher tier priority
(`P0_CURATED>P0_RELEASES>P1_CONTEXT>P2_RAW>COMMUNITY`), then curated over
raw `origin_type`, then higher ai-news confidence, then higher focus score,
then first occurrence; in particular S2 holds.  For larger inputs the
claim's universal version fails (see the counterexample): a stale title
entry left by a URL replacement can give a colliding pair two survivors, or
none. -/
theorem dedup_pairwise_survivor (a b : Article)
    (ha : a.link ≠ "") (hb : b.link ≠ "")
    (hcol : UrlCanon.canonicalize_url a.link = UrlCanon.canonicalize_url b.link ∨
      (UrlCanon.canonicalize_url a.link ≠ UrlCanon.canonicalize_url b.link ∧
        a.origin_type = "curated" ∧ b.origin_type = "curated" ∧
        Dedup.dedupTitle a ≠ "" ∧ Dedup.dedupTitle b ≠ "" ∧
        mkRat 85 100 ≤ Dedup.title_similarity (Dedup.dedupTitle b) a.title)) :
    Dedup.deduplicate_articles true [a, b] =
      [Dedup.choose_better_article a b] := by
  have hstep1 := Dedup.dedupStep_first a ha
  rcases hcol with hu | ⟨hne, hca, hcb, hta, htb, hsim⟩
  · -- URL collision: the second step hits the seen-URLs map.
    have hout : (Dedup.dedupStep ⟨[], [], []⟩ a).seen_urls =
        [(UrlCanon.canonicalize_url a.link, a)] ∧
        (Dedup.dedupStep ⟨[], [], []⟩ a).out = [a] := by
      rw [hstep1]; split_ifs <;> exact ⟨rfl, rfl⟩
    have hfound : Dedup.odLookup (Dedup.dedupStep ⟨[], [], []⟩ a).seen_urls
        (UrlCanon.canonicalize_url b.link) = some a := by
      rw [hout.1, ← hu]
      simp [Dedup.odLookup]
    have hstep2 := Dedup.dedupStep_url_hit (Dedup.dedupStep ⟨[], [], []⟩ a) b a hb hfound
    show (Dedup.dedupFold [a, b]).out = _
    have hfold : Dedup.dedupFold [a, b] =
        Dedup.dedupStep (Dedup.dedupStep ⟨[], [], []⟩ a) b := rfl
    rw [hfold, hstep2]
    by_cases hx : Dedup.choose_better_article a b = b
    · rw [if_pos hx, hout.2, hx]
      simp [Dedup.replaceFirst]
    · rw [if_neg hx, hout.2]
      rcases Dedup.choose_better_eq_or a b with hc | hc
      · rw [hc]
      · exact absurd hc hx
  · -- Title collision: distinct canonical URLs, curated, similar titles.
    have hcond_a : a.origin_type = "curated" ∧ Dedup.dedupTitle a ≠ "" := ⟨hca, hta⟩
    have hs1 : Dedup.dedupStep ⟨[], [], []⟩ a =
        ⟨[(UrlCanon.canonicalize_url a.link, a)],
         [(Dedup.normalize_title (Dedup.dedupTitle a), a)], [a]⟩ := by
      rw [hstep1, if_pos hcond_a]
    have hmiss : Dedup.odLookup (Dedup.dedupStep ⟨[], [], []⟩ a).seen_urls
        (UrlCanon.canonicalize_url b.link) = none := by
      rw [hs1]
      simp [Dedup.odLookup, hne]
    have hfind : Dedup.findTitleMatch (Dedup.dedupStep ⟨[], [], []⟩ a).seen_titles
        (Dedup.dedupTitle b) =
        some (Dedup.normalize_title (Dedup.dedupTitle a), a) := by
      rw [hs1]
      simp [Dedup.findTitleMatch, hsim]
    have hstep2 := Dedup.dedupStep_title_hit (Dedup.dedupStep ⟨[], [], []⟩ a) b hb
      hmiss ⟨hcb, htb⟩ _ _ hfind
    show (Dedup.dedupFold [a, b]).out = _
    have hfold : Dedup.dedupFold [a, b] =
        Dedup.dedupStep (Dedup.dedupStep ⟨[], [], []⟩ a) b := rfl
    rw [hfold, hstep2]
    by_cases hx : Dedup.choose_better_article a b = b
    · rw [if_pos hx, hx]
      have : (Dedup.dedupStep ⟨[], [], []⟩ a).out = [a] := by rw [hs1]
      rw [this]
      simp [Dedup.replaceFirst]
    · rw [if_neg hx]
      have : (Dedup.dedupStep ⟨[], [], []⟩ a).out = [a] := by rw [hs1]
      rw [this]
      rcases Dedup.choose_better_eq_or a b with hc | hc
      · rw [hc]
      · exact absurd hc hx

/-- Witness for `dedup_pairwise_survivor`, instantiating scenario S2: the
same canonical URL seen from a `P2_RAW` source with focus score 3 and from a
`P0_CURATED` source with focus score 1; exactly the `P0_CURATED` copy
survives. -/
theorem dedup_pairwise_survivor_witness :
    Dedup.deduplicate_articles true
      [⟨"http://x.com/p", "T raw", "P2_RAW", "raw", 0, 3,
        ⟨"T raw", "s", "A", 0, "http://x.com/p"⟩⟩,
       ⟨"http://x.com/p", "T cur", "P0_CURATED", "curated", 0, 1,
        ⟨"T cur", "s", "A", 0, "http://x.com/p"⟩⟩] =
      [Dedup.choose_better_article
        ⟨"http://x.com/p", "T raw", "P2_RAW", "raw", 0, 3,
          ⟨"T raw", "s", "A", 0, "http://x.com/p"⟩⟩
        ⟨"http://x.com/p", "T cur", "P0_CURATED", "curated", 0, 1,
          ⟨"T cur", "s", "A", 0, "http://x.com/p"⟩⟩] ∧
    Dedup.choose_better_article
      ⟨"http://x.com/p", "T raw", "P2_RAW", "raw", 0, 3,
        ⟨"T raw", "s", "A", 0, "http://x.com/p"⟩⟩
      ⟨"http://x.com/p", "T cur", "P0_CURATED", "curated", 0, 1,
        ⟨"T cur", "s", "A", 0, "http://x.com/p"⟩⟩ =
      ⟨"http://x.com/p", "T cur", "P0_CURATED", "curated", 0, 1,
        ⟨"T cur", "s", "A", 0, "http://x.com/p"⟩⟩ := by
  constructor
  · exact dedup_pairwise_survivor _ _ (by decide) (by decide) (Or.inl rfl)
  · decide

namespace Dedup

/-! ### Ordered-dict lemmas -/

theorem odLookup_odSet_self (m : List (String × Article)) (k : String)
    (v : Article) : odLookup (odSet m k v) k = some v := by
  induction m with
  | nil => simp [odSet, odLookup]
  | cons p t ih =>
      obtain ⟨k', v'⟩ := p
      by_cases h : k' = k
      · simp [odSet, odLookup, h]
      · simp [odSet, odLookup, h, ih]

theorem mem_odSet (m : List (String × Article)) (k : String) (v : Article)
    (p : String × Article) (hp : p ∈ odSet m k v) : p = (k, v) ∨ p ∈ m := by
  induction m with
  | nil => simpa [odSet] using hp
  | cons q t ih =>
      obtain ⟨k', v'⟩ := q
      by_cases h : k' = k
      · rw [odSet, if_pos h] at hp
        rcases List.mem_cons.1 hp with rfl | hp'
        · exact Or.inl rfl
        · exact Or.inr (List.mem_cons_of_mem _ hp')
      · rw [odSet, if_neg h] at hp
        rcases List.mem_cons.1 hp with rfl | hp'
        · exact Or.inr (List.mem_cons_self _ _)
        · rcases ih hp' with h1 | h1
          · exact Or.inl h1
          · exact Or.inr (List.mem_cons_of_mem _ h1)

theorem mem_odDel (m : List (String × Article)) (k : String)
    (hk : (m.map Prod.fst).Nodup) (p : String × Article)
    (hp : p ∈ odDel m k) : p ∈ m ∧ p.1 ≠ k := by
  induction m with
  | nil => simp [odDel] at hp
  | cons q t ih =>
      obtain ⟨k', v'⟩ := q
      simp only [List.map_cons, List.nodup_cons] at hk
      by_cases h : k' = k
      · rw [odDel, if_pos h] at hp
        subst h
        refine ⟨List.mem_cons_of_mem _ hp, ?_⟩
        intro hpk
        exact hk.1 (hpk ▸ List.mem_map_of_mem Prod.fst hp)
      · rw [odDel, if_neg h] at hp
        rcases List.mem_cons.1 hp with rfl | hp'
        · exact ⟨List.mem_cons_self _ _, h⟩
        · obtain ⟨h1, h2⟩ := ih hk.2 hp'
          exact ⟨List.mem_cons_of_mem _ h1, h2⟩

theorem odLookup_mem (m : List (String × Article)) (k : String) (v : Article)
    (h : odLookup m k = some v) : (k, v) ∈ m := by
  induction m with
  | nil => cases h
  | cons q t ih =>
      obtain ⟨k', v'⟩ := q
      by_cases hk : k' = k
      · rw [odLookup, if_pos hk] at h
        subst hk
        obtain rfl : v' = v := Option.some.inj h
        exact List.mem_cons_self _ _
      · rw [odLookup, if_neg hk] at h
        exact List.mem_cons_of_mem _ (ih h)

theorem odLookup_eq_none_iff (m : List (String × Article)) (k : String) :
    odLookup m k = none ↔ k ∉ m.map Prod.fst := by
  induction m with
  | nil => simp [odLookup]
  | cons q t ih =>
      obtain ⟨k', v'⟩ := q
      by_cases hk : k' = k
      · subst hk; simp [odLookup]
      · simp [odLookup, hk, ih, Ne.symm hk]

theorem odSet_fresh (m : List (String × Article)) (k : String) (v : Article)
    (hk : k ∉ m.map Prod.fst) : odSet m k v = m ++ [(k, v)] := by
  induction m with
  | nil => rfl
  | cons q t ih =>
      obtain ⟨k', v'⟩ := q
      simp only [List.map_cons, List.mem_cons] at hk
      push_neg at hk
      rw [odSet, if_neg (Ne.symm hk.1), ih hk.2]
      rfl

/-- Decomposition of an ordered dict at a present key (unique keys). -/
theorem odLookup_split (m : List (String × Article)) (k : String) (v : Article)
    (hk : (m.map Prod.fst).Nodup) (h : odLookup m k = some v) :
    ∃ m1 m2, m = m1 ++ (k, v) :: m2 ∧
      (∀ w, odSet m k w = m1 ++ (k, w) :: m2) ∧
      odDel m k = m1 ++ m2 ∧ k ∉ m1.map Prod.fst ∧ k ∉ m2.map Prod.fst := by
  induction m with
  | nil => cases h
  | cons q t ih =>
      obtain ⟨k', v'⟩ := q
      simp only [List.map_cons, List.nodup_cons] at hk
      by_cases hkk : k' = k
      · subst hkk
        rw [odLookup, if_pos rfl] at h
        obtain rfl : v' = v := Option.some.inj h
        refine ⟨[], t, rfl, ?_, ?_, by simp, ?_⟩
        · intro w; rw [odSet, if_pos rfl]; rfl
        · rw [odDel, if_pos rfl]; rfl
        · exact hk.1
      · rw [odLookup, if_neg hkk] at h
        obtain ⟨m1, m2, heq, hset, hdel, h1, h2⟩ := ih hk.2 h
        refine ⟨(k', v') :: m1, m2, by rw [heq]; rfl, ?_, ?_, ?_, h2⟩
        · intro w; rw [odSet, if_neg hkk, hset w]; rfl
        · rw [odDel, if_neg hkk, hdel]; rfl
        · simp only [List.map_cons, List.mem_cons]
          push_neg
          exact ⟨fun hh => hkk hh.symm, h1⟩

/-! ### Replacement bookkeeping (claim C7) -/

end Dedup

/-- **C7 (counterexample).** The claim says that after *any* replacement —
URL- or title-detected — no map still holds the replaced article.  When a
curated article is replaced through the URL-seen map, its entry in the
title-seen map is left in place: after `[A, B]` with equal canonical URLs
and `B` the tie-break winner, the output is `[B]` but `seen_titles` still
maps `A`'s normalized title to `A`. -/
theorem dedup_replacement_counterexample :
    (Dedup.dedupFold
      [⟨"zzz", "T One", "COMMUNITY", "curated", 0, 0, ⟨"T One", "s", "A", 0, "zzz"⟩⟩,
       ⟨"zzz", "T Two", "P0_CURATED", "curated", 0, 0, ⟨"T Two", "s", "A", 0, "zzz"⟩⟩]).out =
      [⟨"zzz", "T Two", "P0_CURATED", "curated", 0, 0, ⟨"T Two", "s", "A", 0, "zzz"⟩⟩] ∧
    (Dedup.dedupFold
      [⟨"zzz", "T One", "COMMUNITY", "curated", 0, 0, ⟨"T One", "s", "A", 0, "zzz"⟩⟩,
       ⟨"zzz", "T Two", "P0_CURATED", "curated", 0, 0, ⟨"T Two", "s", "A", 0, "zzz"⟩⟩]).seen_titles =
      [("t one", ⟨"zzz", "T One", "COMMUNITY", "curated", 0, 0, ⟨"T One", "s", "A", 0, "zzz"⟩⟩)] ∧
    (⟨"zzz", "T One", "COMMUNITY", "curated", 0, 0, ⟨"T One", "s", "A", 0, "zzz"⟩⟩ : Article) ≠
      ⟨"zzz", "T Two", "P0_CURATED", "curated", 0, 0, ⟨"T Two", "s", "A", 0, "zzz"⟩⟩ := by
  decide

/-- **C7 (amended).** On a *title*-collision replacement the swap is
complete: from a well-formed state (unique keys; the matched article occurs
in the URL map only under its own canonical URL and in the title map only
under the matched key), the replaced article survives in no map, the
newcomer's canonical URL and normalized title are both registered, and the
output list gets the in-place swap.  (On a *URL*-collision replacement the
title map is left untouched, so a curated loser's title entry persists —
that is the counterexample.) -/
theorem dedup_title_replacement_swaps (s : Dedup.DedupState) (b : Article)
    (hb : b.link ≠ "")
    (hmiss : Dedup.odLookup s.seen_urls (UrlCanon.canonicalize_url b.link) = none)
    (hcond : b.origin_type = "curated" ∧ Dedup.dedupTitle b ≠ "")
    (tk : String) (ex : Article)
    (hfind : Dedup.findTitleMatch s.seen_titles (Dedup.dedupTitle b) = some (tk, ex))
    (hwin : Dedup.choose_better_article ex b = b)
    (hbex : b ≠ ex)
    (hku : (s.seen_urls.map Prod.fst).Nodup)
    (hkt : (s.seen_titles.map Prod.fst).Nodup)
    (hexu : ∀ p ∈ s.seen_urls, p.2 = ex → p.1 = UrlCanon.canonicalize_url ex.link)
    (hext : ∀ p ∈ s.seen_titles, p.2 = ex → p.1 = tk) :
    (∀ p ∈ (Dedup.dedupStep s b).seen_urls, p.2 ≠ ex) ∧
    Dedup.odLookup (Dedup.dedupStep s b).seen_urls
      (UrlCanon.canonicalize_url b.link) = some b ∧
    (∀ p ∈ (Dedup.dedupStep s b).seen_titles, p.2 ≠ ex) ∧
    Dedup.odLookup (Dedup.dedupStep s b).seen_titles
      (Dedup.normalize_title (Dedup.dedupTitle b)) = some b ∧
    (Dedup.dedupStep s b).out = Dedup.replaceFirst s.out ex b := by
  rw [Dedup.dedupStep_title_hit s b hb hmiss hcond tk ex hfind, if_pos hwin]
  refine ⟨?_, ?_, ?_, ?_, rfl⟩
  · intro p hp hpex
    rcases Dedup.mem_odSet _ _ _ p hp with rfl | hp'
    · exact hbex hpex
    · obtain ⟨hmem, hne⟩ := Dedup.mem_odDel _ _ hku p hp'
      exact hne (hexu p hmem hpex)
  · exact Dedup.odLookup_odSet_self _ _ _
  · intro p hp hpex
    rcases Dedup.mem_odSet _ _ _ p hp with rfl | hp'
    · exact hbex hpex
    · obtain ⟨hmem, hne⟩ := Dedup.mem_odDel _ _ hkt p hp'
      exact hne (hext p hmem hpex)
  · exact Dedup.odLookup_odSet_self _ _ _

/-- Witness for `dedup_title_replacement_swaps`: a curated `P0_CURATED`
newcomer with an equal normalized title replaces a `COMMUNITY` incumbent;
all three structures are swapped. -/
theorem dedup_title_replacement_swaps_witness :
    (∀ p ∈ (Dedup.dedupStep
      ⟨[("zzz", ⟨"zzz", "T One", "COMMUNITY", "curated", 0, 0,
          ⟨"T One", "s", "A", 0, "zzz"⟩⟩)],
       [("t one", ⟨"zzz", "T One", "COMMUNITY", "curated", 0, 0,
          ⟨"T One", "s", "A", 0, "zzz"⟩⟩)],
       [⟨"zzz", "T One", "COMMUNITY", "curated", 0, 0,
          ⟨"T One", "s", "A", 0, "zzz"⟩⟩]⟩
      ⟨"ccc", "T ONE", "P0_CURATED", "curated", 0, 0,
        ⟨"T ONE", "s", "A", 0, "ccc"⟩⟩).seen_titles,
      p.2 ≠ ⟨"zzz", "T One", "COMMUNITY", "curated", 0, 0,
        ⟨"T One", "s", "A", 0, "zzz"⟩⟩) ∧
    (Dedup.dedupStep
      ⟨[("zzz", ⟨"zzz", "T One", "COMMUNITY", "curated", 0, 0,
          ⟨"T One", "s", "A", 0, "zzz"⟩⟩)],
       [("t one", ⟨"zzz", "T One", "COMMUNITY", "curated", 0, 0,
          ⟨"T One", "s", "A", 0, "zzz"⟩⟩)],
       [⟨"zzz", "T One", "COMMUNITY", "curated", 0, 0,
          ⟨"T One", "s", "A", 0, "zzz"⟩⟩]⟩
      ⟨"ccc", "T ONE", "P0_CURATED", "curated", 0, 0,
        ⟨"T ONE", "s", "A", 0, "ccc"⟩⟩).out =
      Dedup.replaceFirst
        [⟨"zzz", "T One", "COMMUNITY", "curated", 0, 0,
          ⟨"T One", "s", "A", 0, "zzz"⟩⟩]
        ⟨"zzz", "T One", "COMMUNITY", "curated", 0, 0,
          ⟨"T One", "s", "A", 0, "zzz"⟩⟩
        ⟨"ccc", "T ONE", "P0_CURATED", "curated", 0, 0,
          ⟨"T ONE", "s", "A", 0, "ccc"⟩⟩ := by
  have h := dedup_title_replacement_swaps
    ⟨[("zzz", ⟨"zzz", "T One", "COMMUNITY", "curated", 0, 0,
        ⟨"T One", "s", "A", 0, "zzz"⟩⟩)],
     [("t one", ⟨"zzz", "T One", "COMMUNITY", "curated", 0, 0,
        ⟨"T One", "s", "A", 0, "zzz"⟩⟩)],
     [⟨"zzz", "T One", "COMMUNITY", "curated", 0, 0,
        ⟨"T One", "s", "A", 0, "zzz"⟩⟩]⟩
    ⟨"ccc", "T ONE", "P0_CURATED", "curated", 0, 0,
      ⟨"T ONE", "s", "A", 0, "ccc"⟩⟩
    (by decide) (by decide) (by decide) "t one"
    ⟨"zzz", "T One", "COMMUNITY", "curated", 0, 0, ⟨"T One", "s", "A", 0, "zzz"⟩⟩
    (by decide) (by decide) (by decide) (by decide) (by decide)
    (by decide) (by decide)
  exact ⟨h.2.2.1, h.2.2.2.2⟩

namespace Dedup

theorem replaceFirst_split (o1 o2 : List Article) (old new : Article)
    (h : old ∉ o1) :
    replaceFirst (o1 ++ old :: o2) old new = o1 ++ new :: o2 := by
  induction o1 with
  | nil => simp [replaceFirst]
  | cons a t ih =>
      have ha : a ≠ old := fun hh => h (hh ▸ List.mem_cons_self a t)
      show replaceFirst (a :: (t ++ old :: o2)) old new = a :: (t ++ new :: o2)
      rw [replaceFirst, if_neg ha, ih fun hh => h (List.mem_cons_of_mem a hh)]

theorem findTitleMatch_eq_none (titles : List (String × Article)) (t : String)
    (h : ∀ p ∈ titles, ¬ (mkRat 85 100 ≤ title_similarity t p.2.title)) :
    findTitleMatch titles t = none := by
  induction titles with
  | nil => rfl
  | cons p rest ih =>
      obtain ⟨tk, e⟩ := p
      rw [findTitleMatch, if_neg (h (tk, e) (List.mem_cons_self _ _))]
      exact ih fun q hq => h q (List.mem_cons_of_mem _ hq)

/-- The state invariant of the dedup loop (absent title collisions): every
URL-map entry is keyed by its article's canonical URL, keys and values are
duplicate-free, the output list is a permutation of the stored values, all
stored articles come from the processed prefix, the title map holds curated
processed articles, and each title-map article's canonical URL is still a
key of the URL map. -/
structure DedupInv (processed : List Article) (s : DedupState) : Prop where
  uk : ∀ p ∈ s.seen_urls, p.1 = UrlCanon.canonicalize_url p.2.link
  kn : (s.seen_urls.map Prod.fst).Nodup
  vn : (s.seen_urls.map Prod.snd).Nodup
  op : List.Perm s.out (s.seen_urls.map Prod.snd)
  fi : ∀ p ∈ s.seen_urls, p.2 ∈ processed
  tf : ∀ p ∈ s.seen_titles, p.2 ∈ processed ∧ p.2.origin_type = "curated"
  tl : ∀ p ∈ s.seen_titles,
    UrlCanon.canonicalize_url p.2.link ∈ s.seen_urls.map Prod.fst

theorem DedupInv.mono {processed processed' : List Article} {s : DedupState}
    (h : ∀ x ∈ processed, x ∈ processed') (inv : DedupInv processed s) :
    DedupInv processed' s :=
  ⟨inv.uk, inv.kn, inv.vn, inv.op, fun p hp => h _ (inv.fi p hp),
   fun p hp => ⟨h _ ((inv.tf p hp).1), (inv.tf p hp).2⟩, inv.tl⟩

/-- Pairwise distinct curated titles (similarity below 0.85). -/
def NoSimilarTitles (input : List Article) : Prop :=
  ∀ x ∈ input, ∀ y ∈ input, x ≠ y → x.origin_type = "curated" →
    y.origin_type = "curated" →
    title_similarity (dedupTitle y) x.title < mkRat 85 100

theorem dedupInv_step (input processed : List Article) (s : DedupState)
    (c : Article) (hns : NoSimilarTitles input) (hc : c ∈ input)
    (hsub : ∀ x ∈ processed, x ∈ input) (inv : DedupInv processed s) :
    DedupInv (processed ++ [c]) (dedupStep s c) := by
  have hmono : ∀ x ∈ processed, x ∈ processed ++ [c] :=
    fun x hx => List.mem_append_left _ hx
  by_cases hlink : c.link = ""
  · rw [dedupStep, if_pos hlink]
    exact inv.mono hmono
  · cases hlook : odLookup s.seen_urls (UrlCanon.canonicalize_url c.link) with
    | some ex =>
        rw [dedupStep_url_hit s c ex hlink hlook]
        by_cases hwin : choose_better_article ex c = c
        · rw [if_pos hwin]
          obtain ⟨u1, u2, hu_eq, hset, _, hnk1, hnk2⟩ :=
            odLookup_split s.seen_urls (UrlCanon.canonicalize_url c.link) ex
              inv.kn hlook
          have hkeys : (odSet s.seen_urls (UrlCanon.canonicalize_url c.link) c).map
              Prod.fst = s.seen_urls.map Prod.fst := by
            rw [hset c, hu_eq]; simp
          have hvals_old : s.seen_urls.map Prod.snd =
              u1.map Prod.snd ++ ex :: u2.map Prod.snd := by
            rw [hu_eq]; simp
          have hvals_new : (odSet s.seen_urls (UrlCanon.canonicalize_url c.link) c).map
              Prod.snd = u1.map Prod.snd ++ c :: u2.map Prod.snd := by
            rw [hset c]; simp
          have hvn_old := inv.vn
          rw [hvals_old, List.nodup_middle, List.nodup_cons] at hvn_old
          have hcnotin : c ∉ u1.map Prod.snd ++ u2.map Prod.snd := by
            intro hcin
            have : ∃ p, (p ∈ u1 ∨ p ∈ u2) ∧ p.2 = c := by
              rcases List.mem_append.1 hcin with h1 | h1
              · obtain ⟨p, hp, hpc⟩ := List.mem_map.1 h1
                exact ⟨p, Or.inl hp, hpc⟩
              · obtain ⟨p, hp, hpc⟩ := List.mem_map.1 h1
                exact ⟨p, Or.inr hp, hpc⟩
            obtain ⟨p, hp12, hpc⟩ := this
            have hpmem : p ∈ s.seen_urls := by
              rw [hu_eq]
              rcases hp12 with h1 | h1
              · exact List.mem_append_left _ h1
              · exact List.mem_append_right _ (List.mem_cons_of_mem _ h1)
            have := inv.uk p hpmem
            rw [hpc] at this
            rcases hp12 with h1 | h1
            · exact hnk1 (this ▸ List.mem_map_of_mem Prod.fst h1)
            · exact hnk2 (this ▸ List.mem_map_of_mem Prod.fst h1)
          have hex_out : ex ∈ s.out := by
            have : ex ∈ s.seen_urls.map Prod.snd := by
              rw [hvals_old]
              exact List.mem_append_right _ (List.mem_cons_self _ _)
            exact (inv.op.mem_iff).2 this
          have hout_nodup : s.out.Nodup := (inv.op.nodup_iff).2 inv.vn
          obtain ⟨o1, o2, ho⟩ := List.append_of_mem hex_out
          have hexo1 : ex ∉ o1 := by
            have hnd := hout_nodup
            rw [ho, List.nodup_middle, List.nodup_cons] at hnd
            exact fun hh => hnd.1 (List.mem_append_left _ hh)
          refine ⟨?_, ?_, ?_, ?_, ?_, ?_, ?_⟩
          · intro p hp
            rcases mem_odSet _ _ _ p hp with rfl | hp'
            · rfl
            · exact inv.uk p hp'
          · rw [hkeys]; exact inv.kn
          · rw [hvals_new, List.nodup_middle, List.nodup_cons]
            exact ⟨hcnotin, hvn_old.2⟩
          · show List.Perm (replaceFirst s.out ex c) _
            rw [ho, replaceFirst_split o1 o2 ex c hexo1, hvals_new]
            have herase : List.Perm (o1 ++ o2)
                (u1.map Prod.snd ++ u2.map Prod.snd) := by
              have h1 := inv.op.erase ex
              rw [ho, hvals_old] at h1
              rw [List.erase_append_right _ hexo1, List.erase_cons_head] at h1
              rw [List.erase_append_right _ (fun hh => hvn_old.1
                (List.mem_append_left _ hh)), List.erase_cons_head] at h1
              exact h1
            refine List.Perm.trans List.perm_middle ?_
            refine List.Perm.trans (herase.cons c) ?_
            exact List.perm_middle.symm
          · intro p hp
            rcases mem_odSet _ _ _ p hp with rfl | hp'
            · exact List.mem_append_right _ (List.mem_cons_self _ _)
            · exact hmono _ (inv.fi p hp')
          · intro p hp
            exact ⟨hmono _ ((inv.tf p hp).1), (inv.tf p hp).2⟩
          · intro p hp
            rw [hkeys]
            exact inv.tl p hp
        · rw [if_neg hwin]
          exact inv.mono hmono
    | none =>
        have hfresh : UrlCanon.canonicalize_url c.link ∉
            s.seen_urls.map Prod.fst := (odLookup_eq_none_iff _ _).1 hlook
        have hset := odSet_fresh s.seen_urls (UrlCanon.canonicalize_url c.link) c hfresh
        have hkeys : (odSet s.seen_urls (UrlCanon.canonicalize_url c.link) c).map
            Prod.fst = s.seen_urls.map Prod.fst ++
              [UrlCanon.canonicalize_url c.link] := by rw [hset]; simp
        have hvals : (odSet s.seen_urls (UrlCanon.canonicalize_url c.link) c).map
            Prod.snd = s.seen_urls.map Prod.snd ++ [c] := by rw [hset]; simp
        have hkn' : ((odSet s.seen_urls (UrlCanon.canonicalize_url c.link) c).map
            Prod.fst).Nodup := by
          rw [hkeys, List.nodup_append]
          refine ⟨inv.kn, List.nodup_singleton _, ?_⟩
          intro x hx hx'
          rw [List.mem_singleton] at hx'
          exact hfresh (hx' ▸ hx)
        have hcval : c ∉ s.seen_urls.map Prod.snd := by
          intro hcin
          obtain ⟨p, hp, hpc⟩ := List.mem_map.1 hcin
          have := inv.uk p hp
          rw [hpc] at this
          exact hfresh (this ▸ List.mem_map_of_mem Prod.fst hp)
        have hvn' : ((odSet s.seen_urls (UrlCanon.canonicalize_url c.link) c).map
            Prod.snd).Nodup := by
          rw [hvals, List.nodup_append]
          refine ⟨inv.vn, List.nodup_singleton _, ?_⟩
          intro x hx hx'
          rw [List.mem_singleton] at hx'
          exact hcval (hx' ▸ hx)
        have huk' : ∀ p ∈ odSet s.seen_urls (UrlCanon.canonicalize_url c.link) c,
            p.1 = UrlCanon.canonicalize_url p.2.link := by
          intro p hp
          rcases mem_odSet _ _ _ p hp with rfl | hp'
          · rfl
          · exact inv.uk p hp'
        have hfi' : ∀ p ∈ odSet s.seen_urls (UrlCanon.canonicalize_url c.link) c,
            p.2 ∈ processed ++ [c] := by
          intro p hp
          rcases mem_odSet _ _ _ p hp with rfl | hp'
          · exact List.mem_append_right _ (List.mem_cons_self _ _)
          · exact hmono _ (inv.fi p hp')
        by_cases hcond : c.origin_type = "curated" ∧ dedupTitle c ≠ ""
        · have hfindnone : findTitleMatch s.seen_titles (dedupTitle c) = none := by
            refine findTitleMatch_eq_none _ _ ?_
            intro p hp hge
            by_cases heq : p.2 = c
            · have := inv.tl p hp
              rw [heq] at this
              exact hfresh this
            · have hlt := hns p.2 (hsub _ ((inv.tf p hp).1)) c hc
                (fun hh => heq hh) ((inv.tf p hp).2) hcond.1
              exact absurd hge (not_le.2 hlt)
          rw [dedupStep_title_miss s c hlink hlook hcond hfindnone]
          refine ⟨huk', hkn', hvn', ?_, hfi', ?_, ?_⟩
          · show List.Perm (s.out ++ [c]) _
            rw [hvals]
            exact inv.op.append_right [c]
          · intro p hp
            rcases mem_odSet _ _ _ p hp with rfl | hp'
            · exact ⟨List.mem_append_right _ (List.mem_cons_self _ _), hcond.1⟩
            · exact ⟨hmono _ ((inv.tf p hp').1), (inv.tf p hp').2⟩
          · intro p hp
            rw [hkeys]
            rcases mem_odSet _ _ _ p hp with rfl | hp'
            · exact List.mem_append_right _ (List.mem_cons_self _ _)
            · exact List.mem_append_left _ (inv.tl p hp')
        · rw [dedupStep_plain s c hlink hlook hcond]
          refine ⟨huk', hkn', hvn', ?_, hfi', ?_, ?_⟩
          · show List.Perm (s.out ++ [c]) _
            rw [hvals]
            exact inv.op.append_right [c]
          · intro p hp
            exact ⟨hmono _ ((inv.tf p hp).1), (inv.tf p hp).2⟩
          · intro p hp
            rw [hkeys]
            exact List.mem_append_left _ (inv.tl p hp)

end Dedup

namespace Dedup

theorem dedupFold_inv_aux (input : List Article) (hns : NoSimilarTitles input) :
    ∀ (l processed : List Article) (s : DedupState),
      (∀ x ∈ processed, x ∈ input) → (∀ x ∈ l, x ∈ input) →
      DedupInv processed s → DedupInv (processed ++ l) (l.foldl dedupStep s) := by
  intro l
  induction l with
  | nil =>
      intro processed s _ _ inv
      simpa using inv
  | cons c t ih =>
      intro processed s hsub hl inv
      have h1 := dedupInv_step input processed s c hns (hl c (List.mem_cons_self _ _))
        hsub inv
      have h2 := ih (processed ++ [c]) (dedupStep s c)
        (by
          intro x hx
          rcases List.mem_append.1 hx with hx1 | hx1
          · exact hsub x hx1
          · rw [List.mem_singleton] at hx1
            exact hx1 ▸ hl c (List.mem_cons_self _ _))
        (fun x hx => hl x (List.mem_cons_of_mem _ hx)) h1
      simpa using h2

theorem dedupFold_inv (input : List Article) (hns : NoSimilarTitles input) :
    DedupInv input (dedupFold input) := by
  have h := dedupFold_inv_aux input hns input [] ⟨[], [], []⟩
    (by intro x hx; cases hx) (fun x hx => hx)
    ⟨(by intro p hp; cases hp), List.nodup_nil, List.nodup_nil, List.Perm.refl _,
     (by intro p hp; cases hp), (by intro p hp; cases hp),
     (by intro p hp; cases hp)⟩
  simpa [dedupFold] using h

end Dedup

/-- **C9 (counterexample).** The claim asserts that no two distinct articles
in the dedup output share a canonical URL.  A chain breaks it: curated `A`
is replaced through the URL map by `B` (same canonical URL `"a"`), leaving
`A`'s stale title entry; curated `C` (fresh URL `"c"`) then title-collides
with the stale `A` and wins, which deletes `B`'s URL key and swaps nothing
in the output (A is no longer there); raw `D` with canonical URL `"a"` is
then admitted although `B` is still in the output.  The output is `[B, D]`
with `B ≠ D` and equal canonical URLs. -/
theorem dedup_duplicate_url_counterexample :
    Dedup.deduplicate_articles true
      [⟨"a", "T x", "COMMUNITY", "curated", 0, 0, ⟨"T x", "s", "A", 0, "a"⟩⟩,
       ⟨"a", "tb", "P2_RAW", "raw", 0, 0, ⟨"tb", "s", "A", 0, "a"⟩⟩,
       ⟨"c", "t X", "P0_CURATED", "curated", 0, 0, ⟨"t X", "s", "A", 0, "c"⟩⟩,
       ⟨"a", "td", "P1_CONTEXT", "raw", 0, 0, ⟨"td", "s", "A", 0, "a"⟩⟩] =
      [⟨"a", "tb", "P2_RAW", "raw", 0, 0, ⟨"tb", "s", "A", 0, "a"⟩⟩,
       ⟨"a", "td", "P1_CONTEXT", "raw", 0, 0, ⟨"td", "s", "A", 0, "a"⟩⟩] ∧
    (⟨"a", "tb", "P2_RAW", "raw", 0, 0, ⟨"tb", "s", "A", 0, "a"⟩⟩ : Article) ≠
      ⟨"a", "td", "P1_CONTEXT", "raw", 0, 0, ⟨"td", "s", "A", 0, "a"⟩⟩ ∧
    UrlCanon.canonicalize_url
      (⟨"a", "tb", "P2_RAW", "raw", 0, 0, ⟨"tb", "s", "A", 0, "a"⟩⟩ : Article).link =
    UrlCanon.canonicalize_url
      (⟨"a", "td", "P1_CONTEXT", "raw", 0, 0, ⟨"td", "s", "A", 0, "a"⟩⟩ : Article).link := by
  decide

/-- **C9 (amended).** Every article returned by `deduplicate_articles` is one
of the input articles; and *provided no two distinct curated input articles
have title similarity ≥ 0.85* (so the title-similarity path never fires and
no stale title entry can be matched), the returned articles have pairwise
distinct canonical URLs.  (Without that proviso the counterexample's
title-collision chain re-admits a duplicate canonical URL.) -/
theorem dedup_output_unique (input : List Article)
    (hns : ∀ x ∈ input, ∀ y ∈ input, x ≠ y → x.origin_type = "curated" →
      y.origin_type = "curated" →
      Dedup.title_similarity (Dedup.dedupTitle y) x.title < mkRat 85 100) :
    (∀ a ∈ Dedup.deduplicate_articles true input, a ∈ input) ∧
    List.Pairwise
      (fun x y => UrlCanon.canonicalize_url x.link ≠ UrlCanon.canonicalize_url y.link)
      (Dedup.deduplicate_articles true input) := by
  have inv := Dedup.dedupFold_inv input hns
  have hout : Dedup.deduplicate_articles true input = (Dedup.dedupFold input).out := rfl
  constructor
  · intro a ha
    rw [hout] at ha
    have := inv.op.subset ha
    obtain ⟨p, hp, hpa⟩ := List.mem_map.1 this
    exact hpa ▸ inv.fi p hp
  · rw [hout]
    have hkeys : List.Pairwise (fun p q : String × Article => p.1 ≠ q.1)
        (Dedup.dedupFold input).seen_urls := by
      have := inv.kn
      rw [List.Nodup, List.pairwise_map] at this
      exact this
    have hcanon : List.Pairwise
        (fun p q : String × Article =>
          UrlCanon.canonicalize_url p.2.link ≠ UrlCanon.canonicalize_url q.2.link)
        (Dedup.dedupFold input).seen_urls := by
      refine hkeys.imp_of_mem ?_
      intro p q hp hq hne
      rw [← inv.uk p hp, ← inv.uk q hq]
      exact hne
    have hsnd : List.Pairwise
        (fun x y : Article =>
          UrlCanon.canonicalize_url x.link ≠ UrlCanon.canonicalize_url y.link)
        ((Dedup.dedupFold input).seen_urls.map Prod.snd) := by
      rw [List.pairwise_map]
      exact hcanon
    exact ((inv.op.pairwise_iff fun h => Ne.symm h).2 hsnd)

/-- Witness for `dedup_output_unique`: two raw articles with distinct links;
both survive, both are input articles, and their canonical URLs differ. -/
theorem dedup_output_unique_witness :
    (∀ a ∈ Dedup.deduplicate_articles true
      [⟨"wa", "w1", "P2_RAW", "raw", 0, 0, ⟨"w1", "s", "A", 0, "wa"⟩⟩,
       ⟨"wb", "w2", "P2_RAW", "raw", 0, 0, ⟨"w2", "s", "A", 0, "wb"⟩⟩],
      a ∈ [⟨"wa", "w1", "P2_RAW", "raw", 0, 0, ⟨"w1", "s", "A", 0, "wa"⟩⟩,
        ⟨"wb", "w2", "P2_RAW", "raw", 0, 0, ⟨"w2", "s", "A", 0, "wb"⟩⟩]) ∧
    List.Pairwise
      (fun x y => UrlCanon.canonicalize_url x.link ≠ UrlCanon.canonicalize_url y.link)
      (Dedup.deduplicate_articles true
        [⟨"wa", "w1", "P2_RAW", "raw", 0, 0, ⟨"w1", "s", "A", 0, "wa"⟩⟩,
         ⟨"wb", "w2", "P2_RAW", "raw", 0, 0, ⟨"w2", "s", "A", 0, "wb"⟩⟩]) :=
  dedup_output_unique
    [⟨"wa", "w1", "P2_RAW", "raw", 0, 0, ⟨"w1", "s", "A", 0, "wa"⟩⟩,
     ⟨"wb", "w2", "P2_RAW", "raw", 0, 0, ⟨"w2", "s", "A", 0, "wb"⟩⟩]
    (by decide)

namespace UrlCanon

/-! ### Round-trip lemmas for the parsing helpers -/

theorem splitFirst_eq_some (sep : Char) (u a b : List Char)
    (h : splitFirst sep u = some (a, b)) : u = a ++ sep :: b ∧ sep ∉ a := by
  induction u generalizing a with
  | nil => cases h
  | cons c t ih =>
      rw [splitFirst] at h
      by_cases hc : c = sep
      · rw [if_pos hc] at h
        obtain ⟨rfl, rfl⟩ := Prod.mk.injEq .. ▸ Option.some.inj h
        subst hc
        exact ⟨rfl, List.not_mem_nil _⟩
      · rw [if_neg hc] at h
        cases hsf : splitFirst sep t with
        | none => rw [hsf] at h; cases h
        | some p =>
            rw [hsf] at h
            obtain ⟨a', b'⟩ := p
            obtain ⟨rfl, rfl⟩ := Prod.mk.injEq .. ▸ Option.some.inj h
            obtain ⟨h1, h2⟩ := ih _ hsf
            constructor
            · rw [List.cons_append, ← h1]
            · intro hmem
              rcases List.mem_cons.1 hmem with rfl | hmem'
              · exact hc rfl
              · exact h2 hmem'

theorem splitFirst_append (sep : Char) (a b : List Char) (ha : sep ∉ a) :
    splitFirst sep (a ++ sep :: b) = some (a, b) := by
  induction a with
  | nil => simp [splitFirst]
  | cons c t ih =>
      have hc : c ≠ sep := fun hh => ha (hh ▸ List.mem_cons_self _ _)
      rw [List.cons_append, splitFirst, if_neg hc,
        ih fun hh => ha (List.mem_cons_of_mem _ hh)]
      rfl

theorem splitFirst_of_not_mem (sep : Char) (u : List Char) (h : sep ∉ u) :
    splitFirst sep u = none := by
  induction u with
  | nil => rfl
  | cons c t ih =>
      have hc : c ≠ sep := fun hh => h (hh ▸ List.mem_cons_self _ _)
      rw [splitFirst, if_neg hc, ih fun hh => h (List.mem_cons_of_mem _ hh)]
      rfl

theorem takeUntilAny_append (delims : List Char) (a b : List Char)
    (ha : ∀ c ∈ a, c ∉ delims)
    (hb : b = [] ∨ ∃ c bs, b = c :: bs ∧ c ∈ delims) :
    takeUntilAny delims (a ++ b) = (a, b) := by
  induction a with
  | nil =>
      rcases hb with rfl | ⟨c, bs, rfl, hc⟩
      · rfl
      · simp [takeUntilAny, hc]
  | cons c t ih =>
      have hc : c ∉ delims := ha c (List.mem_cons_self _ _)
      rw [List.cons_append, takeUntilAny, if_neg hc,
        ih fun x hx => ha x (List.mem_cons_of_mem _ hx)]

theorem takeUntilAny_not_mem (delims : List Char) (u : List Char)
    (h : ∀ c ∈ u, c ∉ delims) : takeUntilAny delims u = (u, []) := by
  induction u with
  | nil => rfl
  | cons c t ih =>
      rw [takeUntilAny, if_neg (h c (List.mem_cons_self _ _)),
        ih fun x hx => h x (List.mem_cons_of_mem _ hx)]

/-! ### `unquote_plus` is the identity on `%`- and `+`-free strings -/

theorem percentDecodeAux_id (s : List Char) (h : '%' ∉ s) :
    ∀ fuel, s.length ≤ fuel → percentDecodeAux fuel s = s := by
  induction s with
  | nil => intro fuel _; cases fuel <;> rfl
  | cons c t ih =>
      intro fuel hf
      have hc : c ≠ '%' := fun hh => h (hh ▸ List.mem_cons_self _ _)
      cases fuel with
      | zero => simp at hf
      | succ n =>
          rw [percentDecodeAux, if_neg hc,
            ih (fun hh => h (List.mem_cons_of_mem _ hh)) n
              (by simpa [Nat.succ_le_succ_iff] using hf)]

theorem plus_map_id (s : List Char) (hpl : '+' ∉ s) :
    (s.map fun c => if c = '+' then ' ' else c) = s := by
  induction s with
  | nil => rfl
  | cons c t ih =>
      have hc : c ≠ '+' := fun hh => hpl (hh ▸ List.mem_cons_self _ _)
      rw [List.map_cons, if_neg hc, ih fun hh => hpl (List.mem_cons_of_mem _ hh)]

theorem unquotePlus_id (s : List Char) (hp : '%' ∉ s) (hpl : '+' ∉ s) :
    unquotePlus s = s := by
  unfold unquotePlus percentDecode
  rw [plus_map_id s hpl]
  exact percentDecodeAux_id s hp _ (Nat.le_succ _)

end UrlCanon

namespace UrlCanon

/-! ### Splitting on `&` and the query pipeline -/

theorem splitSep_ne_nil (sep : Char) (l : List Char) : splitSep sep l ≠ [] := by
  cases l with
  | nil => simp [splitSep]
  | cons c t =>
      rw [splitSep]
      by_cases h : c = sep
      · simp [h]
      · rw [if_neg h]
        cases hs : splitSep sep t <;> simp

theorem splitSep_no_sep (sep : Char) (l : List Char) :
    ∀ f ∈ splitSep sep l, sep ∉ f := by
  induction l with
  | nil =>
      intro f hf
      rw [splitSep, List.mem_singleton] at hf
      subst hf
      exact List.not_mem_nil _
  | cons c t ih =>
      intro f hf
      rw [splitSep] at hf
      by_cases h : c = sep
      · rw [if_pos h] at hf
        rcases List.mem_cons.1 hf with rfl | hf'
        · exact List.not_mem_nil _
        · exact ih f hf'
      · rw [if_neg h] at hf
        cases hs : splitSep sep t with
        | nil => exact absurd hs (splitSep_ne_nil sep t)
        | cons g rest =>
            rw [hs] at hf
            rcases List.mem_cons.1 hf with rfl | hf'
            · intro hmem
              rcases List.mem_cons.1 hmem with rfl | hmem'
              · exact h rfl
              · exact ih g (hs ▸ List.mem_cons_self _ _) hmem'
            · exact ih f (hs ▸ List.mem_cons_of_mem _ hf')

theorem splitSep_subset (sep : Char) (l : List Char) :
    ∀ f ∈ splitSep sep l, ∀ c ∈ f, c ∈ l := by
  induction l with
  | nil =>
      intro f hf c hc
      rw [splitSep, List.mem_singleton] at hf
      subst hf
      cases hc
  | cons a t ih =>
      intro f hf c hc
      rw [splitSep] at hf
      by_cases h : a = sep
      · rw [if_pos h] at hf
        rcases List.mem_cons.1 hf with rfl | hf'
        · cases hc
        · exact List.mem_cons_of_mem _ (ih f hf' c hc)
      · rw [if_neg h] at hf
        cases hs : splitSep sep t with
        | nil => exact absurd hs (splitSep_ne_nil sep t)
        | cons g rest =>
            rw [hs] at hf
            rcases List.mem_cons.1 hf with rfl | hf'
            · rcases List.mem_cons.1 hc with rfl | hc'
              · exact List.mem_cons_self _ _
              · exact List.mem_cons_of_mem _
                  (ih g (hs ▸ List.mem_cons_self _ _) c hc')
            · exact List.mem_cons_of_mem _
                (ih f (hs ▸ List.mem_cons_of_mem _ hf') c hc)

theorem splitSep_append_sep (sep : Char) (a b : List Char) (ha : sep ∉ a) :
    splitSep sep (a ++ sep :: b) = a :: splitSep sep b := by
  induction a with
  | nil => simp [splitSep]
  | cons c t ih =>
      have hc : c ≠ sep := fun hh => ha (hh ▸ List.mem_cons_self _ _)
      rw [List.cons_append, splitSep, if_neg hc,
        ih fun hh => ha (List.mem_cons_of_mem _ hh)]

theorem splitSep_of_not_mem (sep : Char) (l : List Char) (h : sep ∉ l) :
    splitSep sep l = [l] := by
  induction l with
  | nil => rfl
  | cons c t ih =>
      have hc : c ≠ sep := fun hh => h (hh ▸ List.mem_cons_self _ _)
      rw [splitSep, if_neg hc, ih fun hh => h (List.mem_cons_of_mem _ hh)]

theorem splitSep_intercalate (sep : Char) (fs : List (List Char))
    (hfs : ∀ f ∈ fs, sep ∉ f) (hne : fs ≠ []) :
    splitSep sep (List.intercalate [sep] fs) = fs := by
  induction fs with
  | nil => exact absurd rfl hne
  | cons f rest ih =>
      cases rest with
      | nil =>
          have h1 : List.intercalate [sep] [f] = f := by
            simp [List.intercalate, List.intersperse]
          rw [h1]
          exact splitSep_of_not_mem sep f (hfs f (List.mem_cons_self _ _))
      | cons g rest' =>
          have hstep : List.intercalate [sep] (f :: g :: rest') =
              f ++ sep :: List.intercalate [sep] (g :: rest') := by
            simp [List.intercalate, List.intersperse]
          rw [hstep, splitSep_append_sep sep f _ (hfs f (List.mem_cons_self _ _)),
            ih (fun x hx => hfs x (List.mem_cons_of_mem _ hx)) (by simp)]

theorem parseQsl_mem_clean (q : List Char)
    (hq : ∀ c ∈ q, c ≠ '%' ∧ c ≠ '+') (p : List Char × List Char)
    (hp : p ∈ parseQsl q) :
    (∀ c ∈ p.1, c ∈ q) ∧ (∀ c ∈ p.2, c ∈ q) ∧ '&' ∉ p.1 ∧ '&' ∉ p.2 ∧
      '=' ∉ p.1 ∧ p.2 ≠ [] := by
  obtain ⟨f, hf, hfn⟩ := List.mem_filterMap.1 hp
  by_cases hfe : f = []
  · rw [if_pos hfe] at hfn; cases hfn
  · rw [if_neg hfe] at hfn
    cases hsf : splitFirst '=' f with
    | none => rw [hsf] at hfn; cases hfn
    | some nv =>
        obtain ⟨n, v⟩ := nv
        rw [hsf] at hfn
        dsimp only at hfn
        by_cases hv : v = []
        · rw [if_pos hv] at hfn; cases hfn
        · rw [if_neg hv] at hfn
          obtain ⟨hfeq, hne⟩ := splitFirst_eq_some '=' f n v hsf
          have hfsub : ∀ c ∈ f, c ∈ q := splitSep_subset '&' q f hf
          have hnsub : ∀ c ∈ n, c ∈ q := fun c hc =>
            hfsub c (hfeq ▸ List.mem_append_left _ hc)
          have hvsub : ∀ c ∈ v, c ∈ q := fun c hc =>
            hfsub c (hfeq ▸ List.mem_append_right _ (List.mem_cons_of_mem _ hc))
          have hnid : unquotePlus n = n :=
            unquotePlus_id n (fun hh => ((hq _ (hnsub _ hh)).1) rfl)
              (fun hh => ((hq _ (hnsub _ hh)).2) rfl)
          have hvid : unquotePlus v = v :=
            unquotePlus_id v (fun hh => ((hq _ (hvsub _ hh)).1) rfl)
              (fun hh => ((hq _ (hvsub _ hh)).2) rfl)
          rw [hnid, hvid] at hfn
          obtain rfl : p = (n, v) := (Option.some.inj hfn).symm
          have hamp : '&' ∉ f := splitSep_no_sep '&' q f hf
          exact ⟨hnsub, hvsub,
            fun hh => hamp (hfeq ▸ List.mem_append_left _ hh),
            fun hh => hamp (hfeq ▸ List.mem_append_right _ (List.mem_cons_of_mem _ hh)),
            hne, hv⟩

theorem addToGroup_keys (acc : List (List Char × List (List Char)))
    (k : List Char) (v : List Char) :
    (addToGroup acc k v).map Prod.fst =
      if k ∈ acc.map Prod.fst then acc.map Prod.fst
      else acc.map Prod.fst ++ [k] := by
  induction acc with
  | nil => simp [addToGroup]
  | cons p t ih =>
      obtain ⟨k', vs⟩ := p
      by_cases h : k' = k
      · subst h
        simp [addToGroup]
      · rw [addToGroup, if_neg h]
        simp only [List.map_cons, ih, List.mem_cons]
        by_cases hmem : k ∈ t.map Prod.fst
        · rw [if_pos hmem, if_pos (Or.inr hmem)]
        · rw [if_neg hmem, if_neg ?_]
          · rfl
          · intro hh
            rcases hh with hh | hh
            · exact h hh.symm
            · exact hmem hh

theorem addToGroup_keys_nodup (acc : List (List Char × List (List Char)))
    (k : List Char) (v : List Char) (h : (acc.map Prod.fst).Nodup) :
    ((addToGroup acc k v).map Prod.fst).Nodup := by
  rw [addToGroup_keys]
  by_cases hmem : k ∈ acc.map Prod.fst
  · rw [if_pos hmem]; exact h
  · rw [if_neg hmem, List.nodup_append]
    exact ⟨h, List.nodup_singleton _, by
      intro x hx hx'
      rw [List.mem_singleton] at hx'
      exact hmem (hx' ▸ hx)⟩

theorem qsGroup_keys_nodup (l : List (List Char × List Char)) :
    ((qsGroup l).map Prod.fst).Nodup := by
  suffices h : ∀ acc, (acc.map Prod.fst).Nodup →
      ((l.foldl (fun acc p => addToGroup acc p.1 p.2) acc).map Prod.fst).Nodup by
    exact h [] List.nodup_nil
  induction l with
  | nil => intro acc h; exact h
  | cons p t ih =>
      intro acc h
      exact ih _ (addToGroup_keys_nodup acc p.1 p.2 h)

theorem addToGroup_prov (acc : List (List Char × List (List Char)))
    (k v : List Char) (P : List Char → List Char → Prop)
    (hacc : ∀ p ∈ acc, p.2 ≠ [] ∧ ∀ w ∈ p.2, P p.1 w) (hkv : P k v) :
    ∀ p ∈ addToGroup acc k v, p.2 ≠ [] ∧ ∀ w ∈ p.2, P p.1 w := by
  induction acc with
  | nil =>
      intro p hp
      rw [addToGroup, List.mem_singleton] at hp
      subst hp
      exact ⟨by simp, by
        intro w hw
        rw [List.mem_singleton] at hw
        exact hw ▸ hkv⟩
  | cons q t ih =>
      obtain ⟨k', vs⟩ := q
      intro p hp
      by_cases h : k' = k
      · rw [addToGroup, if_pos h] at hp
        rcases List.mem_cons.1 hp with rfl | hp'
        · refine ⟨by simp, ?_⟩
          intro w hw
          rcases List.mem_append.1 hw with hw1 | hw1
          · exact (hacc (k', vs) (List.mem_cons_self _ _)).2 w hw1
          · rw [List.mem_singleton] at hw1
            subst hw1
            exact h ▸ hkv
        · exact hacc p (List.mem_cons_of_mem _ hp')
      · rw [addToGroup, if_neg h] at hp
        rcases List.mem_cons.1 hp with rfl | hp'
        · exact hacc (k', vs) (List.mem_cons_self _ _)
        · exact ih (fun x hx => hacc x (List.mem_cons_of_mem _ hx)) p hp'

theorem qsGroup_prov (l : List (List Char × List Char))
    (P : List Char → List Char → Prop) (hl : ∀ x ∈ l, P x.1 x.2) :
    ∀ p ∈ qsGroup l, p.2 ≠ [] ∧ ∀ w ∈ p.2, P p.1 w := by
  suffices h : ∀ (l' : List (List Char × List Char)) acc,
      (∀ x ∈ l', x ∈ l) →
      (∀ p ∈ acc, p.2 ≠ [] ∧ ∀ w ∈ p.2, P p.1 w) →
      ∀ p ∈ l'.foldl (fun acc p => addToGroup acc p.1 p.2) acc,
        p.2 ≠ [] ∧ ∀ w ∈ p.2, P p.1 w by
    exact h l [] (fun x hx => hx) (fun p hp => absurd hp (List.not_mem_nil _))
  intro l'
  induction l' with
  | nil => intro acc _ hacc; exact hacc
  | cons x t ih =>
      intro acc hsub hacc
      exact ih _ (fun y hy => hsub y (List.mem_cons_of_mem _ hy))
        (addToGroup_prov acc x.1 x.2 P hacc (hl x (hsub x (List.mem_cons_self _ _))))

theorem addToGroup_fresh (acc : List (List Char × List (List Char)))
    (k v : List Char) (h : k ∉ acc.map Prod.fst) :
    addToGroup acc k v = acc ++ [(k, [v])] := by
  induction acc with
  | nil => rfl
  | cons p t ih =>
      obtain ⟨k', vs⟩ := p
      simp only [List.map_cons, List.mem_cons] at h
      push_neg at h
      rw [addToGroup, if_neg (Ne.symm h.1), ih h.2]
      rfl

theorem qsGroup_of_nodup (l : List (List Char × List Char))
    (h : (l.map Prod.fst).Nodup) :
    qsGroup l = l.map fun p => (p.1, [p.2]) := by
  suffices hh : ∀ (l' : List (List Char × List Char)) acc,
      ((acc.map Prod.fst ++ l'.map Prod.fst).Nodup) →
      l'.foldl (fun acc p => addToGroup acc p.1 p.2) acc =
        acc ++ l'.map fun p => (p.1, [p.2]) by
    have h2 := hh l []
    simp only [List.map_nil, List.nil_append] at h2
    exact h2 h
  intro l'
  induction l' with
  | nil => intro acc _; simp
  | cons p t ih =>
      intro acc hnd
      have hfresh : p.1 ∉ acc.map Prod.fst := by
        intro hmem
        rw [List.map_cons, List.nodup_append] at hnd
        exact hnd.2.2 hmem (List.mem_cons_self _ _)
      rw [List.foldl_cons, addToGroup_fresh acc p.1 p.2 hfresh]
      have hnd' : (((acc ++ [(p.1, [p.2])]).map Prod.fst) ++
          t.map Prod.fst).Nodup := by
        simpa [List.map_append, List.append_assoc] using hnd
      rw [ih (acc ++ [(p.1, [p.2])]) hnd']
      simp

theorem uLtIff {a b : UInt32} : a < b ↔ a.toNat < b.toNat := Iff.rfl

theorem uLtTrans {a b c : UInt32} (h1 : a < b) (h2 : b < c) : a < c :=
  uLtIff.2 (Nat.lt_trans (uLtIff.1 h1) (uLtIff.1 h2))

theorem uLtAsymm {a b : UInt32} (h : a < b) : ¬ b < a :=
  fun h2 => Nat.lt_irrefl _ (Nat.lt_trans (uLtIff.1 h) (uLtIff.1 h2))

theorem uEqOfNotLt {a b : UInt32} (h1 : ¬ a < b) (h2 : ¬ b < a) : a = b :=
  UInt32.ext (Nat.le_antisymm (Nat.le_of_not_lt (fun h => h2 (uLtIff.2 h)))
    (Nat.le_of_not_lt (fun h => h1 (uLtIff.2 h))))

theorem lexLt_conn (a : List Char) : ∀ b, lexLt a b = false →
    lexLt b a = false → a = b := by
  induction a with
  | nil =>
      intro b h1 _
      cases b with
      | nil => rfl
      | cons y ys => rw [lexLt] at h1; cases h1
  | cons x xs ih =>
      intro b h1 h2
      cases b with
      | nil => rw [lexLt] at h2; cases h2
      | cons y ys =>
          rw [lexLt] at h1 h2
          by_cases hxy : x.val < y.val
          · rw [if_pos hxy] at h1; cases h1
          · rw [if_neg hxy] at h1
            by_cases hyx : y.val < x.val
            · rw [if_pos hyx] at h2; cases h2
            · rw [if_neg hyx] at h1
              rw [if_neg hyx, if_neg hxy] at h2
              have hval : x.val = y.val := uEqOfNotLt hxy hyx
              rw [Char.ext hval, ih ys h1 h2]

theorem lexLt_asymm (a : List Char) : ∀ b, lexLt a b = true →
    lexLt b a = false := by
  induction a with
  | nil =>
      intro b _
      cases b with
      | nil => rfl
      | cons y ys => rfl
  | cons x xs ih =>
      intro b h
      cases b with
      | nil => rw [lexLt] at h; cases h
      | cons y ys =>
          rw [lexLt] at h ⊢
          by_cases hxy : x.val < y.val
          · have hyx : ¬ y.val < x.val := uLtAsymm hxy
            rw [if_neg hyx, if_pos hxy]
          · rw [if_neg hxy] at h
            by_cases hyx : y.val < x.val
            · rw [if_pos hyx] at h; cases h
            · rw [if_neg hyx] at h
              rw [if_neg hyx, if_neg hxy]
              exact ih ys h

theorem lexLt_trans (a : List Char) : ∀ b c, lexLt a b = true →
    lexLt b c = true → lexLt a c = true := by
  induction a with
  | nil =>
      intro b c h1 h2
      cases c with
      | nil =>
          cases b with
          | nil => cases h1
          | cons y ys => rw [lexLt] at h2; cases h2
      | cons z zs => rfl
  | cons x xs ih =>
      intro b c h1 h2
      cases b with
      | nil => rw [lexLt] at h1; cases h1
      | cons y ys =>
          cases c with
          | nil => rw [lexLt] at h2; cases h2
          | cons z zs =>
              rw [lexLt] at h1 h2 ⊢
              by_cases hxy : x.val < y.val
              · by_cases hyz : y.val < z.val
                · rw [if_pos (uLtTrans hxy hyz)]
                · rw [if_neg hyz] at h2
                  by_cases hzy : z.val < y.val
                  · rw [if_pos hzy] at h2; cases h2
                  · have hyzeq : y.val = z.val := uEqOfNotLt hyz hzy
                    rw [if_pos (hyzeq ▸ hxy)]
              · rw [if_neg hxy] at h1
                by_cases hyx : y.val < x.val
                · rw [if_pos hyx] at h1; cases h1
                · rw [if_neg hyx] at h1
                  have hxyeq : x.val = y.val := uEqOfNotLt hxy hyx
                  by_cases hyz : y.val < z.val
                  · rw [if_pos (hxyeq ▸ hyz)]
                  · rw [if_neg hyz] at h2
                    by_cases hzy : z.val < y.val
                    · rw [if_pos hzy] at h2; cases h2
                    · rw [if_neg hzy] at h2
                      rw [if_neg (hxyeq ▸ hyz), if_neg (hxyeq ▸ hzy)]
                      exact ih ys zs h1 h2

/-- Output entries of `insertByKey`. -/
theorem mem_insertByKey (p x : List Char × List (List Char))
    (l : List (List Char × List (List Char))) (hx : x ∈ insertByKey p l) :
    x = p ∨ x ∈ l := by
  induction l with
  | nil => simpa [insertByKey] using hx
  | cons q t ih =>
      rw [insertByKey] at hx
      by_cases h : lexLt q.1 p.1
      · rw [if_pos h] at hx
        rcases List.mem_cons.1 hx with rfl | hx'
        · exact Or.inr (List.mem_cons_self _ _)
        · rcases ih hx' with h1 | h1
          · exact Or.inl h1
          · exact Or.inr (List.mem_cons_of_mem _ h1)
      · rw [if_neg h] at hx
        rcases List.mem_cons.1 hx with rfl | hx'
        · exact Or.inl rfl
        · exact Or.inr hx'

theorem insertByKey_perm (p : List Char × List (List Char))
    (l : List (List Char × List (List Char))) :
    List.Perm (insertByKey p l) (p :: l) := by
  induction l with
  | nil => exact List.Perm.refl _
  | cons q t ih =>
      rw [insertByKey]
      by_cases h : lexLt q.1 p.1
      · rw [if_pos h]
        exact (ih.cons q).trans (List.Perm.swap p q t)
      · rw [if_neg h]

theorem sortPairs_perm (l : List (List Char × List (List Char))) :
    List.Perm (sortPairs l) l := by
  induction l with
  | nil => exact List.Perm.refl _
  | cons p t ih => exact (insertByKey_perm p (sortPairs t)).trans (ih.cons p)

/-- Sortedness: later keys are never `lexLt`-below earlier keys. -/
def KeySorted (l : List (List Char × List (List Char))) : Prop :=
  List.Pairwise (fun p q => lexLt q.1 p.1 = false) l

theorem insertByKey_sorted (p : List Char × List (List Char))
    (l : List (List Char × List (List Char))) (h : KeySorted l) :
    KeySorted (insertByKey p l) := by
  induction l with
  | nil => simp [insertByKey, KeySorted]
  | cons q t ih =>
      obtain ⟨hq_all, ht⟩ := List.pairwise_cons.1 h
      rw [insertByKey]
      by_cases hq : lexLt q.1 p.1
      · rw [if_pos hq]
        refine List.pairwise_cons.2 ⟨?_, ih ht⟩
        intro x hx
        rcases mem_insertByKey p x t hx with rfl | hx'
        · exact lexLt_asymm _ _ hq
        · exact hq_all x hx'
      · rw [if_neg hq]
        refine List.pairwise_cons.2 ⟨?_, h⟩
        intro x hx
        rcases List.mem_cons.1 hx with rfl | hx'
        · exact Bool.not_eq_true _ ▸ (by simpa using hq)
        · have hxq : lexLt x.1 q.1 = false := hq_all x hx'
          by_cases hxp : lexLt x.1 p.1 = true
          · exfalso
            by_cases hqx : lexLt q.1 x.1 = true
            · exact hq (lexLt_trans _ _ _ hqx hxp)
            · have : q.1 = x.1 := lexLt_conn _ _
                (Bool.not_eq_true _ ▸ (by simpa using hqx)) hxq
              rw [← this] at hxp
              exact hq hxp
          · simpa using hxp

theorem sortPairs_sorted (l : List (List Char × List (List Char))) :
    KeySorted (sortPairs l) := by
  induction l with
  | nil => exact List.Pairwise.nil
  | cons p t ih => exact insertByKey_sorted p (sortPairs t) ih

theorem keySorted_perm_eq (l1 : List (List Char × List (List Char))) :
    ∀ l2, List.Perm l1 l2 → KeySorted l1 → KeySorted l2 →
      (l1.map Prod.fst).Nodup → l1 = l2 := by
  induction l1 with
  | nil =>
      intro l2 hp _ _ _
      exact (List.Perm.eq_nil hp.symm).symm
  | cons p t1 ih =>
      intro l2 hp h1 h2 hn
      cases l2 with
      | nil => exact absurd (List.Perm.eq_nil hp) (by simp)
      | cons q t2 =>
          by_cases hpq : p = q
          · subst hpq
            obtain ⟨h1a, h1t⟩ := List.pairwise_cons.1 h1
            obtain ⟨h2a, h2t⟩ := List.pairwise_cons.1 h2
            rw [List.map_cons, List.nodup_cons] at hn
            rw [ih t2 (hp.cons_inv) h1t h2t hn.2]
          · exfalso
            have hqmem : q ∈ p :: t1 := hp.symm.subset (List.mem_cons_self _ _)
            have hpmem : p ∈ q :: t2 := hp.subset (List.mem_cons_self _ _)
            have hqt1 : q ∈ t1 := by
              rcases List.mem_cons.1 hqmem with h | h
              · exact absurd h.symm hpq
              · exact h
            have hpt2 : p ∈ t2 := by
              rcases List.mem_cons.1 hpmem with h | h
              · exact absurd h hpq
              · exact h
            have hr1 : lexLt q.1 p.1 = false :=
              (List.pairwise_cons.1 h1).1 q hqt1
            have hr2 : lexLt p.1 q.1 = false :=
              (List.pairwise_cons.1 h2).1 p hpt2
            have hkey : p.1 = q.1 := lexLt_conn _ _ hr2 hr1
            rw [List.map_cons, List.nodup_cons] at hn
            exact hn.1 (hkey ▸ List.mem_map_of_mem Prod.fst hqt1)

/-! ### `breakLast`, `splitFirst` and `takeUntilAny` specifications -/

theorem breakLast_none_not_mem (sep : Char) (u : List Char)
    (h : breakLast sep u = none) : sep ∉ u := by
  induction u with
  | nil => exact List.not_mem_nil _
  | cons c t ih =>
      rw [breakLast] at h
      cases hbl : breakLast sep t with
      | some p => rw [hbl] at h; cases h
      | none =>
          rw [hbl] at h
          by_cases hc : c = sep
          · rw [if_pos hc] at h; cases h
          · intro hmem
            rcases List.mem_cons.1 hmem with rfl | hmem'
            · exact hc rfl
            · exact ih hbl hmem'

theorem breakLast_eq_some (sep : Char) (u : List Char) :
    ∀ a b, breakLast sep u = some (a, b) → u = a ++ sep :: b ∧ sep ∉ b := by
  induction u with
  | nil => intro a b h; cases h
  | cons c t ih =>
      intro a b h
      rw [breakLast] at h
      cases hbl : breakLast sep t with
      | some p =>
          obtain ⟨a', b'⟩ := p
          rw [hbl] at h
          obtain ⟨rfl, rfl⟩ := Prod.mk.injEq .. ▸ Option.some.inj h
          obtain ⟨h1, h2⟩ := ih a' _ hbl
          exact ⟨by rw [List.cons_append, ← h1], h2⟩
      | none =>
          rw [hbl] at h
          by_cases hc : c = sep
          · rw [if_pos hc] at h
            obtain ⟨rfl, rfl⟩ := Prod.mk.injEq .. ▸ Option.some.inj h
            subst hc
            exact ⟨rfl, breakLast_none_not_mem _ _ hbl⟩
          · rw [if_neg hc] at h; cases h

theorem breakLast_of_not_mem (sep : Char) (u : List Char) (h : sep ∉ u) :
    breakLast sep u = none := by
  induction u with
  | nil => rfl
  | cons c t ih =>
      have hc : c ≠ sep := fun hh => h (hh ▸ List.mem_cons_self _ _)
      rw [breakLast, ih fun hh => h (List.mem_cons_of_mem _ hh), if_neg hc]

theorem breakLast_append (sep : Char) (a b : List Char) (hb : sep ∉ b) :
    breakLast sep (a ++ sep :: b) = some (a, b) := by
  induction a with
  | nil =>
      rw [List.nil_append, breakLast, breakLast_of_not_mem sep b hb, if_pos rfl]
  | cons c t ih =>
      rw [List.cons_append, breakLast, ih]

theorem splitFirst_none_not_mem (sep : Char) (u : List Char)
    (h : splitFirst sep u = none) : sep ∉ u := by
  induction u with
  | nil => exact List.not_mem_nil _
  | cons c t ih =>
      rw [splitFirst] at h
      by_cases hc : c = sep
      · rw [if_pos hc] at h; cases h
      · rw [if_neg hc] at h
        cases hsf : splitFirst sep t with
        | some p => rw [hsf] at h; cases h
        | none =>
            intro hmem
            rcases List.mem_cons.1 hmem with rfl | hmem'
            · exact hc rfl
            · exact ih hsf hmem'

theorem takeUntilAny_spec (delims : List Char) (l : List Char) :
    (takeUntilAny delims l).1 ++ (takeUntilAny delims l).2 = l ∧
      (∀ c ∈ (takeUntilAny delims l).1, c ∉ delims) ∧
      ((takeUntilAny delims l).2 = [] ∨
        ∃ c t, (takeUntilAny delims l).2 = c :: t ∧ c ∈ delims) := by
  induction l with
  | nil => exact ⟨rfl, fun c hc => absurd hc (List.not_mem_nil _), Or.inl rfl⟩
  | cons c t ih =>
      rw [takeUntilAny]
      by_cases hc : c ∈ delims
      · rw [if_pos hc]
        exact ⟨rfl, fun x hx => absurd hx (List.not_mem_nil _),
          Or.inr ⟨c, t, rfl, hc⟩⟩
      · rw [if_neg hc]
        refine ⟨by rw [List.cons_append, ih.1], ?_, ih.2.2⟩
        intro x hx
        rcases List.mem_cons.1 hx with rfl | hx'
        · exact hc
        · exact ih.2.1 x hx'

/-! ### ASCII `Char.toLower` facts -/

theorem charOfNat_toNat (n : Nat) (h : n < 55296) : (Char.ofNat n).toNat = n := by
  have hv : n.isValidChar := Or.inl h
  rw [Char.ofNat, dif_pos hv]
  rfl

theorem toLower_toNat (c : Char) : (Char.toLower c).toNat =
    if 65 ≤ c.toNat ∧ c.toNat ≤ 90 then c.toNat + 32 else c.toNat := by
  unfold Char.toLower
  split
  · next h =>
      rw [if_pos h]
      exact charOfNat_toNat _ (by omega)
  · next h => rw [if_neg h]

theorem toNat_inj_char {a b : Char} (h : a.toNat = b.toNat) : a = b :=
  Char.ext (UInt32.ext h)

theorem toLower_idem (c : Char) : (Char.toLower c).toLower = c.toLower := by
  apply toNat_inj_char
  rw [toLower_toNat, toLower_toNat c]
  by_cases h : 65 ≤ c.toNat ∧ c.toNat ≤ 90
  · rw [if_pos h, if_neg (by omega)]
  · rw [if_neg h, if_neg h]

theorem mapToLower_idem (l : List Char) :
    (l.map Char.toLower).map Char.toLower = l.map Char.toLower := by
  rw [List.map_map]
  exact List.map_congr_left fun c _ => toLower_idem c

/-- `toLower` can only produce a character outside `a`-`z` from itself. -/
theorem toLower_eq_nonlower {c d : Char}
    (hd : ¬ (97 ≤ d.toNat ∧ d.toNat ≤ 122)) (h : Char.toLower c = d) :
    c = d := by
  have hn := congrArg Char.toNat h
  rw [toLower_toNat] at hn
  by_cases hc : 65 ≤ c.toNat ∧ c.toNat ≤ 90
  · rw [if_pos hc] at hn; omega
  · rw [if_neg hc] at hn; exact toNat_inj_char hn

theorem uLeIff {a b : UInt32} : a ≤ b ↔ a.toNat ≤ b.toNat := Iff.rfl

theorem isAlpha_iff (c : Char) : c.isAlpha = true ↔
    (65 ≤ c.toNat ∧ c.toNat ≤ 90) ∨ (97 ≤ c.toNat ∧ c.toNat ≤ 122) := by
  simp only [Char.isAlpha, Char.isUpper, Char.isLower, Bool.or_eq_true,
    Bool.and_eq_true, decide_eq_true_eq, ge_iff_le]
  constructor
  · rintro (⟨h1, h2⟩ | ⟨h1, h2⟩)
    · exact Or.inl ⟨by exact uLeIff.1 h1, by exact uLeIff.1 h2⟩
    · exact Or.inr ⟨by exact uLeIff.1 h1, by exact uLeIff.1 h2⟩
  · rintro (⟨h1, h2⟩ | ⟨h1, h2⟩)
    · exact Or.inl ⟨by exact uLeIff.2 h1, by exact uLeIff.2 h2⟩
    · exact Or.inr ⟨by exact uLeIff.2 h1, by exact uLeIff.2 h2⟩

theorem isAlpha_toLower (c : Char) (h : c.isAlpha = true) :
    (Char.toLower c).isAlpha = true := by
  rw [isAlpha_iff] at h ⊢
  rw [toLower_toNat]
  by_cases hc : 65 ≤ c.toNat ∧ c.toNat ≤ 90
  · rw [if_pos hc]; omega
  · rw [if_neg hc]; omega

theorem isSchemeChar_toLower (c : Char) (h : isSchemeChar c = true) :
    isSchemeChar (Char.toLower c) = true := by
  simp only [isSchemeChar, Bool.or_eq_true, decide_eq_true_eq] at h ⊢
  rcases h with (((h | h) | h) | h) | h
  · exact Or.inl (Or.inl (Or.inl (Or.inl (isAlpha_toLower c h))))
  · have hdig := h
    simp only [Char.isDigit, Bool.and_eq_true, decide_eq_true_eq,
      ge_iff_le] at hdig
    have h1 : 48 ≤ c.toNat := uLeIff.1 hdig.1
    have h2 : c.toNat ≤ 57 := uLeIff.1 hdig.2
    have heq : Char.toLower c = c := toNat_inj_char (by
      rw [toLower_toNat, if_neg (by omega)])
    rw [heq]
    exact Or.inl (Or.inl (Or.inl (Or.inr h)))
  · subst h; decide
  · subst h; decide
  · subst h; decide

/-! ### The canonical query pipeline as a function, and its fixpoint -/

/-- The `clean_params` value of `canonicalize_url` as a function of the
parsed query. -/
def cleanParamsOf (q : List Char) : List (List Char × List (List Char)) :=
  (qsGroup (parseQsl q)).filter fun p =>
    decide ((p.1.map Char.toLower) ∉ trackingParams)

/-- The rebuilt query of `canonicalize_url` as a function of the parsed
query. -/
def canonQuery (q : List Char) : List Char :=
  if cleanParamsOf q = [] then [] else buildQuery (sortPairs (cleanParamsOf q))

theorem canonicalize_url_eq (url : String) :
    canonicalize_url url = if url = "" then "" else
      ⟨urlunparseChars ((urlparseChars url.data).scheme.map Char.toLower)
        ((urlparseChars url.data).netloc.map Char.toLower)
        (urlparseChars url.data).path (urlparseChars url.data).params
        (canonQuery (urlparseChars url.data).query) []⟩ := rfl

theorem filterMap_eq_map_of_some {α β : Type} (g : α → Option β) (h : α → β)
    (l : List α) (hl : ∀ x ∈ l, g x = some (h x)) :
    l.filterMap g = l.map h := by
  induction l with
  | nil => rfl
  | cons x t ih =>
      rw [List.filterMap_cons, hl x (List.mem_cons_self _ _), List.map_cons,
        ih fun y hy => hl y (List.mem_cons_of_mem _ hy)]

theorem parseQsl_buildQuery (l : List (List Char × List (List Char)))
    (hne : l ≠ [])
    (hp : ∀ p ∈ l, '&' ∉ p.1 ∧ '=' ∉ p.1 ∧ '&' ∉ p.2.headD [] ∧
      p.2.headD [] ≠ [] ∧ (∀ c ∈ p.1, c ≠ '%' ∧ c ≠ '+') ∧
      (∀ c ∈ p.2.headD [], c ≠ '%' ∧ c ≠ '+')) :
    parseQsl (buildQuery l) = l.map fun p => (p.1, p.2.headD []) := by
  have hfields : ∀ f ∈ l.map fun p => p.1 ++ '=' :: p.2.headD [], '&' ∉ f := by
    intro f hf
    obtain ⟨p, hpl, rfl⟩ := List.mem_map.1 hf
    intro hmem
    rcases List.mem_append.1 hmem with h1 | h1
    · exact (hp p hpl).1 h1
    · rcases List.mem_cons.1 h1 with h2 | h2
      · cases h2
      · exact (hp p hpl).2.2.1 h2
  have hmapne : l.map (fun p => p.1 ++ '=' :: p.2.headD []) ≠ [] := by
    intro hh
    exact hne (List.map_eq_nil_iff.1 hh)
  rw [parseQsl, buildQuery, splitSep_intercalate '&' _ hfields hmapne,
    List.filterMap_map]
  apply filterMap_eq_map_of_some
  intro x hx
  simp only [Function.comp]
  have hx1 := hp x hx
  have hfne : x.1 ++ '=' :: x.2.headD [] ≠ [] := by simp
  rw [if_neg hfne, splitFirst_append '=' x.1 _ hx1.2.1]
  dsimp only
  rw [if_neg hx1.2.2.2.1,
    unquotePlus_id x.1 (fun hh => (hx1.2.2.2.2.1 _ hh).1 rfl)
      (fun hh => (hx1.2.2.2.2.1 _ hh).2 rfl),
    unquotePlus_id _ (fun hh => (hx1.2.2.2.2.2 _ hh).1 rfl)
      (fun hh => (hx1.2.2.2.2.2 _ hh).2 rfl)]

theorem mem_intercalate_sep (sep : Char) (fs : List (List Char)) (c : Char)
    (hc : c ∈ List.intercalate [sep] fs) : c = sep ∨ ∃ f ∈ fs, c ∈ f := by
  induction fs with
  | nil => simp [List.intercalate, List.intersperse] at hc
  | cons f rest ih =>
      cases rest with
      | nil =>
          have h1 : List.intercalate [sep] [f] = f := by
            simp [List.intercalate, List.intersperse]
          rw [h1] at hc
          exact Or.inr ⟨f, List.mem_cons_self _ _, hc⟩
      | cons g rest' =>
          have hstep : List.intercalate [sep] (f :: g :: rest') =
              f ++ sep :: List.intercalate [sep] (g :: rest') := by
            simp [List.intercalate, List.intersperse]
          rw [hstep] at hc
          rcases List.mem_append.1 hc with h1 | h1
          · exact Or.inr ⟨f, List.mem_cons_self _ _, h1⟩
          · rcases List.mem_cons.1 h1 with rfl | h2
            · exact Or.inl rfl
            · rcases ih h2 with h3 | ⟨f', hf', hcf⟩
              · exact Or.inl h3
              · exact Or.inr ⟨f', List.mem_cons_of_mem _ hf', hcf⟩

theorem canonQuery_nil : canonQuery [] = [] := rfl

theorem cleanParams_props (q : List Char) (hq : ∀ c ∈ q, c ≠ '%' ∧ c ≠ '+') :
    ∀ p ∈ sortPairs (cleanParamsOf q),
      '&' ∉ p.1 ∧ '=' ∉ p.1 ∧ '&' ∉ p.2.headD [] ∧ p.2.headD [] ≠ [] ∧
      (∀ c ∈ p.1, c ∈ q) ∧ (∀ c ∈ p.2.headD [], c ∈ q) ∧
      (p.1.map Char.toLower) ∉ trackingParams := by
  intro p hp
  have hp1 : p ∈ cleanParamsOf q := ((sortPairs_perm _).mem_iff).1 hp
  have hp2 := List.mem_filter.1 hp1
  have hgp := qsGroup_prov (parseQsl q)
    (fun k v => (∀ c ∈ k, c ∈ q) ∧ (∀ c ∈ v, c ∈ q) ∧ '&' ∉ k ∧ '&' ∉ v ∧
      '=' ∉ k ∧ v ≠ [])
    (fun x hx => by
      have h := parseQsl_mem_clean q hq x hx
      exact ⟨h.1, h.2.1, h.2.2.1, h.2.2.2.1, h.2.2.2.2.1, h.2.2.2.2.2⟩)
    p hp2.1
  obtain ⟨hv, hall⟩ := hgp
  cases hw : p.2 with
  | nil => exact absurd hw hv
  | cons w ws =>
      have hwp := hall w (hw ▸ List.mem_cons_self _ _)
      simp only [List.headD_cons]
      exact ⟨hwp.2.2.1, hwp.2.2.2.2.1, hwp.2.2.2.1, hwp.2.2.2.2.2, hwp.1,
        hwp.2.1, of_decide_eq_true hp2.2⟩

theorem canonQuery_fix (q : List Char) (hq : ∀ c ∈ q, c ≠ '%' ∧ c ≠ '+') :
    canonQuery (canonQuery q) = canonQuery q := by
  by_cases h0 : cleanParamsOf q = []
  · have h1 : canonQuery q = [] := by rw [canonQuery, if_pos h0]
    rw [h1, canonQuery_nil]
  · have hprops := cleanParams_props q hq
    have hLne : sortPairs (cleanParamsOf q) ≠ [] := by
      intro hnil
      have hperm := sortPairs_perm (cleanParamsOf q)
      rw [hnil] at hperm
      exact h0 (List.Perm.eq_nil hperm.symm)
    have hkeysL : ((sortPairs (cleanParamsOf q)).map Prod.fst).Nodup := by
      have h1 : ((cleanParamsOf q).map Prod.fst).Nodup :=
        List.Nodup.sublist ((List.filter_sublist _).map Prod.fst)
          (qsGroup_keys_nodup (parseQsl q))
      exact ((sortPairs_perm _).map Prod.fst).nodup_iff.2 h1
    have hQ : parseQsl (buildQuery (sortPairs (cleanParamsOf q))) =
        (sortPairs (cleanParamsOf q)).map fun p => (p.1, p.2.headD []) := by
      apply parseQsl_buildQuery _ hLne
      intro p hp
      have h := hprops p hp
      exact ⟨h.1, h.2.1, h.2.2.1, h.2.2.2.1,
        fun c hc => hq c (h.2.2.2.2.1 c hc),
        fun c hc => hq c (h.2.2.2.2.2.1 c hc)⟩
    have hkeysMapEq :
        (((sortPairs (cleanParamsOf q)).map fun p => (p.1, p.2.headD [])).map
          Prod.fst) = (sortPairs (cleanParamsOf q)).map Prod.fst := by
      rw [List.map_map]
      rfl
    have hgrp : qsGroup (parseQsl (buildQuery (sortPairs (cleanParamsOf q)))) =
        (sortPairs (cleanParamsOf q)).map fun p => (p.1, [p.2.headD []]) := by
      rw [hQ, qsGroup_of_nodup _ (by rw [hkeysMapEq]; exact hkeysL),
        List.map_map]
      rfl
    have hfilter : cleanParamsOf (buildQuery (sortPairs (cleanParamsOf q))) =
        (sortPairs (cleanParamsOf q)).map fun p => (p.1, [p.2.headD []]) := by
      rw [cleanParamsOf, hgrp, List.filter_eq_self.2 ?_]
      intro p hp
      obtain ⟨x, hx, rfl⟩ := List.mem_map.1 hp
      exact decide_eq_true ((hprops x hx).2.2.2.2.2.2)
    have hMne :
        ((sortPairs (cleanParamsOf q)).map fun p => (p.1, [p.2.headD []])) ≠
          [] := by
      intro hh
      exact hLne (List.map_eq_nil_iff.1 hh)
    have hsortM :
        sortPairs ((sortPairs (cleanParamsOf q)).map fun p =>
          (p.1, [p.2.headD []])) =
        (sortPairs (cleanParamsOf q)).map fun p => (p.1, [p.2.headD []]) := by
      apply keySorted_perm_eq
      · exact sortPairs_perm _
      · exact sortPairs_sorted _
      · rw [KeySorted, List.pairwise_map]
        exact sortPairs_sorted (cleanParamsOf q)
      · refine ((sortPairs_perm _).map Prod.fst).nodup_iff.2 ?_
        rw [List.map_map]
        exact hkeysL
    have hbuild :
        buildQuery ((sortPairs (cleanParamsOf q)).map fun p =>
          (p.1, [p.2.headD []])) =
        buildQuery (sortPairs (cleanParamsOf q)) := by
      rw [buildQuery, buildQuery, List.map_map]
      rfl
    have hcq : canonQuery q = buildQuery (sortPairs (cleanParamsOf q)) := by
      rw [canonQuery, if_neg h0]
    rw [hcq, canonQuery, hfilter, if_neg hMne, hsortM, hbuild]

theorem canonQuery_chars (q : List Char) (hq : ∀ c ∈ q, c ≠ '%' ∧ c ≠ '+') :
    ∀ c ∈ canonQuery q, c ∈ q ∨ c = '&' ∨ c = '=' := by
  intro c hc
  rw [canonQuery] at hc
  by_cases h0 : cleanParamsOf q = []
  · rw [if_pos h0] at hc; cases hc
  · rw [if_neg h0, buildQuery] at hc
    rcases mem_intercalate_sep '&' _ c hc with rfl | ⟨f, hf, hcf⟩
    · exact Or.inr (Or.inl rfl)
    · obtain ⟨p, hp, rfl⟩ := List.mem_map.1 hf
      have hpr := cleanParams_props q hq p hp
      rcases List.mem_append.1 hcf with h1 | h1
      · exact Or.inl (hpr.2.2.2.2.1 c h1)
      · rcases List.mem_cons.1 h1 with rfl | h2
        · exact Or.inr (Or.inr rfl)
        · exact Or.inl (hpr.2.2.2.2.2.1 c h2)

/-! ### Re-parsing `urlunparseChars` output -/

theorem cleanChar_of (x : Char) (h1 : x ≠ '\t') (h2 : x ≠ '\r')
    (h3 : x ≠ '\n') : (!(x = '\t' || x = '\r' || x = '\n')) = true := by
  simp [h1, h2, h3]

theorem schemeChar_ne (x : Char) (h : isSchemeChar x = true) :
    x ≠ ':' ∧ x ≠ '\t' ∧ x ≠ '\r' ∧ x ≠ '\n' := by
  refine ⟨?_, ?_, ?_, ?_⟩ <;> (rintro rfl; revert h; decide)

theorem splitNetloc_slash (l : List Char) :
    splitNetloc ('/' :: '/' :: l) = takeUntilAny ['/', '?', '#'] l := rfl

/-- Parsing the output of `urlunparseChars` recovers the components, under
the syntactic conditions that `canonicalize_url` outputs satisfy. -/
theorem reparse (c : Char) (cs nl pa pr cq : List Char)
    (hca : c.isAlpha = true)
    (hcs : ∀ x ∈ c :: cs, isSchemeChar x = true)
    (hlow : (c :: cs).map Char.toLower = c :: cs)
    (hnl : nl ≠ [])
    (hnlc : ∀ x ∈ nl, x ≠ '/' ∧ x ≠ '?' ∧ x ≠ '#' ∧ x ≠ '\t' ∧ x ≠ '\r' ∧
      x ≠ '\n')
    (hpa0 : pa = [] ∨ pa.head? = some '/')
    (hpac : ∀ x ∈ pa, x ≠ '?' ∧ x ≠ '#' ∧ x ≠ '\t' ∧ x ≠ '\r' ∧ x ≠ '\n')
    (hprc : ∀ x ∈ pr, x ≠ '/' ∧ x ≠ '?' ∧ x ≠ '#' ∧ x ≠ '\t' ∧ x ≠ '\r' ∧
      x ≠ '\n')
    (hps : (';' ∈ pa ∨ pr ≠ []) →
      ∃ pre s1, pa = pre ++ '/' :: s1 ∧ '/' ∉ s1 ∧ ';' ∉ s1)
    (hcqc : ∀ x ∈ cq, x ≠ '#' ∧ x ≠ '\t' ∧ x ≠ '\r' ∧ x ≠ '\n') :
    urlparseChars (urlunparseChars (c :: cs) nl pa pr cq []) =
      ⟨c :: cs, nl, pa, pr, cq, []⟩ := by
  have hUchars : ∀ x ∈ (if pr ≠ [] then pa ++ ';' :: pr else pa),
      x ≠ '?' ∧ x ≠ '#' ∧ x ≠ '\t' ∧ x ≠ '\r' ∧ x ≠ '\n' := by
    intro x hx
    by_cases hpr : pr = []
    · have hprn : ¬ (pr ≠ []) := fun hh => hh hpr
      rw [if_neg hprn] at hx
      exact hpac x hx
    · rw [if_pos hpr] at hx
      rcases List.mem_append.1 hx with h1 | h1
      · exact hpac x h1
      · rcases List.mem_cons.1 h1 with rfl | h2
        · exact ⟨by decide, by decide, by decide, by decide, by decide⟩
        · have h3 := hprc x h2
          exact ⟨h3.2.1, h3.2.2.1, h3.2.2.2.1, h3.2.2.2.2.1, h3.2.2.2.2.2⟩
  have hWchars : ∀ x ∈ (if pr ≠ [] then pa ++ ';' :: pr else pa) ++
      (if cq ≠ [] then '?' :: cq else []),
      x ≠ '#' ∧ x ≠ '\t' ∧ x ≠ '\r' ∧ x ≠ '\n' := by
    intro x hx
    rcases List.mem_append.1 hx with h1 | h1
    · have h2 := hUchars x h1
      exact ⟨h2.2.1, h2.2.2.1, h2.2.2.2.1, h2.2.2.2.2⟩
    · by_cases hcq : cq = []
      · have hcqn : ¬ (cq ≠ []) := fun hh => hh hcq
        rw [if_neg hcqn] at h1
        cases h1
      · rw [if_pos hcq] at h1
        rcases List.mem_cons.1 h1 with rfl | h2
        · exact ⟨by decide, by decide, by decide, by decide⟩
        · exact hcqc x h2
  have hUhead : (if pr ≠ [] then pa ++ ';' :: pr else pa) = [] ∨
      (if pr ≠ [] then pa ++ ';' :: pr else pa).head? = some '/' := by
    by_cases hpr : pr = []
    · have hprn : ¬ (pr ≠ []) := fun hh => hh hpr
      rw [if_neg hprn]
      exact hpa0
    · rw [if_pos hpr]
      obtain ⟨pre, s1, hpaeq, _, _⟩ := hps (Or.inr hpr)
      right
      have hpane : pa ≠ [] := by
        rw [hpaeq]
        intro hh
        cases pre <;> cases hh
      cases hpa : pa with
      | nil => exact absurd hpa hpane
      | cons a t =>
          rcases hpa0 with h1 | h1
          · exact absurd h1 hpane
          · rw [hpa] at h1
            rw [List.cons_append]
            exact h1
  have hcond2 : ¬ ((if pr ≠ [] then pa ++ ';' :: pr else pa) ≠ [] ∧
      (if pr ≠ [] then pa ++ ';' :: pr else pa).head? ≠ some '/') := by
    rcases hUhead with h1 | h1
    · intro hh
      exact hh.1 h1
    · intro hh
      exact hh.2 h1
  have hout : urlunparseChars (c :: cs) nl pa pr cq [] =
      (c :: cs) ++ ':' :: '/' :: '/' ::
        (nl ++ ((if pr ≠ [] then pa ++ ';' :: pr else pa) ++
          (if cq ≠ [] then '?' :: cq else []))) := by
    unfold urlunparseChars urlunsplitChars
    dsimp only
    rw [if_pos (Or.inl hnl), if_neg hcond2, if_pos (List.cons_ne_nil c cs)]
    have hfr : ¬ (([] : List Char) ≠ []) := fun hh => hh rfl
    rw [if_neg hfr]
    by_cases hcq : cq = []
    · have hcqn : ¬ (cq ≠ []) := fun hh => hh hcq
      rw [if_neg hcqn, if_neg hcqn, List.append_nil]
    · rw [if_pos hcq, if_pos hcq]
      simp [List.append_assoc]
  have hcleanAll : ∀ x ∈ (c :: cs) ++ ':' :: '/' :: '/' ::
      (nl ++ ((if pr ≠ [] then pa ++ ';' :: pr else pa) ++
        (if cq ≠ [] then '?' :: cq else []))),
      (!(x = '\t' || x = '\r' || x = '\n')) = true := by
    intro x hx
    rcases List.mem_append.1 hx with h1 | h1
    · have h2 := schemeChar_ne x (hcs x h1)
      exact cleanChar_of x h2.2.1 h2.2.2.1 h2.2.2.2
    · rcases List.mem_cons.1 h1 with rfl | h1
      · decide
      · rcases List.mem_cons.1 h1 with rfl | h1
        · decide
        · rcases List.mem_cons.1 h1 with rfl | h1
          · decide
          · rcases List.mem_append.1 h1 with h2 | h2
            · have h3 := hnlc x h2
              exact cleanChar_of x h3.2.2.2.1 h3.2.2.2.2.1 h3.2.2.2.2.2
            · have h3 := hWchars x h2
              exact cleanChar_of x h3.2.1 h3.2.2.1 h3.2.2.2
  have hschemeNe : ':' ∉ (c :: cs) := by
    intro hmem
    exact (schemeChar_ne ':' (hcs ':' hmem)).1 rfl
  have hscheme : splitScheme ((c :: cs) ++ ':' :: '/' :: '/' ::
      (nl ++ ((if pr ≠ [] then pa ++ ';' :: pr else pa) ++
        (if cq ≠ [] then '?' :: cq else [])))) =
      (c :: cs, '/' :: '/' ::
        (nl ++ ((if pr ≠ [] then pa ++ ';' :: pr else pa) ++
          (if cq ≠ [] then '?' :: cq else [])))) := by
    rw [splitScheme, splitFirst_append ':' _ _ hschemeNe]
    dsimp only
    rw [if_pos (Bool.and_eq_true .. ▸
      ⟨hca, List.all_eq_true.2 fun x hx => hcs x (List.mem_cons_of_mem _ hx)⟩),
      hlow]
  have hWhead : ((if pr ≠ [] then pa ++ ';' :: pr else pa) ++
      (if cq ≠ [] then '?' :: cq else [])) = [] ∨
      ∃ d t, ((if pr ≠ [] then pa ++ ';' :: pr else pa) ++
        (if cq ≠ [] then '?' :: cq else [])) = d :: t ∧
        d ∈ ['/', '?', '#'] := by
    rcases hUhead with h1 | h1
    · rw [h1, List.nil_append]
      by_cases hcq : cq = []
      · have hcqn : ¬ (cq ≠ []) := fun hh => hh hcq
        rw [if_neg hcqn]
        exact Or.inl rfl
      · rw [if_pos hcq]
        exact Or.inr ⟨'?', cq, rfl, by decide⟩
    · cases hU : (if pr ≠ [] then pa ++ ';' :: pr else pa) with
      | nil => rw [hU] at h1; cases h1
      | cons a t =>
          rw [hU] at h1
          obtain rfl : a = '/' := Option.some.inj h1
          exact Or.inr ⟨'/', t ++ _, by rw [List.cons_append], by decide⟩
  have hnet : splitNetloc ('/' :: '/' ::
      (nl ++ ((if pr ≠ [] then pa ++ ';' :: pr else pa) ++
        (if cq ≠ [] then '?' :: cq else [])))) =
      (nl, (if pr ≠ [] then pa ++ ';' :: pr else pa) ++
        (if cq ≠ [] then '?' :: cq else [])) := by
    rw [splitNetloc_slash, takeUntilAny_append]
    · intro x hx
      have h2 := hnlc x hx
      intro hmem
      rcases List.mem_cons.1 hmem with rfl | hmem
      · exact h2.1 rfl
      · rcases List.mem_cons.1 hmem with rfl | hmem
        · exact h2.2.1 rfl
        · rcases List.mem_cons.1 hmem with rfl | hmem
          · exact h2.2.2.1 rfl
          · cases hmem
    · rcases hWhead with h1 | ⟨d, t, h1, h2⟩
      · exact Or.inl h1
      · exact Or.inr ⟨d, t, h1, h2⟩
  have hfrag : splitFirst '#' ((if pr ≠ [] then pa ++ ';' :: pr else pa) ++
      (if cq ≠ [] then '?' :: cq else [])) = none := by
    apply splitFirst_of_not_mem
    intro hmem
    exact (hWchars '#' hmem).1 rfl
  have hUq : '?' ∉ (if pr ≠ [] then pa ++ ';' :: pr else pa) := by
    intro hmem
    exact (hUchars '?' hmem).1 rfl
  have hquery : (splitFirst '?' ((if pr ≠ [] then pa ++ ';' :: pr else pa) ++
      (if cq ≠ [] then '?' :: cq else []))).getD
        ((if pr ≠ [] then pa ++ ';' :: pr else pa) ++
          (if cq ≠ [] then '?' :: cq else []), []) =
      ((if pr ≠ [] then pa ++ ';' :: pr else pa), cq) := by
    by_cases hcq : cq = []
    · have hcqn : ¬ (cq ≠ []) := fun hh => hh hcq
      rw [if_neg hcqn, List.append_nil,
        splitFirst_of_not_mem '?' _ hUq, hcq]
      rfl
    · rw [if_pos hcq, splitFirst_append '?' _ _ hUq]
      rfl
  have hparams : (if ';' ∈ (if pr ≠ [] then pa ++ ';' :: pr else pa) then
      splitParams (if pr ≠ [] then pa ++ ';' :: pr else pa)
      else ((if pr ≠ [] then pa ++ ';' :: pr else pa), [])) = (pa, pr) := by
    by_cases hpr : pr = []
    · have hprn : ¬ (pr ≠ []) := fun hh => hh hpr
      rw [if_neg hprn]
      by_cases hsemi : ';' ∈ pa
      · obtain ⟨pre, s1, hpaeq, hs1, hs1s⟩ := hps (Or.inl hsemi)
        rw [if_pos hsemi, splitParams,
          if_pos (hpaeq ▸ List.mem_append_right pre (List.mem_cons_self _ _)),
          hpaeq, breakLast_append '/' pre s1 hs1]
        dsimp only
        rw [splitFirst_of_not_mem ';' s1 hs1s, hpr]
      · rw [if_neg hsemi, hpr]
    · rw [if_pos hpr]
      obtain ⟨pre, s1, hpaeq, hs1, hs1s⟩ := hps (Or.inr hpr)
      have hsemi : ';' ∈ pa ++ ';' :: pr :=
        List.mem_append_right pa (List.mem_cons_self _ _)
      have hrw : pa ++ ';' :: pr = pre ++ '/' :: (s1 ++ ';' :: pr) := by
        rw [hpaeq, List.append_assoc, List.cons_append]
      have hslash : '/' ∈ pa ++ ';' :: pr := by
        rw [hrw]
        exact List.mem_append_right pre (List.mem_cons_self _ _)
      have hnos : '/' ∉ s1 ++ ';' :: pr := by
        intro hmem
        rcases List.mem_append.1 hmem with h1 | h1
        · exact hs1 h1
        · rcases List.mem_cons.1 h1 with h2 | h2
          · cases h2
          · exact (hprc '/' h2).1 rfl
      rw [if_pos hsemi, splitParams, if_pos hslash, hrw,
        breakLast_append '/' pre _ hnos]
      dsimp only
      rw [splitFirst_append ';' s1 pr hs1s]
      dsimp only
      rw [← hpaeq]
  rw [hout, urlparseChars, List.filter_eq_self.2 hcleanAll, hscheme]
  dsimp only
  rw [hnet]
  dsimp only
  rw [hfrag, Option.getD_none]
  dsimp only
  rw [hquery]
  dsimp only
  rw [hparams]

theorem splitScheme_shape (v : List Char) (h : (splitScheme v).1 ≠ []) :
    ∃ c cs post, v = (c :: cs) ++ ':' :: post ∧ c.isAlpha = true ∧
      (∀ x ∈ c :: cs, isSchemeChar x = true) ∧
      splitScheme v = ((c :: cs).map Char.toLower, post) := by
  rw [splitScheme] at h ⊢
  cases hsf : splitFirst ':' v with
  | none =>
      rw [hsf] at h
      exact absurd rfl h
  | some p =>
      obtain ⟨pre, post⟩ := p
      rw [hsf] at h
      dsimp only at h ⊢
      cases pre with
      | nil => exact absurd rfl h
      | cons c cs =>
          dsimp only at h ⊢
          by_cases hcond : (c.isAlpha && cs.all isSchemeChar) = true
          · obtain ⟨hv, _⟩ := splitFirst_eq_some ':' v (c :: cs) post hsf
            have hand : c.isAlpha = true ∧ cs.all isSchemeChar = true := by
              rw [Bool.and_eq_true] at hcond
              exact hcond
            refine ⟨c, cs, post, hv, hand.1, ?_, by rw [if_pos hcond]⟩
            intro x hx
            rcases List.mem_cons.1 hx with rfl | hx2
            · simp [isSchemeChar, hand.1]
            · exact List.all_eq_true.1 hand.2 x hx2
          · rw [if_neg hcond] at h
            exact absurd rfl h

theorem splitNetloc_shape (v : List Char) (h : (splitNetloc v).1 ≠ []) :
    ∃ rest, v = '/' :: '/' :: rest ∧
      splitNetloc v = takeUntilAny ['/', '?', '#'] rest := by
  rw [splitNetloc.eq_def] at h ⊢
  split at h
  · next rest => exact ⟨rest, rfl, rfl⟩
  · next => exact absurd rfl h

theorem getD_split (sep : Char) (l : List Char) :
    ∃ tl, l = ((splitFirst sep l).getD (l, [])).1 ++ tl ∧
      sep ∉ ((splitFirst sep l).getD (l, [])).1 ∧
      (∀ x ∈ ((splitFirst sep l).getD (l, [])).2, x ∈ l) := by
  cases hsf : splitFirst sep l with
  | none =>
      rw [Option.getD_none]
      exact ⟨[], (List.append_nil _).symm, splitFirst_none_not_mem sep l hsf,
        fun x hx => absurd hx (List.not_mem_nil _)⟩
  | some p =>
      obtain ⟨a, b⟩ := p
      rw [Option.getD_some]
      obtain ⟨heq, hnm⟩ := splitFirst_eq_some sep l a b hsf
      exact ⟨sep :: b, heq, hnm,
        fun x hx => heq ▸ List.mem_append_right _ (List.mem_cons_of_mem _ hx)⟩

theorem paramsStage (qp : List Char)
    (hqc : ∀ x ∈ qp, x ≠ '?' ∧ x ≠ '#' ∧ x ≠ '\t' ∧ x ≠ '\r' ∧ x ≠ '\n')
    (hqh : qp = [] ∨ qp.head? = some '/') :
    ((if ';' ∈ qp then splitParams qp else (qp, [])).1 = [] ∨
      (if ';' ∈ qp then splitParams qp else (qp, [])).1.head? = some '/') ∧
    (∀ x ∈ (if ';' ∈ qp then splitParams qp else (qp, [])).1,
      x ≠ '?' ∧ x ≠ '#' ∧ x ≠ '\t' ∧ x ≠ '\r' ∧ x ≠ '\n') ∧
    (∀ x ∈ (if ';' ∈ qp then splitParams qp else (qp, [])).2,
      x ≠ '/' ∧ x ≠ '?' ∧ x ≠ '#' ∧ x ≠ '\t' ∧ x ≠ '\r' ∧ x ≠ '\n') ∧
    ((';' ∈ (if ';' ∈ qp then splitParams qp else (qp, [])).1 ∨
      (if ';' ∈ qp then splitParams qp else (qp, [])).2 ≠ []) →
      ∃ pre s1, (if ';' ∈ qp then splitParams qp else (qp, [])).1 =
        pre ++ '/' :: s1 ∧ '/' ∉ s1 ∧ ';' ∉ s1) := by
  by_cases hsemi : ';' ∈ qp
  · rw [if_pos hsemi]
    have hqpne : qp ≠ [] := by
      intro hh
      rw [hh] at hsemi
      cases hsemi
    have hhead : qp.head? = some '/' := hqh.resolve_left hqpne
    have hqpeq : ∃ t0, qp = '/' :: t0 := by
      cases hqp : qp with
      | nil => exact absurd hqp hqpne
      | cons a t =>
          rw [hqp] at hhead
          exact ⟨t, by rw [Option.some.inj hhead]⟩
    obtain ⟨t0, hqp0⟩ := hqpeq
    have hslash : '/' ∈ qp := hqp0 ▸ List.mem_cons_self _ _
    rw [splitParams, if_pos hslash]
    cases hbl : breakLast '/' qp with
    | none => exact absurd hslash (breakLast_none_not_mem '/' qp hbl)
    | some pq =>
        obtain ⟨pre, suf⟩ := pq
        obtain ⟨hdec, hnsuf⟩ := breakLast_eq_some '/' qp pre suf hbl
        dsimp only
        cases hsf : splitFirst ';' suf with
        | none =>
            dsimp only
            have hnsemi : ';' ∉ suf := splitFirst_none_not_mem ';' suf hsf
            exact ⟨hqh, hqc, fun x hx => absurd hx (List.not_mem_nil _),
              fun _ => ⟨pre, suf, hdec, hnsuf, hnsemi⟩⟩
        | some s12 =>
            obtain ⟨s1, s2⟩ := s12
            obtain ⟨hsufeq, hns1⟩ := splitFirst_eq_some ';' suf s1 s2 hsf
            dsimp only
            refine ⟨?_, ?_, ?_, ?_⟩
            · right
              cases pre with
              | nil => rfl
              | cons a t =>
                  rw [hdec, List.cons_append] at hhead
                  rw [List.cons_append]
                  exact hhead
            · intro x hx
              apply hqc
              rw [hdec, hsufeq]
              rcases List.mem_append.1 hx with h1 | h1
              · exact List.mem_append_left _ h1
              · rcases List.mem_cons.1 h1 with rfl | h1
                · exact List.mem_append_right _ (List.mem_cons_self _ _)
                · exact List.mem_append_right _ (List.mem_cons_of_mem _
                    (List.mem_append_left _ h1))
            · intro x hx
              have hxsuf : x ∈ suf :=
                hsufeq ▸ List.mem_append_right _ (List.mem_cons_of_mem _ hx)
              have hxqp : x ∈ qp :=
                hdec ▸ List.mem_append_right _ (List.mem_cons_of_mem _ hxsuf)
              have h5 := hqc x hxqp
              exact ⟨fun hh => hnsuf (hh ▸ hxsuf), h5.1, h5.2.1, h5.2.2.1,
                h5.2.2.2.1, h5.2.2.2.2⟩
            · intro _
              refine ⟨pre, s1, rfl, ?_, hns1⟩
              intro hh
              exact hnsuf (hsufeq ▸ List.mem_append_left _ hh)
  · rw [if_neg hsemi]
    dsimp only
    refine ⟨hqh, hqc, fun x hx => absurd hx (List.not_mem_nil _), ?_⟩
    intro h
    rcases h with h | h
    · exact absurd h hsemi
    · exact absurd rfl h

theorem urlparse_props (u : List Char)
    (hs : (urlparseChars u).scheme ≠ [])
    (hn : (urlparseChars u).netloc ≠ []) :
    (∃ c cs, (urlparseChars u).scheme = (c :: cs).map Char.toLower ∧
      c.isAlpha = true ∧ ∀ x ∈ c :: cs, isSchemeChar x = true) ∧
    (∀ x ∈ (urlparseChars u).netloc,
      x ≠ '/' ∧ x ≠ '?' ∧ x ≠ '#' ∧ x ≠ '\t' ∧ x ≠ '\r' ∧ x ≠ '\n') ∧
    ((urlparseChars u).path = [] ∨ (urlparseChars u).path.head? = some '/') ∧
    (∀ x ∈ (urlparseChars u).path,
      x ≠ '?' ∧ x ≠ '#' ∧ x ≠ '\t' ∧ x ≠ '\r' ∧ x ≠ '\n') ∧
    (∀ x ∈ (urlparseChars u).params,
      x ≠ '/' ∧ x ≠ '?' ∧ x ≠ '#' ∧ x ≠ '\t' ∧ x ≠ '\r' ∧ x ≠ '\n') ∧
    ((';' ∈ (urlparseChars u).path ∨ (urlparseChars u).params ≠ []) →
      ∃ pre s1, (urlparseChars u).path = pre ++ '/' :: s1 ∧
        '/' ∉ s1 ∧ ';' ∉ s1) ∧
    (∀ x ∈ (urlparseChars u).query,
      x ≠ '#' ∧ x ≠ '\t' ∧ x ≠ '\r' ∧ x ≠ '\n') := by
  revert hs hn
  rw [urlparseChars]
  generalize hu1g : List.filter
    (fun c => !(c = '\t' || c = '\r' || c = '\n')) u = u1
  intro hs hn
  have hu1clean : ∀ x ∈ u1, x ≠ '\t' ∧ x ≠ '\r' ∧ x ≠ '\n' := by
    intro x hx
    rw [← hu1g] at hx
    have h2 := (List.mem_filter.1 hx).2
    simp only [Bool.not_or, Bool.and_eq_true, Bool.not_eq_true',
      decide_eq_false_iff_not] at h2
    exact ⟨h2.1.1, h2.1.2, h2.2⟩
  obtain ⟨c, cs, post, hveq, hca, hcs, hsp⟩ := splitScheme_shape u1 hs
  rw [hsp] at hn ⊢
  dsimp only at hn ⊢
  obtain ⟨rest, hposteq, hnet⟩ := splitNetloc_shape post hn
  rw [hnet] at hn ⊢
  have hrestu1 : ∀ x ∈ rest, x ∈ u1 := by
    intro x hx
    rw [hveq, hposteq]
    exact List.mem_append_right _ (List.mem_cons_of_mem _
      (List.mem_cons_of_mem _ (List.mem_cons_of_mem _ hx)))
  have spec := takeUntilAny_spec ['/', '?', '#'] rest
  rcases htp : takeUntilAny ['/', '?', '#'] rest with ⟨nlv, r2⟩
  rw [htp] at spec hn
  dsimp only at spec hn ⊢
  obtain ⟨hjoin, hnlvd, hr2shape⟩ := spec
  have hr2u1 : ∀ x ∈ r2, x ∈ u1 := by
    intro x hx
    apply hrestu1
    rw [← hjoin]
    exact List.mem_append_right _ hx
  have hnlvu1 : ∀ x ∈ nlv, x ∈ u1 := by
    intro x hx
    apply hrestu1
    rw [← hjoin]
    exact List.mem_append_left _ hx
  obtain ⟨tl1, hfr_eq, hfr_nm, _⟩ := getD_split '#' r2
  obtain ⟨tq, hqu_eq, hqu_nm, hqu_sub⟩ :=
    getD_split '?' ((splitFirst '#' r2).getD (r2, [])).1
  set F := ((splitFirst '#' r2).getD (r2, [])).1 with hFdef
  set Q := ((splitFirst '?' F).getD (F, [])).1 with hQdef
  have hfru1 : ∀ x ∈ F, x ∈ r2 := by
    intro x hx
    rw [hfr_eq]
    exact List.mem_append_left _ hx
  have hquF : ∀ x ∈ Q, x ∈ F := by
    intro x hx
    rw [hqu_eq]
    exact List.mem_append_left _ hx
  have hqc : ∀ x ∈ Q, x ≠ '?' ∧ x ≠ '#' ∧ x ≠ '\t' ∧ x ≠ '\r' ∧
      x ≠ '\n' := by
    intro x hx
    have hxf : x ∈ F := hquF x hx
    have hcl := hu1clean x (hr2u1 x (hfru1 x hxf))
    exact ⟨fun hh => hqu_nm (hh ▸ hx), fun hh => hfr_nm (hh ▸ hxf),
      hcl.1, hcl.2.1, hcl.2.2⟩
  have hqh : Q = [] ∨ Q.head? = some '/' := by
    rcases hr2shape with hr2nil | ⟨d, t, hr2eq, hdmem⟩
    · left
      rw [hr2nil] at hfr_eq
      have hF0 : F = [] := (List.append_eq_nil.1 hfr_eq.symm).1
      rw [hF0] at hqu_eq
      exact (List.append_eq_nil.1 hqu_eq.symm).1
    · by_cases hq1 : Q = []
      · exact Or.inl hq1
      · right
        cases hql : Q with
        | nil => exact absurd hql hq1
        | cons e t2 =>
            have hr2head : r2.head? = some d := by rw [hr2eq]; rfl
            have hr2eq2 : r2 = Q ++ (tq ++ tl1) := by
              rw [hfr_eq, hqu_eq, List.append_assoc]
            rw [hr2eq2, hql, List.cons_append, List.head?_cons] at hr2head
            obtain rfl := Option.some.inj hr2head
            have hd3 : e = '/' ∨ e = '?' ∨ e = '#' := by simpa using hdmem
            rcases hd3 with rfl | rfl | rfl
            · rfl
            · have h4 : '?' ∈ Q := by
                rw [hql]
                exact List.mem_cons_self _ _
              exact absurd h4 hqu_nm
            · have h4 : '#' ∈ Q := by
                rw [hql]
                exact List.mem_cons_self _ _
              exact absurd (hquF '#' h4) hfr_nm
  obtain ⟨hp1, hp2, hp3, hp4⟩ := paramsStage Q hqc hqh
  refine ⟨⟨c, cs, rfl, hca, hcs⟩, ?_, hp1, hp2, hp3, hp4, ?_⟩
  · intro x hx
    have hnd := hnlvd x hx
    have hcl := hu1clean x (hnlvu1 x hx)
    exact ⟨fun hh => hnd (by rw [hh]; decide),
      fun hh => hnd (by rw [hh]; decide),
      fun hh => hnd (by rw [hh]; decide), hcl.1, hcl.2.1, hcl.2.2⟩
  · intro x hx
    have hxf : x ∈ F := hqu_sub x hx
    have hcl := hu1clean x (hr2u1 x (hfru1 x hxf))
    exact ⟨fun hh => hfr_nm (hh ▸ hxf), hcl.1, hcl.2.1, hcl.2.2⟩

/-- **C5 (counterexample).** Idempotence fails in general: `%2526`
percent-decodes once per pass (`%2526` → `%26` → `&`).  And the spec's
tracking set says `utm_*`, but the code's fixed set does not contain
`utm_id`, so inserting `utm_id` changes the canonical URL. -/
theorem canonicalize_url_counterexample :
    canonicalize_url (canonicalize_url "http://a/?x=%2526") ≠
      canonicalize_url "http://a/?x=%2526" ∧
    canonicalize_url "http://a/?x=1&utm_id=2" ≠
      canonicalize_url "http://a/?x=1" := by
  constructor
  · decide
  · decide

/-- **C5 (amended).** (1) `canonicalize_url` is idempotent on URLs whose
parse has a nonempty scheme, a nonempty netloc, and a query free of `%`
and `+`; (2) it is invariant under reordering of retained query keys and
insertion/removal of keys in the code's tracking set: two nonempty URLs
whose parses agree on scheme, netloc, path and params and whose grouped
non-tracking query parameters are permutations of each other canonicalize
identically. -/
theorem canonicalize_url_idempotent_invariant (u u1 u2 : String) :
    ((urlparseChars u.data).scheme ≠ [] →
      (urlparseChars u.data).netloc ≠ [] →
      (∀ x ∈ (urlparseChars u.data).query, x ≠ '%' ∧ x ≠ '+') →
      canonicalize_url (canonicalize_url u) = canonicalize_url u) ∧
    (u1 ≠ "" → u2 ≠ "" →
      (urlparseChars u1.data).scheme = (urlparseChars u2.data).scheme →
      (urlparseChars u1.data).netloc = (urlparseChars u2.data).netloc →
      (urlparseChars u1.data).path = (urlparseChars u2.data).path →
      (urlparseChars u1.data).params = (urlparseChars u2.data).params →
      List.Perm (cleanParamsOf (urlparseChars u1.data).query)
        (cleanParamsOf (urlparseChars u2.data).query) →
      canonicalize_url u1 = canonicalize_url u2) := by
  constructor
  · intro hs hn hq
    have hune : u ≠ "" := by
      intro hh
      subst hh
      exact hs rfl
    obtain ⟨⟨c, cs, hsch, hca, hcs⟩, hnlc0, hpa0, hpac, hprc, hps, hqc0⟩ :=
      urlparse_props u.data hs hn
    rw [canonicalize_url_eq u, if_neg hune, hsch, mapToLower_idem,
      List.map_cons]
    have hca2 : (Char.toLower c).isAlpha = true := isAlpha_toLower c hca
    have hcs2 : ∀ x ∈ Char.toLower c :: cs.map Char.toLower,
        isSchemeChar x = true := by
      intro x hx
      rcases List.mem_cons.1 hx with rfl | hx2
      · exact isSchemeChar_toLower c (hcs c (List.mem_cons_self _ _))
      · obtain ⟨y, hy, rfl⟩ := List.mem_map.1 hx2
        exact isSchemeChar_toLower y (hcs y (List.mem_cons_of_mem _ hy))
    have hlow2 : (Char.toLower c :: cs.map Char.toLower).map Char.toLower =
        Char.toLower c :: cs.map Char.toLower := by
      rw [← List.map_cons, mapToLower_idem, List.map_cons]
    have hnl2 : (urlparseChars u.data).netloc.map Char.toLower ≠ [] :=
      fun hh => hn (List.map_eq_nil_iff.1 hh)
    have hnlc2 : ∀ x ∈ (urlparseChars u.data).netloc.map Char.toLower,
        x ≠ '/' ∧ x ≠ '?' ∧ x ≠ '#' ∧ x ≠ '\t' ∧ x ≠ '\r' ∧ x ≠ '\n' := by
      intro x hx
      obtain ⟨y, hy, rfl⟩ := List.mem_map.1 hx
      have h0 := hnlc0 y hy
      exact ⟨fun hh => h0.1 (toLower_eq_nonlower (by decide) hh),
        fun hh => h0.2.1 (toLower_eq_nonlower (by decide) hh),
        fun hh => h0.2.2.1 (toLower_eq_nonlower (by decide) hh),
        fun hh => h0.2.2.2.1 (toLower_eq_nonlower (by decide) hh),
        fun hh => h0.2.2.2.2.1 (toLower_eq_nonlower (by decide) hh),
        fun hh => h0.2.2.2.2.2 (toLower_eq_nonlower (by decide) hh)⟩
    have hcqc2 : ∀ x ∈ canonQuery (urlparseChars u.data).query,
        x ≠ '#' ∧ x ≠ '\t' ∧ x ≠ '\r' ∧ x ≠ '\n' := by
      intro x hx
      rcases canonQuery_chars _ hq x hx with hxq | rfl | rfl
      · exact hqc0 x hxq
      · exact ⟨by decide, by decide, by decide, by decide⟩
      · exact ⟨by decide, by decide, by decide, by decide⟩
    have hparse := reparse (Char.toLower c) (cs.map Char.toLower)
      ((urlparseChars u.data).netloc.map Char.toLower)
      (urlparseChars u.data).path (urlparseChars u.data).params
      (canonQuery (urlparseChars u.data).query)
      hca2 hcs2 hlow2 hnl2 hnlc2 hpa0 hpac hprc hps hcqc2
    have houtne : (⟨urlunparseChars (Char.toLower c :: cs.map Char.toLower)
        ((urlparseChars u.data).netloc.map Char.toLower)
        (urlparseChars u.data).path (urlparseChars u.data).params
        (canonQuery (urlparseChars u.data).query) []⟩ : String) ≠ "" := by
      intro hh
      have h0 : urlunparseChars (Char.toLower c :: cs.map Char.toLower)
          ((urlparseChars u.data).netloc.map Char.toLower)
          (urlparseChars u.data).path (urlparseChars u.data).params
          (canonQuery (urlparseChars u.data).query) [] = [] :=
        congrArg String.data hh
      rw [h0] at hparse
      have h1 : (urlparseChars ([] : List Char)).scheme =
          Char.toLower c :: cs.map Char.toLower :=
        congrArg UrlParts.scheme hparse
      cases h1
    rw [canonicalize_url_eq, if_neg houtne]
    dsimp only
    rw [hparse]
    dsimp only
    rw [hlow2, mapToLower_idem, canonQuery_fix _ hq]
  · intro h1 h2 hsch hnl hpa hpr hperm
    rw [canonicalize_url_eq u1, canonicalize_url_eq u2, if_neg h1, if_neg h2,
      hsch, hnl, hpa, hpr]
    have hkey : canonQuery (urlparseChars u1.data).query =
        canonQuery (urlparseChars u2.data).query := by
      rw [canonQuery, canonQuery]
      by_cases h0 : cleanParamsOf (urlparseChars u1.data).query = []
      · rw [if_pos h0, if_pos (List.Perm.eq_nil (h0 ▸ hperm).symm)]
      · have h0b : cleanParamsOf (urlparseChars u2.data).query ≠ [] := by
          intro hh
          exact h0 (List.Perm.eq_nil (hh ▸ hperm))
        rw [if_neg h0, if_neg h0b]
        have hnodup1 : ((sortPairs (cleanParamsOf
            (urlparseChars u1.data).query)).map Prod.fst).Nodup := by
          have hx : ((cleanParamsOf (urlparseChars u1.data).query).map
              Prod.fst).Nodup :=
            List.Nodup.sublist ((List.filter_sublist _).map Prod.fst)
              (qsGroup_keys_nodup _)
          exact ((sortPairs_perm _).map Prod.fst).nodup_iff.2 hx
        rw [keySorted_perm_eq (sortPairs (cleanParamsOf
            (urlparseChars u1.data).query))
          (sortPairs (cleanParamsOf (urlparseChars u2.data).query))
          ((sortPairs_perm _).trans (hperm.trans (sortPairs_perm _).symm))
          (sortPairs_sorted _) (sortPairs_sorted _) hnodup1]
    rw [hkey]

/-- **C5 (witness).** The amended theorem at concrete URLs: a second
canonicalization of `http://Ex.com/p?b=2&a=1` is a no-op, and reordering
retained keys while inserting `utm_source` leaves the canonical URL
unchanged. -/
theorem canonicalize_url_idempotent_invariant_witness :
    ((urlparseChars ("http://Ex.com/p?b=2&a=1" : String).data).scheme ≠ [] ∧
      canonicalize_url (canonicalize_url "http://Ex.com/p?b=2&a=1") =
        canonicalize_url "http://Ex.com/p?b=2&a=1") ∧
    canonicalize_url "http://ex.com/p?a=1&b=2&utm_source=x" =
      canonicalize_url "http://ex.com/p?b=2&a=1" := by
  refine ⟨⟨by decide, ?_⟩, ?_⟩
  · exact (canonicalize_url_idempotent_invariant "http://Ex.com/p?b=2&a=1"
      "" "").1 (by decide) (by decide) (by decide)
  · exact (canonicalize_url_idempotent_invariant ""
      "http://ex.com/p?a=1&b=2&utm_source=x" "http://ex.com/p?b=2&a=1").2
      (by decide) (by decide) (by decide) (by decide) (by decide) (by decide)
      (by decide)

namespace Metrics

/-! ## Feed metrics bookkeeping (mainflow.py)

`FEED_METRICS` is a dict keyed by feed title.  `initialize_all_feed_metrics`
registers every feed of `rss.json` with zeroed counters;
`parse_daily_rss_article` sets `find_count` per feed during a fetch run and
is skipped entirely when loading from the per-day cache;
`stratified_sample_with_priority` bumps `candidate_count` per sampled
article; `find_favorite_article` bumps `release_count` (plus score and
1-based rank lists) per selected article.  All three guards are
`if feed_title in FEED_METRICS`.  A run is modelled by the registered feed
items (title, tier, priority), a cache flag, the per-feed fetched counts,
the sampled articles' feed titles and the selected articles'
(feed title, score) pairs. -/

structure FeedMetric where
  title : String
  tier : String
  priority : String
  find_count : ℕ
  candidate_count : ℕ
  release_count : ℕ
  release_scores : List ℚ
  rank_list : List ℕ
deriving DecidableEq

def mLookup : List (String × FeedMetric) → String → Option FeedMetric
  | [], _ => none
  | (k, v) :: t, s => if k = s then some v else mLookup t s

/-- Python `FEED_METRICS[k] = f(FEED_METRICS[k])` on a present key:
update in place, keeping the position. -/
def mUpdate : List (String × FeedMetric) → String →
    (FeedMetric → FeedMetric) → List (String × FeedMetric)
  | [], _, _ => []
  | (k, v) :: t, s, f =>
      if k = s then (k, f v) :: t else (k, v) :: mUpdate t s f

def initStep (m : List (String × FeedMetric))
    (item : String × String × String) : List (String × FeedMetric) :=
  if (mLookup m item.1).isSome then m
  else m ++ [(item.1, ⟨item.1, item.2.1, item.2.2, 0, 0, 0, [], []⟩)]

def initMetrics (items : List (String × String × String)) :
    List (String × FeedMetric) :=
  items.foldl initStep []

def trackFind (m : List (String × FeedMetric))
    (feeds : List (String × ℕ)) : List (String × FeedMetric) :=
  feeds.foldl (fun acc p =>
    if (mLookup acc p.1).isSome then
      mUpdate acc p.1 fun fm => { fm with find_count := p.2 }
    else acc) m

def trackCandidates (m : List (String × FeedMetric))
    (sampled : List String) : List (String × FeedMetric) :=
  sampled.foldl (fun acc s =>
    if (mLookup acc s).isSome then
      mUpdate acc s fun fm =>
        { fm with candidate_count := fm.candidate_count + 1 }
    else acc) m

def trackRelease (m : List (String × FeedMetric))
    (selected : List (String × ℚ)) : List (String × FeedMetric) :=
  (List.enumFrom 1 selected).foldl (fun acc p =>
    if (mLookup acc p.2.1).isSome then
      mUpdate acc p.2.1 fun fm =>
        { fm with release_count := fm.release_count + 1,
                  release_scores := fm.release_scores ++ [p.2.2],
                  rank_list := fm.rank_list ++ [p.1] }
    else acc) m

/-- One pipeline run's effect on the metrics. -/
def runMetrics (items : List (String × String × String)) (cache : Bool)
    (feeds : List (String × ℕ)) (sampled : List String)
    (selected : List (String × ℚ)) : List (String × FeedMetric) :=
  trackRelease
    (trackCandidates
      (if cache then initMetrics items else trackFind (initMetrics items) feeds)
      sampled)
    selected

def sumRelease (m : List (String × FeedMetric)) : ℕ :=
  (m.map fun p => p.2.release_count).sum

/-- The `find_count` left by the fetch loop for feed `k`, starting from
`d`: each `(f, n)` with `f = k` overwrites it with `n`. -/
def findAfter (feeds : List (String × ℕ)) (d : ℕ) (k : String) : ℕ :=
  feeds.foldl (fun acc p => if p.1 = k then p.2 else acc) d

end Metrics

namespace Metrics

theorem mLookup_mUpdate_self (m : List (String × FeedMetric)) (s : String)
    (f : FeedMetric → FeedMetric) :
    mLookup (mUpdate m s f) s = (mLookup m s).map f := by
  induction m with
  | nil => rfl
  | cons p t ih =>
      obtain ⟨k, v⟩ := p
      by_cases hk : k = s
      · rw [mUpdate, if_pos hk, mLookup, if_pos hk, mLookup, if_pos hk]
        rfl
      · rw [mUpdate, if_neg hk, mLookup, if_neg hk, mLookup, if_neg hk, ih]

theorem mLookup_mUpdate_other (m : List (String × FeedMetric)) (s k : String)
    (f : FeedMetric → FeedMetric) (h : s ≠ k) :
    mLookup (mUpdate m s f) k = mLookup m k := by
  induction m with
  | nil => rfl
  | cons p t ih =>
      obtain ⟨k', v⟩ := p
      by_cases hk : k' = s
      · rw [mUpdate, if_pos hk, mLookup, mLookup, if_neg (hk ▸ h), if_neg (hk ▸ h)]
      · rw [mUpdate, if_neg hk, mLookup, mLookup]
        by_cases hk2 : k' = k
        · rw [if_pos hk2, if_pos hk2]
        · rw [if_neg hk2, if_neg hk2, ih]

theorem mUpdate_keys (m : List (String × FeedMetric)) (s : String)
    (f : FeedMetric → FeedMetric) :
    (mUpdate m s f).map Prod.fst = m.map Prod.fst := by
  induction m with
  | nil => rfl
  | cons p t ih =>
      obtain ⟨k, v⟩ := p
      by_cases hk : k = s
      · rw [mUpdate, if_pos hk]
        rfl
      · rw [mUpdate, if_neg hk, List.map_cons, List.map_cons, ih]

theorem mLookup_none_iff (m : List (String × FeedMetric)) (k : String) :
    mLookup m k = none ↔ k ∉ m.map Prod.fst := by
  induction m with
  | nil => simp [mLookup]
  | cons p t ih =>
      obtain ⟨k', v⟩ := p
      rw [mLookup]
      by_cases hk : k' = k
      · subst hk
        simp
      · rw [if_neg hk]
        simp only [List.map_cons, List.mem_cons, ih]
        constructor
        · intro h1 h2
          rcases h2 with h2 | h2
          · exact hk h2.symm
          · exact h1 h2
        · intro h1
          exact fun h2 => h1 (Or.inr h2)

theorem mLookup_of_mem_nodup (m : List (String × FeedMetric)) (k : String)
    (v : FeedMetric) (hmem : (k, v) ∈ m) (hnd : (m.map Prod.fst).Nodup) :
    mLookup m k = some v := by
  induction m with
  | nil => cases hmem
  | cons p t ih =>
      obtain ⟨k', v'⟩ := p
      rw [List.map_cons, List.nodup_cons] at hnd
      rcases List.mem_cons.1 hmem with h | h
      · obtain ⟨rfl, rfl⟩ := Prod.mk.injEq .. ▸ h
        rw [mLookup, if_pos rfl]
      · rw [mLookup]
        by_cases hk : k' = k
        · exfalso
          subst hk
          exact hnd.1 (List.mem_map.2 ⟨(k', v), h, rfl⟩)
        · rw [if_neg hk]
          exact ih h hnd.2

/-! ### Phase characterizations -/

theorem trackFind_lookup (feeds : List (String × ℕ)) :
    ∀ (m : List (String × FeedMetric)) (k : String) (fm : FeedMetric),
      mLookup m k = some fm →
      ∃ fm2, mLookup (trackFind m feeds) k = some fm2 ∧
        fm2.find_count = findAfter feeds fm.find_count k ∧
        fm2.candidate_count = fm.candidate_count ∧
        fm2.release_count = fm.release_count := by
  induction feeds with
  | nil => exact fun m k fm h => ⟨fm, h, rfl, rfl, rfl⟩
  | cons p t ih =>
      intro m k fm h
      rw [show trackFind m (p :: t) =
          trackFind (if (mLookup m p.1).isSome = true then
            mUpdate m p.1 fun fm => { fm with find_count := p.2 } else m) t
        from rfl]
      by_cases hpk : p.1 = k
      · have hguard : (mLookup m p.1).isSome = true := by
          rw [hpk, h]
          rfl
        rw [if_pos hguard]
        have hlk : mLookup (mUpdate m p.1 fun fm =>
            { fm with find_count := p.2 }) k =
            some { fm with find_count := p.2 } := by
          rw [← hpk, mLookup_mUpdate_self, hpk, h]
          rfl
        obtain ⟨fm2, h1, h2, h3, h4⟩ := ih _ k _ hlk
        refine ⟨fm2, h1, ?_, h3, h4⟩
        rw [h2, show findAfter (p :: t) fm.find_count k =
          findAfter t (if p.1 = k then p.2 else fm.find_count) k from rfl,
          if_pos hpk]
      · have hstep : mLookup (if (mLookup m p.1).isSome = true then
            mUpdate m p.1 fun fm => { fm with find_count := p.2 } else m) k =
            some fm := by
          by_cases hg : (mLookup m p.1).isSome = true
          · rw [if_pos hg, mLookup_mUpdate_other _ _ _ _ hpk, h]
          · rw [if_neg hg, h]
        obtain ⟨fm2, h1, h2, h3, h4⟩ := ih _ k _ hstep
        refine ⟨fm2, h1, ?_, h3, h4⟩
        rw [h2, show findAfter (p :: t) fm.find_count k =
          findAfter t (if p.1 = k then p.2 else fm.find_count) k from rfl,
          if_neg hpk]

theorem trackCandidates_lookup (sampled : List String) :
    ∀ (m : List (String × FeedMetric)) (k : String) (fm : FeedMetric),
      mLookup m k = some fm →
      ∃ fm2, mLookup (trackCandidates m sampled) k = some fm2 ∧
        fm2.candidate_count = fm.candidate_count + sampled.count k ∧
        fm2.find_count = fm.find_count ∧
        fm2.release_count = fm.release_count := by
  induction sampled with
  | nil =>
      intro m k fm h
      exact ⟨fm, h, by rw [List.count_nil, Nat.add_zero], rfl, rfl⟩
  | cons s t ih =>
      intro m k fm h
      rw [show trackCandidates m (s :: t) =
          trackCandidates (if (mLookup m s).isSome = true then
            mUpdate m s fun fm =>
              { fm with candidate_count := fm.candidate_count + 1 } else m) t
        from rfl]
      by_cases hpk : s = k
      · have hguard : (mLookup m s).isSome = true := by
          rw [hpk, h]
          rfl
        rw [if_pos hguard]
        have hlk : mLookup (mUpdate m s fun fm =>
            { fm with candidate_count := fm.candidate_count + 1 }) k =
            some { fm with candidate_count := fm.candidate_count + 1 } := by
          rw [← hpk, mLookup_mUpdate_self, hpk, h]
          rfl
        obtain ⟨fm2, h1, h2, h3, h4⟩ := ih _ k _ hlk
        refine ⟨fm2, h1, ?_, h3, h4⟩
        rw [h2]
        subst hpk
        rw [List.count_cons_self]
        dsimp only
        omega
      · have hstep : mLookup (if (mLookup m s).isSome = true then
            mUpdate m s fun fm =>
              { fm with candidate_count := fm.candidate_count + 1 } else m) k =
            some fm := by
          by_cases hg : (mLookup m s).isSome = true
          · rw [if_pos hg, mLookup_mUpdate_other _ _ _ _ hpk, h]
          · rw [if_neg hg, h]
        obtain ⟨fm2, h1, h2, h3, h4⟩ := ih _ k _ hstep
        refine ⟨fm2, h1, ?_, h3, h4⟩
        rw [h2, List.count_cons_of_ne (Ne.symm hpk)]

theorem trackRelease_lookup_aux (selected : List (String × ℚ)) :
    ∀ (n : ℕ) (m : List (String × FeedMetric)) (k : String) (fm : FeedMetric),
      mLookup m k = some fm →
      ∃ fm2, mLookup ((List.enumFrom n selected).foldl (fun acc p =>
          if (mLookup acc p.2.1).isSome = true then
            mUpdate acc p.2.1 fun fm =>
              { fm with release_count := fm.release_count + 1,
                        release_scores := fm.release_scores ++ [p.2.2],
                        rank_list := fm.rank_list ++ [p.1] }
          else acc) m) k = some fm2 ∧
        fm2.release_count = fm.release_count + (selected.map Prod.fst).count k ∧
        fm2.candidate_count = fm.candidate_count ∧
        fm2.find_count = fm.find_count := by
  induction selected with
  | nil =>
      intro n m k fm h
      exact ⟨fm, h, by rw [List.map_nil, List.count_nil, Nat.add_zero],
        rfl, rfl⟩
  | cons p t ih =>
      intro n m k fm h
      rw [show List.enumFrom n (p :: t) = (n, p) :: List.enumFrom (n + 1) t
        from rfl, List.foldl_cons]
      by_cases hpk : p.1 = k
      · have hguard : (mLookup m p.1).isSome = true := by
          rw [hpk, h]
          rfl
        rw [if_pos hguard]
        have hlk : mLookup (mUpdate m p.1 fun fm =>
            { fm with release_count := fm.release_count + 1,
                      release_scores := fm.release_scores ++ [p.2],
                      rank_list := fm.rank_list ++ [n] }) k =
            some { fm with release_count := fm.release_count + 1,
                           release_scores := fm.release_scores ++ [p.2],
                           rank_list := fm.rank_list ++ [n] } := by
          rw [← hpk, mLookup_mUpdate_self, hpk, h]
          rfl
        obtain ⟨fm2, h1, h2, h3, h4⟩ := ih (n + 1) _ k _ hlk
        refine ⟨fm2, h1, ?_, h3, h4⟩
        rw [h2]
        subst hpk
        rw [List.map_cons, List.count_cons_self]
        dsimp only
        omega
      · have hstep : mLookup (if (mLookup m p.1).isSome = true then
            mUpdate m p.1 fun fm =>
              { fm with release_count := fm.release_count + 1,
                        release_scores := fm.release_scores ++ [p.2],
                        rank_list := fm.rank_list ++ [n] } else m) k =
            some fm := by
          by_cases hg : (mLookup m p.1).isSome = true
          · rw [if_pos hg, mLookup_mUpdate_other _ _ _ _ hpk, h]
          · rw [if_neg hg, h]
        obtain ⟨fm2, h1, h2, h3, h4⟩ := ih (n + 1) _ k _ hstep
        refine ⟨fm2, h1, ?_, h3, h4⟩
        rw [h2, List.map_cons, List.count_cons_of_ne (Ne.symm hpk)]

theorem mLookup_mem (m : List (String × FeedMetric)) (k : String)
    (v : FeedMetric) (h : mLookup m k = some v) : (k, v) ∈ m := by
  induction m with
  | nil => cases h
  | cons p t ih =>
      obtain ⟨k', v'⟩ := p
      rw [mLookup] at h
      by_cases hk : k' = k
      · rw [if_pos hk] at h
        obtain rfl := Option.some.inj h
        exact hk ▸ List.mem_cons_self _ _
      · rw [if_neg hk] at h
        exact List.mem_cons_of_mem _ (ih h)

theorem mLookup_mUpdate_isSome (m : List (String × FeedMetric))
    (s k : String) (f : FeedMetric → FeedMetric) :
    (mLookup (mUpdate m s f) k).isSome = (mLookup m k).isSome := by
  by_cases hsk : s = k
  · subst hsk
    rw [mLookup_mUpdate_self]
    cases mLookup m s <;> rfl
  · rw [mLookup_mUpdate_other _ _ _ _ hsk]

theorem trackFind_none (feeds : List (String × ℕ)) :
    ∀ (m : List (String × FeedMetric)) (k : String),
      mLookup m k = none → mLookup (trackFind m feeds) k = none := by
  induction feeds with
  | nil => exact fun m k h => h
  | cons p t ih =>
      intro m k h
      rw [show trackFind m (p :: t) =
          trackFind (if (mLookup m p.1).isSome = true then
            mUpdate m p.1 fun fm => { fm with find_count := p.2 } else m) t
        from rfl]
      apply ih
      by_cases hg : (mLookup m p.1).isSome = true
      · rw [if_pos hg]
        by_cases hpk : p.1 = k
        · rw [← hpk] at h
          rw [h] at hg
          cases hg
        · rw [mLookup_mUpdate_other _ _ _ _ hpk, h]
      · rw [if_neg hg, h]

theorem trackCandidates_none (sampled : List String) :
    ∀ (m : List (String × FeedMetric)) (k : String),
      mLookup m k = none → mLookup (trackCandidates m sampled) k = none := by
  induction sampled with
  | nil => exact fun m k h => h
  | cons s t ih =>
      intro m k h
      rw [show trackCandidates m (s :: t) =
          trackCandidates (if (mLookup m s).isSome = true then
            mUpdate m s fun fm =>
              { fm with candidate_count := fm.candidate_count + 1 } else m) t
        from rfl]
      apply ih
      by_cases hg : (mLookup m s).isSome = true
      · rw [if_pos hg]
        by_cases hpk : s = k
        · rw [← hpk] at h
          rw [h] at hg
          cases hg
        · rw [mLookup_mUpdate_other _ _ _ _ hpk, h]
      · rw [if_neg hg, h]

theorem trackRelease_none_aux (selected : List (String × ℚ)) :
    ∀ (n : ℕ) (m : List (String × FeedMetric)) (k : String),
      mLookup m k = none →
      mLookup ((List.enumFrom n selected).foldl (fun acc p =>
        if (mLookup acc p.2.1).isSome = true then
          mUpdate acc p.2.1 fun fm =>
            { fm with release_count := fm.release_count + 1,
                      release_scores := fm.release_scores ++ [p.2.2],
                      rank_list := fm.rank_list ++ [p.1] }
        else acc) m) k = none := by
  induction selected with
  | nil => exact fun n m k h => h
  | cons p t ih =>
      intro n m k h
      rw [show List.enumFrom n (p :: t) = (n, p) :: List.enumFrom (n + 1) t
        from rfl, List.foldl_cons]
      apply ih
      by_cases hg : (mLookup m p.1).isSome = true
      · rw [if_pos hg]
        by_cases hpk : p.1 = k
        · rw [← hpk] at h
          rw [h] at hg
          cases hg
        · rw [mLookup_mUpdate_other _ _ _ _ hpk, h]
      · rw [if_neg hg, h]

theorem trackFind_keys (feeds : List (String × ℕ)) :
    ∀ m : List (String × FeedMetric),
      (trackFind m feeds).map Prod.fst = m.map Prod.fst := by
  induction feeds with
  | nil => exact fun _ => rfl
  | cons p t ih =>
      intro m
      rw [show trackFind m (p :: t) =
          trackFind (if (mLookup m p.1).isSome = true then
            mUpdate m p.1 fun fm => { fm with find_count := p.2 } else m) t
        from rfl, ih]
      by_cases hg : (mLookup m p.1).isSome = true
      · rw [if_pos hg, mUpdate_keys]
      · rw [if_neg hg]

theorem trackCandidates_keys (sampled : List String) :
    ∀ m : List (String × FeedMetric),
      (trackCandidates m sampled).map Prod.fst = m.map Prod.fst := by
  induction sampled with
  | nil => exact fun _ => rfl
  | cons s t ih =>
      intro m
      rw [show trackCandidates m (s :: t) =
          trackCandidates (if (mLookup m s).isSome = true then
            mUpdate m s fun fm =>
              { fm with candidate_count := fm.candidate_count + 1 } else m) t
        from rfl, ih]
      by_cases hg : (mLookup m s).isSome = true
      · rw [if_pos hg, mUpdate_keys]
      · rw [if_neg hg]

theorem trackRelease_keys_aux (selected : List (String × ℚ)) :
    ∀ (n : ℕ) (m : List (String × FeedMetric)),
      (((List.enumFrom n selected).foldl (fun acc p =>
        if (mLookup acc p.2.1).isSome = true then
          mUpdate acc p.2.1 fun fm =>
            { fm with release_count := fm.release_count + 1,
                      release_scores := fm.release_scores ++ [p.2.2],
                      rank_list := fm.rank_list ++ [p.1] }
        else acc) m)).map Prod.fst = m.map Prod.fst := by
  induction selected with
  | nil => exact fun _ _ => rfl
  | cons p t ih =>
      intro n m
      rw [show List.enumFrom n (p :: t) = (n, p) :: List.enumFrom (n + 1) t
        from rfl, List.foldl_cons, ih]
      by_cases hg : (mLookup m p.1).isSome = true
      · rw [if_pos hg, mUpdate_keys]
      · rw [if_neg hg]

theorem initMetrics_keys_nodup (items : List (String × String × String)) :
    ((initMetrics items).map Prod.fst).Nodup := by
  suffices h : ∀ acc : List (String × FeedMetric), (acc.map Prod.fst).Nodup →
      ((items.foldl initStep acc).map Prod.fst).Nodup from
    h [] List.nodup_nil
  induction items with
  | nil => exact fun acc h => h
  | cons it t ih =>
      intro acc h
      apply ih
      rw [initStep]
      by_cases hg : (mLookup acc it.1).isSome = true
      · rw [if_pos hg]
        exact h
      · rw [if_neg hg, List.map_append, List.nodup_append]
        refine ⟨h, List.nodup_singleton _, ?_⟩
        intro x hx hx2
        rw [List.map_singleton, List.mem_singleton] at hx2
        subst hx2
        have hnone : mLookup acc it.1 = none := by
          cases hl : mLookup acc it.1 with
          | none => rfl
          | some v => rw [hl] at hg; exact absurd rfl hg
        exact (mLookup_none_iff acc it.1).1 hnone hx

theorem initMetrics_zero (items : List (String × String × String)) :
    ∀ p ∈ initMetrics items, p.2.find_count = 0 ∧ p.2.candidate_count = 0 ∧
      p.2.release_count = 0 := by
  suffices h : ∀ acc : List (String × FeedMetric),
      (∀ p ∈ acc, p.2.find_count = 0 ∧ p.2.candidate_count = 0 ∧
        p.2.release_count = 0) →
      ∀ p ∈ items.foldl initStep acc, p.2.find_count = 0 ∧
        p.2.candidate_count = 0 ∧ p.2.release_count = 0 from
    h [] (fun p hp => absurd hp (List.not_mem_nil _))
  induction items with
  | nil => exact fun acc h => h
  | cons it t ih =>
      intro acc h
      apply ih
      intro p hp
      rw [initStep] at hp
      by_cases hg : (mLookup acc it.1).isSome = true
      · rw [if_pos hg] at hp
        exact h p hp
      · rw [if_neg hg] at hp
        rcases List.mem_append.1 hp with h1 | h1
        · exact h p h1
        · rw [List.mem_singleton] at h1
          subst h1
          exact ⟨rfl, rfl, rfl⟩

theorem sumRelease_mUpdate_preserve (m : List (String × FeedMetric))
    (s : String) (f : FeedMetric → FeedMetric)
    (hf : ∀ fm, (f fm).release_count = fm.release_count) :
    sumRelease (mUpdate m s f) = sumRelease m := by
  induction m with
  | nil => rfl
  | cons p t ih =>
      obtain ⟨k, v⟩ := p
      by_cases hk : k = s
      · rw [mUpdate, if_pos hk, sumRelease, sumRelease, List.map_cons,
          List.map_cons, List.sum_cons, List.sum_cons]
        dsimp only
        rw [hf v]
      · rw [mUpdate, if_neg hk, sumRelease, sumRelease, List.map_cons,
          List.map_cons, List.sum_cons, List.sum_cons]
        dsimp only
        have := ih
        rw [sumRelease, sumRelease] at this
        rw [this]

theorem sumRelease_mUpdate_inc (m : List (String × FeedMetric)) (s : String)
    (f : FeedMetric → FeedMetric)
    (hf : ∀ fm, (f fm).release_count = fm.release_count + 1)
    (hg : (mLookup m s).isSome = true) :
    sumRelease (mUpdate m s f) = sumRelease m + 1 := by
  induction m with
  | nil => cases hg
  | cons p t ih =>
      obtain ⟨k, v⟩ := p
      by_cases hk : k = s
      · rw [mUpdate, if_pos hk, sumRelease, sumRelease, List.map_cons,
          List.map_cons, List.sum_cons, List.sum_cons]
        dsimp only
        rw [hf v]
        omega
      · rw [mLookup, if_neg hk] at hg
        rw [mUpdate, if_neg hk, sumRelease, sumRelease, List.map_cons,
          List.map_cons, List.sum_cons, List.sum_cons]
        dsimp only
        have := ih hg
        rw [sumRelease, sumRelease] at this
        rw [this]
        omega

theorem sumRelease_trackFind (feeds : List (String × ℕ)) :
    ∀ m : List (String × FeedMetric),
      sumRelease (trackFind m feeds) = sumRelease m := by
  induction feeds with
  | nil => exact fun _ => rfl
  | cons p t ih =>
      intro m
      rw [show trackFind m (p :: t) =
          trackFind (if (mLookup m p.1).isSome = true then
            mUpdate m p.1 fun fm => { fm with find_count := p.2 } else m) t
        from rfl, ih]
      by_cases hg : (mLookup m p.1).isSome = true
      · rw [if_pos hg, sumRelease_mUpdate_preserve m p.1
          (fun fm => { fm with find_count := p.2 }) (fun fm => rfl)]
      · rw [if_neg hg]

theorem sumRelease_trackCandidates (sampled : List String) :
    ∀ m : List (String × FeedMetric),
      sumRelease (trackCandidates m sampled) = sumRelease m := by
  induction sampled with
  | nil => exact fun _ => rfl
  | cons s t ih =>
      intro m
      rw [show trackCandidates m (s :: t) =
          trackCandidates (if (mLookup m s).isSome = true then
            mUpdate m s fun fm =>
              { fm with candidate_count := fm.candidate_count + 1 } else m) t
        from rfl, ih]
      by_cases hg : (mLookup m s).isSome = true
      · rw [if_pos hg, sumRelease_mUpdate_preserve m s
          (fun fm => { fm with candidate_count := fm.candidate_count + 1 })
          (fun fm => rfl)]
      · rw [if_neg hg]

theorem sumRelease_initMetrics (items : List (String × String × String)) :
    sumRelease (initMetrics items) = 0 := by
  suffices h : ∀ acc : List (String × FeedMetric), sumRelease acc = 0 →
      sumRelease (items.foldl initStep acc) = 0 from h [] rfl
  induction items with
  | nil => exact fun acc h => h
  | cons it t ih =>
      intro acc h
      apply ih
      rw [initStep]
      by_cases hg : (mLookup acc it.1).isSome = true
      · rw [if_pos hg]
        exact h
      · rw [if_neg hg, sumRelease, List.map_append, List.sum_append]
        rw [sumRelease] at h
        rw [h]
        rfl

theorem sumRelease_trackRelease_aux (selected : List (String × ℚ)) :
    ∀ (n : ℕ) (m : List (String × FeedMetric)),
      (∀ p ∈ selected, (mLookup m p.1).isSome = true) →
      sumRelease ((List.enumFrom n selected).foldl (fun acc p =>
        if (mLookup acc p.2.1).isSome = true then
          mUpdate acc p.2.1 fun fm =>
            { fm with release_count := fm.release_count + 1,
                      release_scores := fm.release_scores ++ [p.2.2],
                      rank_list := fm.rank_list ++ [p.1] }
        else acc) m) = sumRelease m + selected.length := by
  induction selected with
  | nil => exact fun n m _ => rfl
  | cons p t ih =>
      intro n m hm
      rw [show List.enumFrom n (p :: t) = (n, p) :: List.enumFrom (n + 1) t
        from rfl, List.foldl_cons]
      have hg : (mLookup m p.1).isSome = true :=
        hm p (List.mem_cons_self _ _)
      rw [if_pos hg]
      rw [ih (n + 1) _ ?_]
      · rw [sumRelease_mUpdate_inc _ _ _ (fun fm => rfl) hg,
          List.length_cons]
        omega
      · intro q hq
        rw [mLookup_mUpdate_isSome]
        exact hm q (List.mem_cons_of_mem _ hq)

end Metrics

/-- **C6 (counterexample).** Conservation fails on runs the claim includes:
an article whose feed title is not registered is released without any
`release_count` increment (sum 0 ≠ slate length 1), and a cache run never
sets `find_count`, so `candidate_count` exceeds it. -/
theorem metrics_conservation_counterexample :
    (Metrics.sumRelease (Metrics.runMetrics [] false [] [] [("X", 1)]) = 0 ∧
      (([("X", (1 : ℚ))] : List (String × ℚ)).length = 1)) ∧
    Metrics.mLookup (Metrics.runMetrics [("F", "t", "p")] true [] ["F"] [])
        "F" = some ⟨"F", "t", "p", 0, 1, 0, [], []⟩ := by
  constructor
  · exact ⟨by decide, rfl⟩
  · decide

/-- **C6 (amended).** For a fetch (non-cache) run in which every selected
article's feed title is registered, the selected slate is drawn from the
sampled articles, and each feed's fetched count dominates its sampled
count: the final metrics satisfy `Σ release_count = slate length` and
`release_count ≤ candidate_count ≤ find_count` for every feed.  The claim's
unconditional version fails for cache runs and unregistered titles. -/
theorem metrics_conservation (items : List (String × String × String))
    (feeds : List (String × ℕ)) (sampled : List String)
    (selected : List (String × ℚ))
    (hreg : ∀ p ∈ selected,
      (Metrics.mLookup (Metrics.initMetrics items) p.1).isSome = true)
    (hsub : List.Subperm (selected.map Prod.fst) sampled)
    (hfind : ∀ k, sampled.count k ≤ Metrics.findAfter feeds 0 k) :
    Metrics.sumRelease (Metrics.runMetrics items false feeds sampled
      selected) = selected.length ∧
    ∀ p ∈ Metrics.runMetrics items false feeds sampled selected,
      p.2.release_count ≤ p.2.candidate_count ∧
      p.2.candidate_count ≤ p.2.find_count := by
  have hm1 : Metrics.runMetrics items false feeds sampled selected =
      Metrics.trackRelease (Metrics.trackCandidates
        (Metrics.trackFind (Metrics.initMetrics items) feeds) sampled)
      selected := rfl
  have hsome2 : ∀ p ∈ selected,
      (Metrics.mLookup (Metrics.trackCandidates
        (Metrics.trackFind (Metrics.initMetrics items) feeds) sampled)
        p.1).isSome = true := by
    intro p hp
    have h0 := hreg p hp
    cases h1 : Metrics.mLookup (Metrics.initMetrics items) p.1 with
    | none => rw [h1] at h0; cases h0
    | some fm0 =>
        obtain ⟨fm1, hl1, _, _, _⟩ :=
          Metrics.trackFind_lookup feeds _ p.1 fm0 h1
        obtain ⟨fm2, hl2, _, _, _⟩ :=
          Metrics.trackCandidates_lookup sampled _ p.1 fm1 hl1
        rw [hl2]
        rfl
  constructor
  · rw [hm1, Metrics.trackRelease,
      Metrics.sumRelease_trackRelease_aux selected 1 _ hsome2,
      Metrics.sumRelease_trackCandidates, Metrics.sumRelease_trackFind,
      Metrics.sumRelease_initMetrics, Nat.zero_add]
  · intro p hp
    obtain ⟨k, v⟩ := p
    have hknd : ((Metrics.runMetrics items false feeds sampled
        selected).map Prod.fst).Nodup := by
      rw [hm1, Metrics.trackRelease, Metrics.trackRelease_keys_aux,
        Metrics.trackCandidates_keys, Metrics.trackFind_keys]
      exact Metrics.initMetrics_keys_nodup items
    have hlk := Metrics.mLookup_of_mem_nodup _ k v hp hknd
    cases h0 : Metrics.mLookup (Metrics.initMetrics items) k with
    | none =>
        exfalso
        have hn1 := Metrics.trackFind_none feeds _ k h0
        have hn2 := Metrics.trackCandidates_none sampled _ k hn1
        have hn3 := Metrics.trackRelease_none_aux selected 1 _ k hn2
        rw [hm1, Metrics.trackRelease, hn3] at hlk
        cases hlk
    | some fm0 =>
        obtain ⟨hz1, hz2, hz3⟩ :=
          Metrics.initMetrics_zero items (k, fm0) (Metrics.mLookup_mem _ _ _ h0)
        obtain ⟨fm1, hl1, hf1, hc1, hr1⟩ :=
          Metrics.trackFind_lookup feeds _ k fm0 h0
        obtain ⟨fm2, hl2, hc2, hf2, hr2⟩ :=
          Metrics.trackCandidates_lookup sampled _ k fm1 hl1
        obtain ⟨fm3, hl3, hr3, hc3, hf3⟩ :=
          Metrics.trackRelease_lookup_aux selected 1 _ k fm2 hl2
        rw [hm1, Metrics.trackRelease, hl3] at hlk
        obtain rfl := Option.some.inj hlk
        have hcount : ((selected.map Prod.fst).count k) ≤ sampled.count k :=
          hsub.count_le k
        have hfk := hfind k
        constructor
        · rw [hr3, hc3, hr2, hc2, hr1, hz3, hc1, hz2]
          omega
        · rw [hc3, hf3, hc2, hf2, hc1, hf1, hz2, hz1]
          omega

/-- **C6 (witness).** The amended theorem at a concrete run: one feed `F`
fetched 2 articles, both sampled, one released. -/
theorem metrics_conservation_witness :
    Metrics.sumRelease (Metrics.runMetrics [("F", "t", "p")] false
      [("F", 2)] ["F", "F"] [("F", 1)]) = 1 ∧
    ∀ p ∈ Metrics.runMetrics [("F", "t", "p")] false [("F", 2)] ["F", "F"]
        [("F", 1)],
      p.2.release_count ≤ p.2.candidate_count ∧
      p.2.candidate_count ≤ p.2.find_count := by
  have h := metrics_conservation [("F", "t", "p")] [("F", 2)] ["F", "F"]
    [("F", 1)]
    (by decide)
    (List.Sublist.subperm (by decide))
    (by
      intro k
      by_cases hk : k = "F"
      · subst hk
        decide
      · have h1 : List.count k ["F", "F"] = 0 := by
          rw [List.count_eq_zero]
          intro hmem
          rcases List.mem_cons.1 hmem with h2 | h2
          · exact hk h2
          · rw [List.mem_singleton] at h2
            exact hk h2
        rw [h1]
        exact Nat.zero_le _)
  exact ⟨h.1, h.2⟩

namespace Blog

/-! ## Markdown rendering (blog.py)

`make_daily_markdown_with` renders metadata (`make_meta_data`), a guide and
the articles content.  Two sources of run-dependence are made explicit
parameters: `sampler` stands for `random.Random(seed).sample(available, k)`
(a pure function of seed, population and count in CPython), and `setIter`
stands for the iteration order of `set(tags)` (which depends on
`PYTHONHASHSEED`, i.e. on the interpreter process).  `todayStr`/`nowStr`
stand for the `datetime.today()` strings and `blogFolder` for the computed
folder.  `display_link`/`exclude_threads_links` in
`make_articles_content` are computed but never used in the emitted
markdown, so the rendering does not depend on them; `build_insight_lines`'s
`hasattr`/`isinstance` guards are vacuous for structurally typed articles. -/

structure REval where
  title : String
  summary : String
  tags : List String
  why_it_matters : String
  key_evidence : String
  who_should_care : String
  next_action : String
  comparison : String
deriving DecidableEq

structure BArticle where
  link : String
  date : String
  cover_url : String
  exclude_threads : Bool
  evaluate : REval
deriving DecidableEq

/-- `value.replace('/', '_')`: single-character replace, per char. -/
def rectify_tag_value (value : String) : String :=
  "- \"" ++ (⟨value.data.map fun c => if c = '/' then '_' else c⟩ : String) ++
    "\"\n"

def make_meta_data (todayStr nowStr blogFolder : String)
    (description : String) (tags : List String)
    (setIter : List String → List String) : String × String :=
  let md_title := "Daily News #" ++ todayStr
  let tags_field :=
    if tags ≠ [] ∧ 0 < tags.length then
      "tags: \n" ++ String.join ((setIter tags).map rectify_tag_value)
    else "tags: []"
  let data := "---\ntitle: \"" ++ md_title ++ "\"\ndate: \"" ++ nowStr ++
    "\"\ndescription: \"" ++ description ++ "\"\n" ++ tags_field ++
    "\n---\n"
  (blogFolder ++ "/dailyNews_" ++ todayStr ++ ".md", data)

def insightSentence (k v : String) : String :=
  if k = "why_it_matters" then "이 소식이 중요한 이유는 " ++ v
  else if k = "key_evidence" then "구체적 근거로 " ++ v
  else if k = "who_should_care" then "특히 " ++ v ++ "에게 직접적인 도움이 됩니다"
  else if k = "next_action" then "이후에는 " ++ v
  else if k = "comparison" then "경쟁 대비 차별점은 " ++ v
  else v

def rstripDots (s : String) : String :=
  ⟨(s.data.reverse.dropWhile fun c => c = '.').reverse⟩

/-- `str.strip()` on the whitespace these templates can carry. -/
def isSpaceChar (c : Char) : Bool :=
  c = ' ' || c = '\t' || c = '\r' || c = '\n'

def stripWs (s : String) : String :=
  ⟨((s.data.dropWhile isSpaceChar).reverse.dropWhile isSpaceChar).reverse⟩

def endsWithStr (s suf : String) : Bool :=
  beginsWith s.data.reverse suf.data.reverse

def fixSentence (s : String) : String :=
  let t := stripWs s
  if endsWithStr t "다." || endsWithStr t "다" then t else rstripDots t ++ "."

def availableInsights (e : REval) : List (String × String) :=
  ([("why_it_matters", e.why_it_matters), ("key_evidence", e.key_evidence),
    ("who_should_care", e.who_should_care), ("next_action", e.next_action),
    ("comparison", e.comparison)]).filter fun p => decide (p.2 ≠ "")

def build_insight_lines
    (sampler : String → List (String × String) → ℕ → List (String × String))
    (a : BArticle) : String :=
  let available := availableInsights a.evaluate
  if available = [] then ""
  else
    let sample_count := min 3 available.length
    if sample_count = 0 then ""
    else
      let seed_value := a.evaluate.title ++ "-" ++ a.date
      let selected := sampler seed_value available sample_count
      let sentences := selected.map fun p => fixSentence (insightSentence p.1 p.2)
      "\n" ++ String.intercalate "\n" sentences ++ "\n"

def articleIntro
    (sampler : String → List (String × String) → ℕ → List (String × String))
    (a : BArticle) : String :=
  let cover := if a.cover_url ≠ "" then "![](" ++ a.cover_url ++ ")" else ""
  let title_line := "### " ++ a.evaluate.title
  let source_line := ""
  let insight_lines := build_insight_lines sampler a
  "\n" ++ title_line ++ "\n" ++ source_line ++ "\n발행시간: " ++ a.date ++
    "\n" ++ cover ++ "\n" ++ a.evaluate.summary ++ "\n" ++ insight_lines ++
    "\n"

def make_articles_content
    (sampler : String → List (String × String) → ℕ → List (String × String))
    (articles : List BArticle) : String :=
  if articles = [] then ""
  else articles.foldl (fun content a => content ++ articleIntro sampler a) ""

def make_daily_guide (titles : List String) : String :=
  "\n" ++ String.join (titles.map fun item => "> - " ++ item ++ "\n") ++ "\n"

def make_daily_markdown_with
    (sampler : String → List (String × String) → ℕ → List (String × String))
    (setIter : List String → List String)
    (todayStr nowStr blogFolder : String)
    (articles : List BArticle) : Option (String × String) :=
  let tags := (articles.map fun a => a.evaluate.tags).flatten
  let article_titles := articles.map fun a => a.evaluate.title
  let articles_content := make_articles_content sampler articles
  let md := make_meta_data todayStr nowStr blogFolder
    (String.intercalate "\n" article_titles) tags setIter
  let daily_guide := make_daily_guide article_titles
  if articles_content = "" then none
  else some (md.1, md.2 ++ daily_guide ++
    String.intercalate "\n" [articles_content])

end Blog

namespace Blog

theorem articleIntro_congr
    (sampler : String → List (String × String) → ℕ → List (String × String))
    (x y : BArticle) (he : x.evaluate = y.evaluate) (hd : x.date = y.date)
    (hc : x.cover_url = y.cover_url) :
    articleIntro sampler x = articleIntro sampler y := by
  rw [articleIntro, articleIntro, build_insight_lines, build_insight_lines,
    he, hd, hc]

theorem renderer_components_congr
    (sampler : String → List (String × String) → ℕ → List (String × String))
    (a1 a2 : List BArticle)
    (h : List.Forall₂ (fun x y => x.evaluate = y.evaluate ∧ x.date = y.date ∧
      x.cover_url = y.cover_url) a1 a2) :
    a1.map (fun a => a.evaluate.title) = a2.map (fun a => a.evaluate.title) ∧
    a1.map (fun a => a.evaluate.tags) = a2.map (fun a => a.evaluate.tags) ∧
    ∀ acc : String,
      a1.foldl (fun c a => c ++ articleIntro sampler a) acc =
      a2.foldl (fun c a => c ++ articleIntro sampler a) acc := by
  induction h with
  | nil => exact ⟨rfl, rfl, fun _ => rfl⟩
  | cons hxy ht ih =>
      refine ⟨?_, ?_, ?_⟩
      · rw [List.map_cons, List.map_cons, hxy.1, ih.1]
      · rw [List.map_cons, List.map_cons, hxy.1, ih.2.1]
      · intro acc
        rw [List.foldl_cons, List.foldl_cons,
          articleIntro_congr sampler _ _ hxy.1 hxy.2.1 hxy.2.2]
        exact ih.2.2 _

end Blog

/-- **C8 (counterexample).** The rendered file is not byte-identical across
runs: `make_meta_data` iterates `set(tags)` whose order depends on the
interpreter's hash seed.  Two legitimate iteration orders of the same
two-element tag set yield different files. -/
theorem renderer_determinism_counterexample :
    List.Perm ["a", "b"] ["b", "a"] ∧
    Blog.make_daily_markdown_with (fun _ l n => l.take n) (fun _ => ["a", "b"])
        "2024-01-01" "2024-01-01 00:00:00" "blog"
        [⟨"L", "2024-01-01", "", false,
          ⟨"T", "S", ["a", "b"], "W", "", "", "", ""⟩⟩] ≠
      Blog.make_daily_markdown_with (fun _ l n => l.take n)
        (fun _ => ["b", "a"])
        "2024-01-01" "2024-01-01 00:00:00" "blog"
        [⟨"L", "2024-01-01", "", false,
          ⟨"T", "S", ["a", "b"], "W", "", "", "", ""⟩⟩] := by
  constructor
  · decide
  · decide

/-- **C8 (amended).** The renderer is deterministic in the article data:
for any fixed sampling function (the insight RNG is seeded only by the
evaluate title and the article date), set-iteration order and timestamps,
two article lists agreeing pointwise on evaluation, date and cover render
byte-identically — other fields (link, config) do not influence the
output.  Whole-file byte-identity across interpreter runs additionally
requires the same `set(tags)` iteration order and the same generation
timestamp, which Python does not guarantee. -/
theorem renderer_deterministic
    (sampler : String → List (String × String) → ℕ → List (String × String))
    (setIter : List String → List String)
    (todayStr nowStr blogFolder : String) (a1 a2 : List Blog.BArticle)
    (h : List.Forall₂ (fun x y => x.evaluate = y.evaluate ∧ x.date = y.date ∧
      x.cover_url = y.cover_url) a1 a2) :
    Blog.make_daily_markdown_with sampler setIter todayStr nowStr blogFolder
        a1 =
      Blog.make_daily_markdown_with sampler setIter todayStr nowStr blogFolder
        a2 := by
  obtain ⟨htit, htag, hfold⟩ := Blog.renderer_components_congr sampler a1 a2 h
  have hcontent : Blog.make_articles_content sampler a1 =
      Blog.make_articles_content sampler a2 := by
    cases h with
    | nil => rfl
    | cons hxy hrest =>
        rw [Blog.make_articles_content, Blog.make_articles_content,
          if_neg (List.cons_ne_nil _ _), if_neg (List.cons_ne_nil _ _)]
        exact hfold ""
  simp only [Blog.make_daily_markdown_with]
  rw [htit, htag, hcontent]

/-- **C8 (witness).** Two single-article lists differing only in `link` and
the threads-exclusion flag render identically for a concrete sampler,
iteration order and timestamp. -/
theorem renderer_deterministic_witness :
    Blog.make_daily_markdown_with (fun _ l n => l.take n) (fun l => l)
        "2024-01-01" "now" "blog"
        [⟨"link1", "2024-01-01", "c", false,
          ⟨"T", "S", ["a"], "W", "", "", "", ""⟩⟩] =
      Blog.make_daily_markdown_with (fun _ l n => l.take n) (fun l => l)
        "2024-01-01" "now" "blog"
        [⟨"link2", "2024-01-01", "c", true,
          ⟨"T", "S", ["a"], "W", "", "", "", ""⟩⟩] :=
  renderer_deterministic (fun _ l n => l.take n) (fun l => l) "2024-01-01"
    "now" "blog" _ _ (List.Forall₂.cons ⟨rfl, rfl, rfl⟩ List.Forall₂.nil)

namespace Cleaner

/-! ## `text_cleaner.py`

`remove_emojis` filters characters in the listed Unicode ranges, collapses
runs of spaces, normalizes the whitespace after a 1-6 `#` markdown header
at each line start (`re.MULTILINE`; the `\s+` may swallow newlines), and
strips the ends.  `clean_article_content` copies the dict and overwrites
only a truthy `title` / `summary` through `remove_emojis`; per the schema
those values are strings, so the cleaning step is modelled on the string
payload. -/

inductive PyVal where
  | str : String → PyVal
  | num : ℚ → PyVal
  | strs : List String → PyVal
deriving DecidableEq

def pyTruthy : PyVal → Bool
  | .str s => s ≠ ""
  | .num q => q ≠ 0
  | .strs l => l ≠ []

def isEmojiChar (c : Char) : Bool :=
  let n := c.toNat
  (0x1F600 ≤ n ∧ n ≤ 0x1F64F) ∨ (0x1F300 ≤ n ∧ n ≤ 0x1F5FF) ∨
  (0x1F680 ≤ n ∧ n ≤ 0x1F6FF) ∨ (0x1F700 ≤ n ∧ n ≤ 0x1F77F) ∨
  (0x1F780 ≤ n ∧ n ≤ 0x1F7FF) ∨ (0x1F800 ≤ n ∧ n ≤ 0x1F8FF) ∨
  (0x1F900 ≤ n ∧ n ≤ 0x1F9FF) ∨ (0x1FA00 ≤ n ∧ n ≤ 0x1FA6F) ∨
  (0x1FA70 ≤ n ∧ n ≤ 0x1FAFF) ∨ (0x2600 ≤ n ∧ n ≤ 0x26FF) ∨
  (0x2700 ≤ n ∧ n ≤ 0x27BF) ∨ (0xFE00 ≤ n ∧ n ≤ 0xFE0F) ∨
  (0x1F1E0 ≤ n ∧ n ≤ 0x1F1FF) ∨ (0x2300 ≤ n ∧ n ≤ 0x23FF) ∨
  (0x2B50 ≤ n ∧ n ≤ 0x2BFF) ∨ n = 0x200D ∨ n = 0x1F004 ∨ n = 0x1F0CF ∨
  n = 0x1F18E ∨ (0x1F191 ≤ n ∧ n ≤ 0x1F19A) ∨
  (0x1F201 ≤ n ∧ n ≤ 0x1F251) ∨ n = 0x203C ∨ n = 0x2049 ∨
  (0x25AA ≤ n ∧ n ≤ 0x25FE) ∨ (0x1F004 ≤ n ∧ n ≤ 0x1F0CF)

/-- `re.sub(r' +', ' ', s)` (fuel-driven; each step consumes a char). -/
def collapseSpacesAux : Nat → List Char → List Char
  | 0, _ => []
  | _ + 1, [] => []
  | fuel + 1, c :: t =>
      if c = ' ' then ' ' :: collapseSpacesAux fuel (t.dropWhile fun x => x = ' ')
      else c :: collapseSpacesAux fuel t

def pyIsSpace (c : Char) : Bool :=
  c = ' ' || c = '\t' || c = '\n' || c = '\r' ||
    c = Char.ofNat 11 || c = Char.ofNat 12

/-- `re.sub(r'^(#{1,6})\s+', r'\1 ', s, flags=re.MULTILINE)`: at a line
start, 1-6 `#` followed by whitespace keeps the hashes and one space
(fuel-driven; each step consumes at least one char). -/
def headerFixAux : Nat → Bool → List Char → List Char
  | 0, _, _ => []
  | _ + 1, _, [] => []
  | fuel + 1, atStart, c :: t =>
      if atStart ∧ c = '#' then
        let hashes := (c :: t).takeWhile fun x => x = '#'
        let rest := (c :: t).dropWhile fun x => x = '#'
        if hashes.length ≤ 6 ∧ rest.head?.any pyIsSpace then
          hashes ++ ' ' :: headerFixAux fuel false (rest.dropWhile pyIsSpace)
        else c :: headerFixAux fuel (decide (c = '\n')) t
      else c :: headerFixAux fuel (decide (c = '\n')) t

def stripPy (l : List Char) : List Char :=
  ((l.dropWhile pyIsSpace).reverse.dropWhile pyIsSpace).reverse

def remove_emojis (text : String) : String :=
  if text = "" then text
  else
    let c1 := text.data.filter fun c => !(isEmojiChar c)
    let c2 := collapseSpacesAux (c1.length + 1) c1
    let c3 := headerFixAux (c2.length + 1) true c2
    ⟨stripPy c3⟩

def evLookup : List (String × PyVal) → String → Option PyVal
  | [], _ => none
  | (k, v) :: t, s => if k = s then some v else evLookup t s

def evSet : List (String × PyVal) → String → PyVal → List (String × PyVal)
  | [], k, v => [(k, v)]
  | (k', v') :: t, k, v =>
      if k' = k then (k', v) :: t else (k', v') :: evSet t k v

def cleanVal : PyVal → PyVal
  | .str s => .str (remove_emojis s)
  | v => v

def clean_article_content (d : List (String × PyVal)) :
    List (String × PyVal) :=
  if d = [] then d
  else
    let c1 := match evLookup d "title" with
      | some v => if pyTruthy v then evSet d "title" (cleanVal v) else d
      | none => d
    match evLookup c1 "summary" with
    | some v => if pyTruthy v then evSet c1 "summary" (cleanVal v) else c1
    | none => c1

theorem evLookup_evSet_other (m : List (String × PyVal)) (s k : String)
    (v : PyVal) (h : s ≠ k) : evLookup (evSet m s v) k = evLookup m k := by
  induction m with
  | nil => simp [evSet, evLookup, h]
  | cons p t ih =>
      obtain ⟨k', v'⟩ := p
      by_cases hk : k' = s
      · rw [evSet, if_pos hk, evLookup, evLookup]
        by_cases hk2 : k' = k
        · exact absurd (hk.symm.trans hk2) h
        · rw [if_neg hk2, if_neg hk2]
      · rw [evSet, if_neg hk, evLookup, evLookup]
        by_cases hk2 : k' = k
        · rw [if_pos hk2, if_pos hk2]
        · rw [if_neg hk2, if_neg hk2, ih]

end Cleaner

/-- **C10.** `clean_article_content` only rewrites `title` and `summary`:
every other key keeps exactly its input binding (the input itself is
untouched — the function works on a copy). -/
theorem clean_article_content_frame (d : List (String × Cleaner.PyVal))
    (k : String) (hk1 : k ≠ "title") (hk2 : k ≠ "summary") :
    Cleaner.evLookup (Cleaner.clean_article_content d) k =
      Cleaner.evLookup d k := by
  rw [Cleaner.clean_article_content]
  by_cases hd : d = []
  · rw [if_pos hd]
  · rw [if_neg hd]
    have h1 : ∀ c1 : List (String × Cleaner.PyVal),
        Cleaner.evLookup c1 k = Cleaner.evLookup d k →
        Cleaner.evLookup (match Cleaner.evLookup c1 "summary" with
          | some v => if Cleaner.pyTruthy v then
              Cleaner.evSet c1 "summary" (Cleaner.cleanVal v) else c1
          | none => c1) k = Cleaner.evLookup d k := by
      intro c1 hc1
      cases Cleaner.evLookup c1 "summary" with
      | none => exact hc1
      | some v =>
          dsimp only
          by_cases hv : Cleaner.pyTruthy v = true
          · rw [if_pos hv,
              Cleaner.evLookup_evSet_other c1 "summary" k _ (Ne.symm hk2)]
            exact hc1
          · rw [if_neg hv]
            exact hc1
    apply h1
    cases Cleaner.evLookup d "title" with
    | none => rfl
    | some v =>
        dsimp only
        by_cases hv : Cleaner.pyTruthy v = true
        · rw [if_pos hv,
            Cleaner.evLookup_evSet_other d "title" k _ (Ne.symm hk1)]
        · rw [if_neg hv]

/-- **C10 (witness).** The frame theorem at a concrete evaluation dict and
the key `tags`. -/
theorem clean_article_content_frame_witness :
    Cleaner.evLookup (Cleaner.clean_article_content
      [("title", Cleaner.PyVal.str "😀 Hi"),
       ("tags", Cleaner.PyVal.strs ["AI"]),
       ("score", Cleaner.PyVal.num 9)]) "tags" =
    Cleaner.evLookup
      [("title", Cleaner.PyVal.str "😀 Hi"),
       ("tags", Cleaner.PyVal.strs ["AI"]),
       ("score", Cleaner.PyVal.num 9)] "tags" :=
  clean_article_content_frame _ "tags" (by decide) (by decide)
